import Mathlib

/-!
# komplott.c: a shallow embedding

The interpreter of `src/komplott.c` is embedded as state-passing functions.

* A C array (the heap block, `roots`, `rootstack`, the locals on the C stack)
  is an `Arr`: a total map from indices to values with `get` and `set`.
* A C pointer value is a `ptr`: `NULL`, the address of a heap cell
  (`heap + i`), `&fwdmarker`, the address of an interned text, or the address
  of a builtin function.
* A call that terminates the process (`abort`, a failed `assert`, `exit`)
  and a call whose behaviour C leaves undefined (a load through `NULL`, a
  store outside the block) are outcomes of their own, see `Res`.
-/

set_option autoImplicit false

namespace Komplott

/-! ## C arrays -/

/-- Binary trie over the low `d` bits of an index, most significant first. -/
inductive Trie (α : Type) where
  | nil : Trie α
  | leaf (a : α) : Trie α
  | node (l r : Trie α) : Trie α
  deriving DecidableEq, Repr

/-- Read index `i` (below `2 ^ d`) of a trie; cells never written hold `dflt`. -/
def Trie.get {α : Type} (dflt : α) : Nat → Trie α → Nat → α
  | 0, .leaf a, _ => a
  | 0, _, _ => dflt
  | d + 1, .node l r, i =>
    if i < 2 ^ d then Trie.get dflt d l i else Trie.get dflt d r (i - 2 ^ d)
  | _ + 1, _, _ => dflt

/-- Write `v` at index `i` (below `2 ^ d`) of a trie. -/
def Trie.set {α : Type} : Nat → Trie α → Nat → α → Trie α
  | 0, _, _, v => .leaf v
  | d + 1, .node l r, i, v =>
    if i < 2 ^ d then .node (Trie.set d l i v) r else .node l (Trie.set d r (i - 2 ^ d) v)
  | d + 1, _, i, v =>
    if i < 2 ^ d then .node (Trie.set d .nil i v) .nil
    else .node .nil (Trie.set d .nil (i - 2 ^ d) v)

/-- Number of index bits of every modelled array: room for `2 ^ 13` entries. -/
def ARRBITS : Nat := 13

/-- Capacity of a modelled array. -/
def ARRCAP : Nat := 2 ^ ARRBITS

/-- A C array of fewer than `ARRCAP` entries. -/
structure Arr (α : Type) where
  tree : Trie α
  deriving DecidableEq, Repr

/-- The array whose every entry is the default value. -/
def Arr.empty {α : Type} : Arr α := ⟨.nil⟩

/-- The entry `a[i]`; outside the capacity it reads as the default value. -/
def Arr.get {α : Type} [Inhabited α] (a : Arr α) (i : Nat) : α :=
  if i < ARRCAP then Trie.get default ARRBITS a.tree i else default

/-- The store `a[i] = v`; outside the capacity the array is left as it is. -/
def Arr.set {α : Type} (a : Arr α) (i : Nat) (v : α) : Arr α :=
  if i < ARRCAP then ⟨Trie.set ARRBITS a.tree i v⟩ else a

/-- The stores `a[i] = v0, a[i + 1] = v1, ...`. -/
def Arr.write {α : Type} (a : Arr α) (i : Nat) : List α → Arr α
  | [] => a
  | v :: vs => Arr.write (a.set i v) (i + 1) vs

/-! ## Objects -/

/-- The `object_tag` enumeration. -/
inductive object_tag where
  | T_CONS | T_ATOM | T_CFUNC | T_LAMBDA
  deriving DecidableEq, Repr

/-- A pointer value as stored in `car`, `cdr` or a local of type `object *`. -/
inductive ptr where
  /-- The null pointer. -/
  | null
  /-- The address `heap + i` of a cell of the heap block. -/
  | cell (i : Nat)
  /-- The address `&fwdmarker`. -/
  | fwd
  /-- The address of the text of an interned string. -/
  | text (h : Nat)
  /-- The address of the builtin function number `f`. -/
  | func (f : Nat)
  deriving DecidableEq, Repr

instance : Inhabited ptr := ⟨.null⟩

/-- The `object` structure. -/
structure object where
  car : ptr
  cdr : ptr
  tag : object_tag
  deriving DecidableEq, Repr

instance : Inhabited object := ⟨⟨.null, .null, .T_CONS⟩⟩

/-! ## Interned strings -/

/-- One `struct intern`: the address of its text and the text itself. -/
structure intern where
  addr : Nat
  text : String
  deriving DecidableEq, Repr

/-- The static list `interns` (most recent item first) and the next address
that `malloc` hands out. -/
structure interns where
  items : List intern
  brk : Nat
  deriving DecidableEq, Repr

/-- The scan `for (is = interns; is != NULL; is = is->next)` of `intern_string`. -/
def intern_find (str : String) : List intern → Option Nat
  | [] => none
  | is :: rest => if is.text = str then some is.addr else intern_find str rest

/-- `intern_string(str)`: the address of the interned text and the new table. -/
def intern_string (str : String) (t : interns) : Nat × interns :=
  match intern_find str t.items with
  | some a => (a, t)
  | none => (t.brk, ⟨⟨t.brk, str⟩ :: t.items, t.brk + 1⟩)

/-! ## The collector's state -/

def HEAPSIZE : Nat := 2048
def MAXROOTS : Nat := 500
def MAXFRAMES : Nat := 50

/-- The static variables of the collector, the heap block and the C stack.
`tospace`, `fromspace`, `allocptr` and `scanptr` are offsets from `heap`;
`roots[i]` is the address of a local, an index of `stack`; `sp` is the first
free address of the C stack. -/
structure gc where
  mem : Arr object
  tospace : Nat
  fromspace : Nat
  allocptr : Nat
  scanptr : Nat
  roots : Arr Nat
  rootstack : Arr Nat
  roottop : Nat
  numroots : Nat
  stack : Arr ptr
  sp : Nat
  deriving DecidableEq, Repr

/-- How a call ends, over the state `σ` it works on. -/
inductive Res (σ α : Type) where
  /-- The call returns `a` and leaves the state `s`. -/
  | ret (a : α) (s : σ)
  /-- The process is terminated: `abort()` or a failed `assert`. -/
  | fatal (msg : String)
  /-- The process ends with `exit(0)`, in the state `s`. -/
  | halt (s : σ)
  /-- C leaves the behaviour undefined (a load or store through a pointer
  that addresses no object). -/
  | undefined
  /-- The model ran out of fuel. -/
  | timeout
  deriving DecidableEq, Repr

/-- Sequencing of calls. -/
def Res.bind {σ α β : Type} (r : Res σ α) (f : α → σ → Res σ β) : Res σ β :=
  match r with
  | .ret a s => f a s
  | .fatal m => .fatal m
  | .halt s => .halt s
  | .undefined => .undefined
  | .timeout => .timeout

/-! ## The root registry -/

/-- The loop of `gc_protect` over its arguments: each is asserted to fit and
stored at `roots[numroots++]`. -/
def gc_protect_loop : List Nat → gc → Res gc Unit
  | [], s => .ret () s
  | p :: ps, s =>
    if s.numroots < MAXROOTS then
      gc_protect_loop ps { s with roots := s.roots.set s.numroots p, numroots := s.numroots + 1 }
    else .fatal "Assertion failed: numroots < MAXROOTS"

/-- `gc_protect(r, ..., NULL)` with the slot addresses `slots`. -/
def gc_protect (slots : List Nat) (s : gc) : Res gc Unit :=
  if s.roottop < MAXFRAMES then
    gc_protect_loop slots
      { s with rootstack := s.rootstack.set s.roottop s.numroots, roottop := s.roottop + 1 }
  else .fatal "Assertion failed: roottop < MAXFRAMES"

/-- `gc_pop()`: `numroots = rootstack[--roottop]`. With `roottop == 0` the
index wraps around and the load is outside `rootstack`. -/
def gc_pop (s : gc) : Res gc Unit :=
  if 0 < s.roottop then
    .ret () { s with roottop := s.roottop - 1, numroots := s.rootstack.get (s.roottop - 1) }
  else .undefined

/-! ## Locations and the C stack -/

/-- An lvalue of type `object *`: a local on the C stack, or the `car` or
`cdr` field of a heap cell. It is what an `object **` points to. -/
inductive loc where
  | slot (a : Nat)
  | car (i : Nat)
  | cdr (i : Nat)
  deriving DecidableEq, Repr

/-- The load `*l`. -/
def load (s : gc) : loc → ptr
  | .slot a => s.stack.get a
  | .car i => (s.mem.get i).car
  | .cdr i => (s.mem.get i).cdr

/-- The store `*l = v`. -/
def store (s : gc) (l : loc) (v : ptr) : gc :=
  match l with
  | .slot a => { s with stack := s.stack.set a v }
  | .car i => { s with mem := s.mem.set i { s.mem.get i with car := v } }
  | .cdr i => { s with mem := s.mem.set i { s.mem.get i with cdr := v } }

/-- The C stack holds fewer than `STACKCAP` locals; a call that needs more
overflows it. -/
def STACKCAP : Nat := ARRCAP

/-- Entry of a function: its parameters and locals `vals` get the addresses
`sp, sp + 1, ...` on the C stack. The result is the address of the first. -/
def enter (vals : List ptr) (s : gc) : Res gc Nat :=
  if s.sp + vals.length ≤ STACKCAP then
    .ret s.sp { s with stack := s.stack.write s.sp vals, sp := s.sp + vals.length }
  else .undefined

/-- Exit of a function whose locals start at address `b`. -/
def leave (b : Nat) (s : gc) : gc := { s with sp := b }

/-! ## The collector -/

/-- `gc_copy(root)`. A `*root` that addresses no cell of the heap block makes
the load `(*root)->car` or the comparison with `fromspace` undefined; so does
a `memcpy` to an `allocptr` beyond the block. -/
def gc_copy (root : loc) (s : gc) : Res gc Unit :=
  match load s root with
  | .null => .ret () s
  | .cell a =>
    if a < 2 * HEAPSIZE then
      if (s.mem.get a).car = .fwd then
        .ret () (store s root (s.mem.get a).cdr)
      else if a < s.fromspace ∨ a ≥ s.fromspace + HEAPSIZE then
        let p := s.allocptr
        if p < 2 * HEAPSIZE then
          let s1 := { s with allocptr := p + 1 }
          let s2 := { s1 with mem := s1.mem.set p (s1.mem.get a) }
          let s3 := store s2 (.car a) .fwd
          let s4 := store s3 (.cdr a) (.cell p)
          .ret () (store s4 root (.cell p))
        else .undefined
      else .ret () s
    else .undefined
  | _ => .undefined

/-- The loop `for (i = 0; i < numroots; ++i) gc_copy(roots[i])` with `n`
iterations left, at index `i`. -/
def gc_collect_roots : Nat → Nat → gc → Res gc Unit
  | 0, _, s => .ret () s
  | n + 1, i, s =>
    (gc_copy (.slot (s.roots.get i)) s).bind fun _ s1 => gc_collect_roots n (i + 1) s1

/-- The loop `for (; scanptr < allocptr; ++scanptr)` of `gc_collect`. -/
def gc_collect_scan : Nat → gc → Res gc Unit
  | 0, _ => .timeout
  | fuel + 1, s =>
    if s.scanptr < s.allocptr then
      (if (s.mem.get s.scanptr).tag = .T_CONS ∨ (s.mem.get s.scanptr).tag = .T_LAMBDA then
        (gc_copy (.car s.scanptr) s).bind fun _ s1 => gc_copy (.cdr s.scanptr) s1
      else .ret () s).bind fun _ s2 =>
        gc_collect_scan fuel { s2 with scanptr := s2.scanptr + 1 }
    else .ret () s

/-- `gc_collect()`. The scan loop makes at most `2 * HEAPSIZE` iterations,
since every iteration advances `scanptr` and `allocptr` stays in the block. -/
def gc_collect (s : gc) : Res gc Unit :=
  let s1 := { s with
    fromspace := s.tospace, tospace := s.fromspace,
    allocptr := s.tospace, scanptr := s.tospace }
  (gc_collect_roots s1.numroots 0 s1).bind fun _ s2 =>
    gc_collect_scan (2 * HEAPSIZE + 1) s2

/-- `gc_init()`, on a block and a C stack that hold nothing yet. -/
def gc_init : gc :=
  { mem := Arr.empty, tospace := HEAPSIZE, fromspace := 0, allocptr := 0,
    scanptr := HEAPSIZE, roots := Arr.empty, rootstack := Arr.empty,
    roottop := 0, numroots := 0, stack := Arr.empty, sp := 0 }

/-- `gc_alloc(tag, car, cdr)`. Its parameters `car` and `cdr` are locals of
the call, at the addresses `b` and `b + 1`. -/
def gc_alloc (tag : object_tag) (car cdr : ptr) (s : gc) : Res gc ptr :=
  (enter [car, cdr] s).bind fun b s0 =>
  (if s0.allocptr + 1 > s0.fromspace + HEAPSIZE then
    (if tag = .T_CONS then gc_protect [b, b + 1] s0 else .ret () s0).bind fun _ s1 =>
    (gc_collect s1).bind fun _ s2 =>
    (if tag = .T_CONS then gc_pop s2 else .ret () s2)
  else .ret () s0).bind fun _ s3 =>
  if s3.allocptr + 1 > s3.fromspace + HEAPSIZE then .fatal "Out of memory"
  else if s3.allocptr < 2 * HEAPSIZE then
    .ret (.cell s3.allocptr)
      (leave b { s3 with
        mem := s3.mem.set s3.allocptr ⟨s3.stack.get b, s3.stack.get (b + 1), tag⟩,
        allocptr := s3.allocptr + 1 })
  else .undefined

/-- `new_cons(car, cdr)`; its parameters are locals at `b` and `b + 1`. -/
def new_cons (car cdr : ptr) (s : gc) : Res gc ptr :=
  (enter [car, cdr] s).bind fun b s0 =>
  (gc_protect [b, b + 1] s0).bind fun _ s1 =>
  (gc_alloc .T_CONS (s1.stack.get b) (s1.stack.get (b + 1)) s1).bind fun ret s2 =>
  (gc_pop s2).bind fun _ s3 =>
  .ret ret (leave b s3)

/-! ## The interpreter's state -/

/-- A `const char *` as the interpreter compares it: `NULL`, the string
literal `""` of the `TEXT` macro, or the text of an interned string. -/
inductive cstr where
  | null
  | empty
  | interned (h : Nat)
  deriving DecidableEq, Repr

/-- The static variables of the interpreter, the collector's state, the table
of interned strings, and the standard streams. `token_peek` is `none` for
`EOF`. -/
structure lisp where
  gc : gc
  tab : interns
  TQUOTE : cstr
  TLAMBDA : cstr
  TCOND : cstr
  TDEFINE : cstr
  TBEGIN : cstr
  TOR : cstr
  token_peek : Option Char
  input : List Char
  output : List Char
  errors : List String
  deriving DecidableEq, Repr

/-- A collector call inside the interpreter. -/
def lift {α : Type} (f : gc → Res gc α) (s : lisp) : Res lisp α :=
  match f s.gc with
  | .ret a g => .ret a { s with gc := g }
  | .fatal m => .fatal m
  | .halt g => .halt { s with gc := g }
  | .undefined => .undefined
  | .timeout => .timeout

/-- The outcome of a function that only reads the heap. -/
inductive Read (α : Type) where
  | ok (a : α)
  | undefined
  | timeout
  deriving DecidableEq, Repr

/-- Sequencing of reads. -/
def Read.bind {α β : Type} (r : Read α) (f : α → Read β) : Read β :=
  match r with
  | .ok a => f a
  | .undefined => .undefined
  | .timeout => .timeout

/-- A read inside a call. -/
def Read.run {σ α β : Type} (r : Read α) (f : α → Res σ β) : Res σ β :=
  match r with
  | .ok a => f a
  | .undefined => .undefined
  | .timeout => .timeout

/-- The object `*p`: defined for the address of a cell of the heap block. -/
def gc.obj (g : gc) (p : ptr) : Read object :=
  match p with
  | .cell i => if i < 2 * HEAPSIZE then .ok (g.mem.get i) else .undefined
  | _ => .undefined

/-- The load `p->car`. -/
def gc.car (g : gc) (p : ptr) : Read ptr := (g.obj p).bind fun o => .ok o.car

/-- The load `p->cdr`. -/
def gc.cdr (g : gc) (p : ptr) : Read ptr := (g.obj p).bind fun o => .ok o.cdr

/-- The store `*local = v` to the local at address `a`. -/
def gc.setl (g : gc) (a : Nat) (v : ptr) : gc := { g with stack := g.stack.set a v }

/-- The macro `TEXT(x)`. -/
def TEXT (g : gc) (x : ptr) : Read cstr :=
  match x with
  | .null => .ok .empty
  | _ =>
    (g.obj x).bind fun o =>
      if o.tag = .T_ATOM then
        match o.car with
        | .text h => .ok (.interned h)
        | .null => .ok .null
        | _ => .undefined
      else .ok .empty

/-- The characters of an interned text, by its address. -/
def interns.text_at (t : interns) (h : Nat) : Option String :=
  match t.items.find? (fun x => x.addr = h) with
  | some x => some x.text
  | none => none

/-- The characters that a `const char *` addresses. -/
def cstr.chars (t : interns) : cstr → Read (List Char)
  | .null => .undefined
  | .empty => .ok []
  | .interned h =>
    match t.text_at h with
    | some str => .ok str.toList
    | none => .undefined

/-! ## Numbers -/

/-- The loop `do { if (*s < '0' || *s > '9') return 0; } while (*++s != 0)` of
`isnumber`; the end of the list is the terminating NUL. -/
def isnumber_loop : List Char → Bool
  | [] => false
  | c :: rest =>
    if c < '0' ∨ c > '9' then false
    else
      match rest with
      | [] => true
      | _ :: _ => isnumber_loop rest

/-- `isnumber(s)`. -/
def isnumber (s : List Char) : Bool :=
  match s with
  | c :: rest => if c = '-' ∨ c = '+' then isnumber_loop rest else isnumber_loop s
  | [] => isnumber_loop s

/-- The range of `long`: 64 bits, two's complement. -/
def wrap_long (z : Int) : Int := (z + 2 ^ 63) % 2 ^ 64 - 2 ^ 63

/-- The class `isspace`. -/
def isspace (c : Char) : Bool :=
  c = ' ' ∨ c = '\t' ∨ c = '\n' ∨ c.toNat = 11 ∨ c.toNat = 12 ∨ c = '\r'

/-- The digits that `atol` reads, most significant first, onto `acc`. -/
def atol_digits : List Char → Nat → Nat
  | [], acc => acc
  | c :: rest, acc =>
    if '0' ≤ c ∧ c ≤ '9' then atol_digits rest (acc * 10 + (c.toNat - '0'.toNat)) else acc

/-- The leading white space that `atol` skips. -/
def atol_skip : List Char → List Char
  | [] => []
  | c :: rest => if isspace c then atol_skip rest else c :: rest

/-- `atol(s)`, in the range of `long`. -/
def atol (s : List Char) : Int :=
  match atol_skip s with
  | '-' :: rest => wrap_long (- (atol_digits rest 0 : Int))
  | '+' :: rest => wrap_long (atol_digits rest 0)
  | rest => wrap_long (atol_digits rest 0)

/-- The text that `snprintf(ch, TOKEN_MAX, "%ld", n)` writes. -/
def ltoa (n : Int) : String :=
  match n with
  | .ofNat m => String.mk (Nat.toDigits 10 m)
  | .negSucc m => String.mk ('-' :: Nat.toDigits 10 (m + 1))

/-! ## Atoms, pairs, environments -/

/-- `intern_string(str)` on the interpreter's table. -/
def intern_str (str : String) (s : lisp) : Nat × lisp :=
  let r := intern_string str s.tab
  (r.1, { s with tab := r.2 })

/-- `new_atom(str)`. -/
def new_atom (str : String) (s : lisp) : Res lisp ptr :=
  let r := intern_str str s
  lift (gc_alloc .T_ATOM (.text r.1) .null) r.2

/-- `new_cfunc(func)`, for the builtin number `f`. -/
def new_cfunc (f : Nat) (s : lisp) : Res lisp ptr :=
  lift (gc_alloc .T_CFUNC (.func f) .null) s

/-- `new_atom(itos(n))`. -/
def new_number (n : Int) (s : lisp) : Res lisp ptr := new_atom (ltoa n) s

/-- `lisp_equal(a, b)`. -/
def lisp_equal (g : gc) : Nat → ptr → ptr → Read Bool
  | 0, _, _ => .timeout
  | fuel + 1, a, b =>
    if a = b then .ok true
    else if a = .null ∨ b = .null then .ok false
    else
      (g.obj a).bind fun oa =>
      (g.obj b).bind fun ob =>
        if oa.tag ≠ ob.tag then .ok false
        else if oa.tag ≠ .T_CONS then .ok (decide (oa.car = ob.car))
        else
          (lisp_equal g fuel oa.car ob.car).bind fun r =>
            if r then lisp_equal g fuel oa.cdr ob.cdr else .ok false

/-- `list_find_pair(needle, haystack)`. -/
def list_find_pair (g : gc) : Nat → ptr → ptr → Read ptr
  | 0, _, _ => .timeout
  | fuel + 1, needle, haystack =>
    if haystack = .null then .ok .null
    else
      (g.obj haystack).bind fun h =>
        if h.car = .null then list_find_pair g fuel needle h.cdr
        else
          (g.car h.car).bind fun key =>
          (lisp_equal g fuel needle key).bind fun r =>
            if r then .ok h.car else list_find_pair g fuel needle h.cdr

/-- `env_lookup(needle, haystack)`. -/
def env_lookup (g : gc) : Nat → ptr → ptr → Read ptr
  | 0, _, _ => .timeout
  | fuel + 1, needle, haystack =>
    if haystack = .null then .ok .null
    else
      (g.obj haystack).bind fun h =>
      (list_find_pair g fuel needle h.car).bind fun pair =>
        if pair ≠ .null then g.cdr pair else env_lookup g fuel needle h.cdr

/-- `env_set(env, key, value)`. Its locals `env`, `key`, `value`, `pair`,
`frame` are at the addresses `b .. b + 4`. -/
def env_set (env key value : ptr) (g : gc) : Res gc ptr :=
  (enter [env, key, value, .null, .null] g).bind fun b g0 =>
  (gc_protect [b, b + 1, b + 2, b + 3, b + 4] g0).bind fun _ g1 =>
  (new_cons (g1.stack.get (b + 1)) (g1.stack.get (b + 2)) g1).bind fun pair g2 =>
  let g3 := g2.setl (b + 3) pair
  (g3.car (g3.stack.get b)).run fun envcar =>
  (new_cons (g3.stack.get (b + 3)) envcar g3).bind fun frame g4 =>
  let g5 := g4.setl (b + 4) frame
  match g5.stack.get b with
  | .cell i =>
    if i < 2 * HEAPSIZE then
      (gc_pop (store g5 (.car i) (g5.stack.get (b + 4)))).bind fun _ g6 =>
        .ret (g6.stack.get b) (leave b g6)
    else .undefined
  | _ => .undefined

/-- `new_env(env)`. -/
def new_env (env : ptr) (g : gc) : Res gc ptr := new_cons .null env g

/-- The loop of `list_reverse`, with its locals `prev`, `curr`, `next`. -/
def list_reverse_loop : Nat → ptr → ptr → ptr → gc → Res gc ptr
  | 0, _, _, _, _ => .timeout
  | fuel + 1, prev, curr, next, g =>
    match curr with
    | .null => .ret prev g
    | .cell i =>
      if i < 2 * HEAPSIZE then
        let g1 := store g (.cdr i) prev
        if next ≠ .null then
          (g1.cdr next).run fun next1 => list_reverse_loop fuel curr next next1 g1
        else list_reverse_loop fuel curr next next g1
      else .undefined
    | _ => .undefined

/-- `list_reverse(lst)`. -/
def list_reverse (fuel : Nat) (lst : ptr) (g : gc) : Res gc ptr :=
  if lst = .null then .ret .null g
  else (g.cdr lst).run fun next => list_reverse_loop fuel .null lst next g

/-! ## Locals of the interpreter -/

/-- The value of the local at address `a`. -/
def lisp.lget (s : lisp) (a : Nat) : ptr := s.gc.stack.get a

/-- The store to the local at address `a`. -/
def lisp.lset (s : lisp) (a : Nat) (v : ptr) : lisp := { s with gc := s.gc.setl a v }

/-- Exit of a function whose locals start at address `b`. -/
def lisp.leave (s : lisp) (b : Nat) : lisp := { s with gc := Komplott.leave b s.gc }

/-- `fprintf(stderr, msg)`. -/
def lisp.err (s : lisp) (msg : String) : lisp := { s with errors := s.errors ++ [msg] }

/-- `printf` of the characters `cs`. -/
def lisp.print (s : lisp) (cs : List Char) : lisp := { s with output := s.output ++ cs }

/-! ## The reader -/

def TOKEN_MAX : Nat := 256

/-- The macro `ATOMCHAR(ch)`. -/
def ATOMCHAR (c : Char) : Bool := ('!' ≤ c ∧ c ≤ '\'') ∨ ('*' ≤ c ∧ c ≤ '~')

/-- The assignment `token_peek = fgetc(in)`. -/
def advance (s : lisp) : lisp :=
  match s.input with
  | [] => { s with token_peek := none }
  | c :: rest => { s with token_peek := some c, input := rest }

/-- The loop `while (isspace(token_peek)) token_peek = fgetc(in)`. -/
def read_token_skip : Nat → lisp → lisp
  | 0, s => s
  | n + 1, s =>
    match s.token_peek with
    | some c => if isspace c then read_token_skip n (advance s) else s
    | none => s

/-- The loop `while (ATOMCHAR(token_peek))` of `read_token`, with the
characters stored in `token_text` so far in `acc`, last first. -/
def read_token_atom : Nat → List Char → lisp → Res lisp (List Char)
  | 0, _, _ => .timeout
  | n + 1, acc, s =>
    match s.token_peek with
    | some c =>
      if ATOMCHAR c then
        if acc.length = TOKEN_MAX then .fatal "abort"
        else read_token_atom n (c :: acc) (advance s)
      else .ret acc.reverse s
    | none => .ret acc.reverse s

/-- `read_token(in)`: the text of the token. Each loop makes at most one turn
per character left in the stream, and one more. The store of the terminating
NUL at index `TOKEN_MAX` is outside `token_text`. -/
def read_token (s : lisp) : Res lisp String :=
  let s1 := read_token_skip (s.input.length + 1) s
  let r : Res lisp (List Char) :=
    match s1.token_peek with
    | some c =>
      if c = '(' ∨ c = ')' then .ret [c] (advance s1)
      else read_token_atom (s1.input.length + 2) [] s1
    | none => .ret [] s1
  r.bind fun txt s2 =>
  if s2.token_peek = none then .halt s2
  else if txt.length < TOKEN_MAX then
    .ret (String.mk txt) (intern_str (String.mk txt) s2).2
  else .undefined

/-- The character `tok[0]`; it is NUL for the empty text. -/
def tok0 (tok : String) : Char := tok.toList.headD (Char.ofNat 0)

/-- `lisp_read_obj(tok, in)`, given `lisp_read_list`. -/
def lisp_read_obj_with (read_list : String → lisp → Res lisp ptr) (tok : String)
    (s : lisp) : Res lisp ptr :=
  if tok0 tok ≠ '(' then new_atom tok s
  else (read_token s).bind fun tok1 s1 => read_list tok1 s1

/-- `lisp_read_list(tok, in)`. Its locals `obj`, `tmp`, `obj2` are at the
addresses `b`, `b + 1`, `b + 2`. -/
def lisp_read_list : Nat → String → lisp → Res lisp ptr
  | 0, _, _ => .timeout
  | fuel + 1, tok, s =>
    if tok0 tok = ')' then .ret .null s
    else
      (lift (enter [.null, .null, .null]) s).bind fun b s0 =>
      (lift (gc_protect [b, b + 1, b + 2]) s0).bind fun _ s1 =>
      (lisp_read_obj_with (lisp_read_list fuel) tok s1).bind fun obj s2 =>
      (read_token (s2.lset b obj)).bind fun tok1 s3 =>
      if tok1 = "." then
        (read_token s3).bind fun tok2 s4 =>
        (lisp_read_obj_with (lisp_read_list fuel) tok2 s4).bind fun tmp s5 =>
        let s6 := s5.lset (b + 1) tmp
        (lift (new_cons (s6.lget b) (s6.lget (b + 1))) s6).bind fun obj2 s7 =>
        (read_token (s7.lset (b + 2) obj2)).bind fun tok3 s8 =>
        (lift gc_pop s8).bind fun _ s9 =>
        if tok0 tok3 = ')' then .ret (s9.lget (b + 2)) (s9.leave b)
        else .ret .null ((s9.err "Error: Malformed dotted cons\n").leave b)
      else
        (lisp_read_list fuel tok1 s3).bind fun tmp s4 =>
        let s5 := s4.lset (b + 1) tmp
        (lift (new_cons (s5.lget b) (s5.lget (b + 1))) s5).bind fun obj2 s6 =>
        (lift gc_pop (s6.lset (b + 2) obj2)).bind fun _ s7 =>
        .ret (s7.lget (b + 2)) (s7.leave b)

/-- `lisp_read_obj(tok, in)`. -/
def lisp_read_obj (fuel : Nat) (tok : String) (s : lisp) : Res lisp ptr :=
  lisp_read_obj_with (lisp_read_list fuel) tok s

/-- `lisp_read(in)`. -/
def lisp_read (fuel : Nat) (s : lisp) : Res lisp ptr :=
  (read_token s).bind fun tok s1 =>
    if tok0 tok ≠ ')' then lisp_read_obj fuel tok s1
    else .ret .null (s1.err "Error: Unexpected )\n")

/-! ## The printer -/

/-- `lisp_print(obj)` when `inlist` is false, and one turn of its loop
`for (;;)` over the pairs of a list, at the pair `obj`, when it is true.
A native function is printed with the offset of its cell for `%p`. -/
def lisp_print_aux : Nat → Bool → ptr → lisp → Res lisp Unit
  | 0, _, _, _ => .timeout
  | fuel + 1, false, obj, s =>
    if obj = .null then .ret () (s.print "()".toList)
    else
      (s.gc.obj obj).run fun o =>
        match o.tag with
        | .T_ATOM =>
          (TEXT s.gc obj).run fun t =>
          (t.chars s.tab).run fun cs => .ret () (s.print cs)
        | .T_CFUNC =>
          match obj with
          | .cell i => .ret () (s.print ("<C@".toList ++ Nat.toDigits 10 i ++ ">".toList))
          | _ => .undefined
        | .T_LAMBDA =>
          (lisp_print_aux fuel false o.car (s.print "<lambda ".toList)).bind fun _ s1 =>
            .ret () (s1.print ">".toList)
        | .T_CONS =>
          (lisp_print_aux fuel true obj (s.print "(".toList)).bind fun _ s1 =>
            .ret () (s1.print ")".toList)
  | fuel + 1, true, obj, s =>
    (s.gc.obj obj).run fun o =>
    (lisp_print_aux fuel false o.car s).bind fun _ s1 =>
      if o.cdr = .null then .ret () s1
      else
        let s2 := s1.print " ".toList
        (s2.gc.obj o.cdr).run fun d =>
          if d.tag ≠ .T_CONS then lisp_print_aux fuel false o.cdr (s2.print ". ".toList)
          else lisp_print_aux fuel true o.cdr s2

/-- `lisp_print(obj)`. -/
def lisp_print (fuel : Nat) (obj : ptr) (s : lisp) : Res lisp Unit :=
  lisp_print_aux fuel false obj s

/-! ## The builtins -/

/-- The address of the static variable `atom_t`, the first local of the
modelled stack. -/
def ATOM_T : Nat := 0

/-- The value `atol(TEXT(x))`. -/
def atol_text (s : lisp) (x : ptr) : Read Int :=
  (TEXT s.gc x).bind fun t => (t.chars s.tab).bind fun cs => .ok (atol cs)

/-- `builtin_car(args)`. -/
def builtin_car (args : ptr) (s : lisp) : Res lisp ptr :=
  ((s.gc.car args).bind fun a => s.gc.car a).run fun v => .ret v s

/-- `builtin_cdr(args)`. -/
def builtin_cdr (args : ptr) (s : lisp) : Res lisp ptr :=
  ((s.gc.car args).bind fun a => s.gc.cdr a).run fun v => .ret v s

/-- `builtin_cons(args)`. -/
def builtin_cons (args : ptr) (s : lisp) : Res lisp ptr :=
  (s.gc.car args).run fun a =>
  ((s.gc.cdr args).bind fun d => s.gc.car d).run fun b =>
    lift (new_cons a b) s

/-- `builtin_list(args)`. -/
def builtin_list (args : ptr) (s : lisp) : Res lisp ptr := .ret args s

/-- The loop of `builtin_equal` over the arguments after the first. -/
def builtin_equal_loop (s : lisp) : Nat → ptr → ptr → Read ptr
  | 0, _, _ => .timeout
  | fuel + 1, cmp, args =>
    if args = .null then .ok (s.lget ATOM_T)
    else
      (s.gc.obj args).bind fun o =>
      (lisp_equal s.gc fuel cmp o.car).bind fun r =>
        if r then builtin_equal_loop s fuel cmp o.cdr else .ok .null

/-- `builtin_equal(args)`. -/
def builtin_equal (fuel : Nat) (args : ptr) (s : lisp) : Res lisp ptr :=
  ((s.gc.obj args).bind fun o => builtin_equal_loop s fuel o.car o.cdr).run fun v => .ret v s

/-- `builtin_pair(args)`. -/
def builtin_pair (args : ptr) (s : lisp) : Res lisp ptr :=
  (s.gc.car args).run fun a =>
    if a = .null then .ret .null s
    else (s.gc.obj a).run fun o =>
      if o.tag = .T_CONS then .ret (s.lget ATOM_T) s else .ret .null s

/-- `builtin_null(args)`. -/
def builtin_null (args : ptr) (s : lisp) : Res lisp ptr :=
  (s.gc.car args).run fun a => if a = .null then .ret (s.lget ATOM_T) s else .ret .null s

/-- The loop `for (; args != NULL; args = args->cdr) sum += atol(TEXT(args->car))`. -/
def builtin_sum_loop (s : lisp) : Nat → Int → ptr → Read Int
  | 0, _, _ => .timeout
  | fuel + 1, sum, args =>
    if args = .null then .ok sum
    else
      (s.gc.obj args).bind fun o =>
      (atol_text s o.car).bind fun n => builtin_sum_loop s fuel (wrap_long (sum + n)) o.cdr

/-- `builtin_sum(args)`. -/
def builtin_sum (fuel : Nat) (args : ptr) (s : lisp) : Res lisp ptr :=
  (builtin_sum_loop s fuel 0 args).run fun n => new_number n s

/-- The loop `for (args = args->cdr; args != NULL; args = args->cdr) n = n - ...`. -/
def builtin_sub_loop (s : lisp) : Nat → Int → ptr → Read Int
  | 0, _, _ => .timeout
  | fuel + 1, n, args =>
    if args = .null then .ok n
    else
      (s.gc.obj args).bind fun o =>
      (atol_text s o.car).bind fun m => builtin_sub_loop s fuel (wrap_long (n - m)) o.cdr

/-- `builtin_sub(args)`. -/
def builtin_sub (fuel : Nat) (args : ptr) (s : lisp) : Res lisp ptr :=
  ((s.gc.obj args).bind fun o =>
    (atol_text s o.car).bind fun n =>
      if o.cdr = .null then .ok (wrap_long (-n))
      else builtin_sub_loop s fuel n o.cdr).run fun n => new_number n s

/-- The loop `for (; args != NULL; args = args->cdr) sum *= atol(TEXT(args->car))`. -/
def builtin_mul_loop (s : lisp) : Nat → Int → ptr → Read Int
  | 0, _, _ => .timeout
  | fuel + 1, sum, args =>
    if args = .null then .ok sum
    else
      (s.gc.obj args).bind fun o =>
      (atol_text s o.car).bind fun n => builtin_mul_loop s fuel (wrap_long (sum * n)) o.cdr

/-- `builtin_mul(args)`. -/
def builtin_mul (fuel : Nat) (args : ptr) (s : lisp) : Res lisp ptr :=
  (builtin_mul_loop s fuel 1 args).run fun n => new_number n s

/-- `builtin_display(args)`. -/
def builtin_display (fuel : Nat) (args : ptr) (s : lisp) : Res lisp ptr :=
  (s.gc.car args).run fun a => (lisp_print fuel a s).bind fun _ s1 => .ret .null s1

/-- `builtin_newline(args)`. -/
def builtin_newline (s : lisp) : Res lisp ptr := .ret .null (s.print ['\n'])

/-- The call `((cfunc)fn->car)(args)` of the builtin that `main` registers as
number `f`; another number addresses no function. -/
def call_cfunc (fuel : Nat) (f : Nat) (args : ptr) (s : lisp) : Res lisp ptr :=
  match f with
  | 0 => builtin_car args s
  | 1 => builtin_cdr args s
  | 2 => builtin_cons args s
  | 3 => builtin_list args s
  | 4 => builtin_equal fuel args s
  | 5 => builtin_pair args s
  | 6 => builtin_null args s
  | 7 => builtin_sum fuel args s
  | 8 => builtin_sub fuel args s
  | 9 => builtin_mul fuel args s
  | 10 => builtin_display fuel args s
  | 11 => builtin_newline s
  | _ => .undefined

/-! ## The evaluator -/

/-- The number of parameters and locals of `lisp_eval`. From the address `b` of
`expr` they are: `expr`, `env`, `head`; `item`, `cond` of the `cond` block;
`item` of the `begin` block; `item`, `it` of the `or` block; `name`,
`value` of the `define` block; `fn`, `args`, `params`, `param`; and
`callenv`, `item` of the closure block. -/
def EVAL_FRAME : Nat := 16

/-- The loop of the `cond` block. It returns when the block jumps to
`restart`, with the consequent in `expr` and the frame of the block popped. -/
def eval_cond_loop (ev : ptr → ptr → lisp → Res lisp ptr) :
    Nat → Nat → lisp → Res lisp Unit
  | 0, _, _ => .timeout
  | n + 1, b, s =>
    if s.lget (b + 3) = .null then .fatal "abort"
    else
      (s.gc.car (s.lget (b + 3))).run fun cond =>
      let s1 := s.lset (b + 4) cond
      (s1.gc.car cond).run fun pred =>
      (ev pred (s1.lget (b + 1)) s1).bind fun r s2 =>
        if r ≠ .null then
          ((s2.gc.cdr (s2.lget (b + 4))).bind fun d => s2.gc.car d).run fun e =>
            lift gc_pop (s2.lset b e)
        else
          (s2.gc.cdr (s2.lget (b + 3))).run fun next =>
            eval_cond_loop ev n b (s2.lset (b + 3) next)

/-- The loop of the `begin` block. It returns `true` when the block jumps to
`restart`, with the last expression in `expr` and the frame popped, and
`false` when the loop ends. -/
def eval_begin_loop (ev : ptr → ptr → lisp → Res lisp ptr) :
    Nat → Nat → lisp → Res lisp Bool
  | 0, _, _ => .timeout
  | n + 1, b, s =>
    if s.lget (b + 5) = .null then .ret false s
    else
      (s.gc.obj (s.lget (b + 5))).run fun item =>
        if item.cdr = .null then
          (lift gc_pop (s.lset b item.car)).bind fun _ s1 => .ret true s1
        else
          (ev item.car (s.lget (b + 1)) s).bind fun _ s1 =>
          (s1.gc.cdr (s1.lget (b + 5))).run fun next =>
            eval_begin_loop ev n b (s1.lset (b + 5) next)

/-- The loop of the `or` block. -/
def eval_or_loop (ev : ptr → ptr → lisp → Res lisp ptr) :
    Nat → Nat → lisp → Res lisp Unit
  | 0, _, _ => .timeout
  | n + 1, b, s =>
    if s.lget (b + 6) = .null then .ret () s
    else
      (s.gc.car (s.lget (b + 6))).run fun e =>
      (ev e (s.lget (b + 1)) s).bind fun it s1 =>
      let s2 := s1.lset (b + 7) it
      if it ≠ .null then .ret () s2
      else
        (s2.gc.cdr (s2.lget (b + 6))).run fun next =>
          eval_or_loop ev n b (s2.lset (b + 6) next)

/-- The loop of a native application over the operands. -/
def eval_args_loop (ev : ptr → ptr → lisp → Res lisp ptr) :
    Nat → Nat → lisp → Res lisp Unit
  | 0, _, _ => .timeout
  | n + 1, b, s =>
    if s.lget (b + 12) = .null then .ret () s
    else
      (s.gc.car (s.lget (b + 12))).run fun e =>
      (ev e (s.lget (b + 1)) s).bind fun param s1 =>
      let s2 := s1.lset (b + 13) param
      (lift (new_cons (s2.lget (b + 13)) (s2.lget (b + 11))) s2).bind fun args s3 =>
      let s4 := s3.lset (b + 11) args
      (s4.gc.cdr (s4.lget (b + 12))).run fun next =>
        eval_args_loop ev n b (s4.lset (b + 12) next)

/-- The loop of a closure application over the operands, which binds the
parameter names in `callenv`. -/
def eval_bind_loop (ev : ptr → ptr → lisp → Res lisp ptr) :
    Nat → Nat → lisp → Res lisp Unit
  | 0, _, _ => .timeout
  | n + 1, b, s =>
    if s.lget (b + 12) = .null then .ret () s
    else
      (s.gc.car (s.lget (b + 12))).run fun e =>
      (ev e (s.lget (b + 1)) s).bind fun param s1 =>
      let s2 := s1.lset (b + 13) param
      (s2.gc.car (s2.lget (b + 11))).run fun name =>
      (lift (env_set (s2.lget (b + 14)) name (s2.lget (b + 13))) s2).bind fun _ s3 =>
      (s3.gc.cdr (s3.lget (b + 12))).run fun next =>
      let s4 := s3.lset (b + 12) next
      (s4.gc.cdr (s4.lget (b + 11))).run fun rest =>
        eval_bind_loop ev n b (s4.lset (b + 11) rest)

/-- The loop of a closure application over the body. It returns `true` when
it jumps to `restart`, with the last expression in `expr`, `callenv` in
`env` and both frames popped, and `false` when the loop ends. -/
def eval_body_loop (ev : ptr → ptr → lisp → Res lisp ptr) :
    Nat → Nat → lisp → Res lisp Bool
  | 0, _, _ => .timeout
  | n + 1, b, s =>
    if s.lget (b + 15) = .null then .ret false s
    else
      (s.gc.obj (s.lget (b + 15))).run fun item =>
        if item.cdr = .null then
          let s1 := (s.lset b item.car).lset (b + 1) (s.lget (b + 14))
          (lift gc_pop s1).bind fun _ s2 =>
          (lift gc_pop s2).bind fun _ s3 => .ret true s3
        else
          (ev item.car (s.lget (b + 14)) s).bind fun _ s1 =>
          (s1.gc.cdr (s1.lget (b + 15))).run fun next =>
            eval_body_loop ev n b (s1.lset (b + 15) next)

/-- The body of `lisp_eval` from the label `restart` on, with the parameters
and locals of the call at the addresses from `b` on. The fuel bounds the
jumps to `restart`, the depth of the calls of `lisp_eval`, and the turns of
each loop. -/
def eval_restart : Nat → Nat → lisp → Res lisp ptr
  | 0, _, _ => .timeout
  | fuel + 1, b, s =>
    let ev : ptr → ptr → lisp → Res lisp ptr := fun e en s0 =>
      (lift (enter (e :: en :: List.replicate (EVAL_FRAME - 2) .null)) s0).bind fun b1 s1 =>
      (eval_restart fuel b1 s1).bind fun v s2 => .ret v (s2.leave b1)
    let expr := s.lget b
    if expr = .null then .ret expr s
    else
      (s.gc.obj expr).run fun o =>
      if o.tag = .T_ATOM then
        (TEXT s.gc expr).run fun t =>
        (t.chars s.tab).run fun cs =>
          if isnumber cs then .ret expr s
          else (env_lookup s.gc fuel expr (s.lget (b + 1))).run fun v => .ret v s
      else if o.tag ≠ .T_CONS then .ret expr s
      else
        let s := s.lset (b + 2) o.car
        (TEXT s.gc (s.lget (b + 2))).run fun th =>
        if th = s.TQUOTE then
          ((s.gc.cdr (s.lget b)).bind fun d => s.gc.car d).run fun v => .ret v s
        else if th = s.TCOND then
          let s1 := (s.lset (b + 3) .null).lset (b + 4) .null
          (lift (gc_protect [b, b + 1, b + 3, b + 4]) s1).bind fun _ s2 =>
          (s2.gc.cdr (s2.lget b)).run fun item =>
          (eval_cond_loop ev fuel b (s2.lset (b + 3) item)).bind fun _ s3 =>
            eval_restart fuel b s3
        else if th = s.TBEGIN then
          let s1 := s.lset (b + 5) .null
          (lift (gc_protect [b, b + 1, b + 5]) s1).bind fun _ s2 =>
          (s2.gc.cdr (s2.lget b)).run fun item =>
          (eval_begin_loop ev fuel b (s2.lset (b + 5) item)).bind fun again s3 =>
            if again then eval_restart fuel b s3
            else (lift gc_pop s3).bind fun _ s4 => .ret .null s4
        else if th = s.TOR then
          let s1 := (s.lset (b + 6) .null).lset (b + 7) .null
          (lift (gc_protect [b + 1, b + 6, b + 7]) s1).bind fun _ s2 =>
          (s2.gc.cdr (s2.lget b)).run fun item =>
          (eval_or_loop ev fuel b (s2.lset (b + 6) item)).bind fun _ s3 =>
          (lift gc_pop s3).bind fun _ s4 => .ret (s4.lget (b + 7)) s4
        else if th = s.TDEFINE then
          let s1 := (s.lset (b + 8) .null).lset (b + 9) .null
          (lift (gc_protect [b + 1, b + 8, b + 9]) s1).bind fun _ s2 =>
          (s2.gc.cdr (s2.lget b)).run fun d =>
          (s2.gc.car d).run fun name =>
          let s3 := s2.lset (b + 8) name
          ((s3.gc.cdr d).bind fun dd => s3.gc.car dd).run fun e =>
          (ev e (s3.lget (b + 1)) s3).bind fun value s4 =>
          let s5 := s4.lset (b + 9) value
          (lift (env_set (s5.lget (b + 1)) (s5.lget (b + 8)) (s5.lget (b + 9))) s5).bind
            fun _ s6 =>
          (lift gc_pop s6).bind fun _ s7 => .ret (s7.lget (b + 9)) s7
        else if th = s.TLAMBDA then
          (s.gc.cdr (s.lget b)).run fun d =>
            match d with
            | .cell i =>
              if i < 2 * HEAPSIZE then
                .ret d { s with gc := { s.gc with
                  mem := s.gc.mem.set i { s.gc.mem.get i with tag := .T_LAMBDA } } }
              else .undefined
            | _ => .undefined
        else
          let s1 := (((s.lset (b + 10) .null).lset (b + 11) .null).lset (b + 12) .null).lset
            (b + 13) .null
          (lift (gc_protect [b, b + 1, b + 10, b + 11, b + 12, b + 13]) s1).bind fun _ s2 =>
          (ev (s2.lget (b + 2)) (s2.lget (b + 1)) s2).bind fun fn s3 =>
          let s4 := s3.lset (b + 10) fn
          (s4.gc.obj fn).run fun fo =>
          if fo.tag = .T_CFUNC then
            (s4.gc.cdr (s4.lget b)).run fun params =>
            (eval_args_loop ev fuel b (s4.lset (b + 12) params)).bind fun _ s5 =>
            (s5.gc.car (s5.lget (b + 10))).run fun f =>
            (lift (list_reverse fuel (s5.lget (b + 11))) s5).bind fun lst s6 =>
              match f with
              | .func id =>
                (call_cfunc fuel id lst s6).bind fun ret s7 =>
                (lift gc_pop s7).bind fun _ s8 => .ret ret s8
              | _ => .undefined
          else if fo.tag = .T_LAMBDA then
            (lift (new_env (s4.lget (b + 1))) s4).bind fun callenv s5 =>
            let s6 := s5.lset (b + 14) callenv
            (s6.gc.car (s6.lget (b + 10))).run fun names =>
            let s7 := (s6.lset (b + 11) names).lset (b + 15) .null
            (lift (gc_protect [b + 14, b + 15]) s7).bind fun _ s8 =>
            (s8.gc.cdr (s8.lget b)).run fun params =>
            (eval_bind_loop ev fuel b (s8.lset (b + 12) params)).bind fun _ s9 =>
            (s9.gc.cdr (s9.lget (b + 10))).run fun body =>
            (eval_body_loop ev fuel b (s9.lset (b + 15) body)).bind fun again s10 =>
              if again then eval_restart fuel b s10
              else
                (lift gc_pop s10).bind fun _ s11 =>
                (lift gc_pop s11).bind fun _ s12 => .ret .null s12
          else .ret .null s4

/-- `lisp_eval(expr, env)`. -/
def lisp_eval (fuel : Nat) (expr env : ptr) (s : lisp) : Res lisp ptr :=
  (lift (enter (expr :: env :: List.replicate (EVAL_FRAME - 2) .null)) s).bind fun b s1 =>
  (eval_restart fuel b s1).bind fun v s2 => .ret v (s2.leave b)

/-! ## The program -/

/-- `add_builtin(env, name, fn)`. Its locals `env`, `key`, `val` are at the
addresses `b`, `b + 1`, `b + 2`. -/
def add_builtin (env : ptr) (name : String) (f : Nat) (s : lisp) : Res lisp Unit :=
  (lift (enter [env, .null, .null]) s).bind fun b s0 =>
  (lift (gc_protect [b, b + 1, b + 2]) s0).bind fun _ s1 =>
  (new_atom name s1).bind fun key s2 =>
  (new_cfunc f (s2.lset (b + 1) key)).bind fun val s3 =>
  let s4 := s3.lset (b + 2) val
  (lift (env_set (s4.lget b) (s4.lget (b + 1)) (s4.lget (b + 2))) s4).bind fun _ s5 =>
  (lift gc_pop s5).bind fun _ s6 => .ret () (s6.leave b)

/-- The state in which the process starts, with `input` to read. -/
def lisp.start (input : List Char) : lisp :=
  { gc := gc_init, tab := ⟨[], 0⟩,
    TQUOTE := .null, TLAMBDA := .null, TCOND := .null, TDEFINE := .null,
    TBEGIN := .null, TOR := .null,
    token_peek := some (Char.ofNat 0), input := input, output := [], errors := [] }

/-- The address of the local `env` of `main`. -/
def MAIN_ENV : Nat := 1

/-- The address of the local `atom_f` of `main`. -/
def MAIN_ATOM_F : Nat := 2

/-- The address of the local `obj` of `main`. -/
def MAIN_OBJ : Nat := 3

/-- The builtins that `main` registers, in its order, with their numbers. -/
def BUILTINS : List (String × Nat) :=
  [("car", 0), ("cdr", 1), ("cons", 2), ("list", 3), ("equal?", 4), ("pair?", 5),
   ("null?", 6), ("+", 7), ("-", 8), ("*", 9), ("display", 10), ("newline", 11)]

/-- The calls of `add_builtin` in `main`. -/
def add_builtins : List (String × Nat) → lisp → Res lisp Unit
  | [], s => .ret () s
  | (name, f) :: rest, s =>
    (add_builtin (s.lget MAIN_ENV) name f s).bind fun _ s1 => add_builtins rest s1

/-- `main` up to its loop: the static `atom_t` is the local at address `0`,
the locals `env`, `atom_f`, `obj` of `main` follow it. -/
def main_init (s : lisp) : Res lisp Unit :=
  let s := { s with gc := gc_init }
  let r1 := intern_str "quote" s
  let r2 := intern_str "lambda" r1.2
  let r3 := intern_str "cond" r2.2
  let r4 := intern_str "define" r3.2
  let r5 := intern_str "begin" r4.2
  let r6 := intern_str "or" r5.2
  let s := { r6.2 with
    TQUOTE := .interned r1.1, TLAMBDA := .interned r2.1, TCOND := .interned r3.1,
    TDEFINE := .interned r4.1, TBEGIN := .interned r5.1, TOR := .interned r6.1,
    token_peek := some ' ' }
  (lift (enter [.null]) s).bind fun _ s0 =>
  (lift (enter [.null, .null, .null]) s0).bind fun _ s1 =>
  (lift (gc_protect [MAIN_ENV, ATOM_T, MAIN_ATOM_F, MAIN_OBJ]) s1).bind fun _ s2 =>
  (lift (new_env .null) s2).bind fun env s3 =>
  (new_atom "#t" (s3.lset MAIN_ENV env)).bind fun t s4 =>
  (new_atom "#f" (s4.lset ATOM_T t)).bind fun f s5 =>
  let s6 := s5.lset MAIN_ATOM_F f
  (lift (env_set (s6.lget MAIN_ENV) (s6.lget ATOM_T) (s6.lget ATOM_T)) s6).bind fun _ s7 =>
  (lift (env_set (s7.lget MAIN_ENV) (s7.lget MAIN_ATOM_F) .null) s7).bind fun _ s8 =>
  add_builtins BUILTINS s8

/-- One turn of the loop of `main`: read, evaluate, and print when the input
is the standard input. -/
def main_step (fuel : Nat) (interactive : Bool) (s : lisp) : Res lisp Unit :=
  (lisp_read fuel s).bind fun obj s1 =>
  let s2 := s1.lset MAIN_OBJ obj
  (lisp_eval fuel (s2.lget MAIN_OBJ) (s2.lget MAIN_ENV) s2).bind fun v s3 =>
  let s4 := s3.lset MAIN_OBJ v
  if interactive then
    (lisp_print fuel (s4.lget MAIN_OBJ) s4).bind fun _ s5 => .ret () (s5.print ['\n'])
  else .ret () s4

/-- The loop `for (;;)` of `main`, for `n` turns. -/
def main_loop (fuel : Nat) (interactive : Bool) : Nat → lisp → Res lisp Unit
  | 0, s => .ret () s
  | n + 1, s => (main_step fuel interactive s).bind fun _ s1 => main_loop fuel interactive n s1

/-- The program on the text `input`, for `n` turns of its loop. -/
def run (fuel n : Nat) (interactive : Bool) (input : String) : Res lisp Unit :=
  (main_init (lisp.start input.toList)).bind fun _ s => main_loop fuel interactive n s

/-- What the program has printed when it ends or stops. -/
def Res.output {α : Type} : Res lisp α → Option String
  | .ret _ s => some (String.mk s.output)
  | .halt s => some (String.mk s.output)
  | _ => none

/-! ## Notions the statements use -/

/-- The table after the calls `intern_string(u)` for the texts `us`, in order. -/
def intern_many (us : List String) (t : interns) : interns :=
  us.foldl (fun t1 u => (intern_string u t1).2) t

/-- Every item of the table was handed out by `malloc` before `brk`, and no
two items share an address. -/
def interns.wf (t : interns) : Prop :=
  (∀ x ∈ t.items, x.addr < t.brk) ∧ (t.items.map intern.addr).Nodup

/-! ### The object graph -/

/-- The tags whose `car` and `cdr` the collector traces. -/
def object_tag.traced (t : object_tag) : Prop := t = .T_CONS ∨ t = .T_LAMBDA

instance (t : object_tag) : Decidable t.traced := by
  unfold object_tag.traced; infer_instance

/-- Cell `b` is what the `car` or the `cdr` of the traced cell `a` addresses. -/
def gc.edge (s : gc) (a b : Nat) : Prop :=
  (s.mem.get a).tag.traced ∧ ((s.mem.get a).car = .cell b ∨ (s.mem.get a).cdr = .cell b)

/-- Cell `b` is what a registered root slot addresses. -/
def gc.is_root (s : gc) (b : Nat) : Prop :=
  ∃ i, i < s.numroots ∧ s.stack.get (s.roots.get i) = .cell b

/-- The cells that the registered roots reach. -/
inductive gc.reachable (s : gc) : Nat → Prop where
  | root {b : Nat} : s.is_root b → gc.reachable s b
  | step {a b : Nat} : gc.reachable s a → s.edge a b → gc.reachable s b

/-- A pointer that is null or addresses a cell of the active semispace. -/
def gc.in_active (s : gc) (p : ptr) : Prop :=
  p = .null ∨ ∃ b, p = .cell b ∧ s.fromspace ≤ b ∧ b < s.fromspace + HEAPSIZE

/-- The states on which a collection is specified: the two semispaces are the
halves of the block, the registered slots are locals of the C stack, every
registered slot and every traced field of a reachable cell is null or
addresses a cell of the active semispace, and a reachable atom or native
function does not hold `&fwdmarker` where its text or function is. -/
structure gc.collectable (s : gc) : Prop where
  layout : (s.fromspace = 0 ∧ s.tospace = HEAPSIZE) ∨
    (s.fromspace = HEAPSIZE ∧ s.tospace = 0)
  slots : ∀ i, i < s.numroots → s.roots.get i < STACKCAP
  roots : ∀ i, i < s.numroots → s.in_active (s.stack.get (s.roots.get i))
  fields : ∀ a, s.reachable a → (s.mem.get a).tag.traced →
    s.in_active (s.mem.get a).car ∧ s.in_active (s.mem.get a).cdr
  leaves : ∀ a, s.reachable a → ¬ (s.mem.get a).tag.traced → (s.mem.get a).car ≠ .fwd

/-- A pointer after the cells moved as `f` says: a cell address is mapped,
every other pointer stays. -/
def relocate (f : Nat → Nat) : ptr → ptr
  | .cell a => .cell (f a)
  | p => p

/-! ### The invariant of a collection -/

/-- The new address of the old cell `a`, when `L` lists the cells evacuated so
far, in the order of their copies from `base` on. -/
def fwd_addr (base : Nat) (L : List Nat) (a : Nat) : Nat := base + L.indexOf a

/-- The value `now` of a traced location is the relocation of its value
`orig` before the collection. -/
def evacuated (base : Nat) (L : List Nat) (now orig : ptr) : Prop :=
  now = relocate (fwd_addr base L) orig ∧ ∀ a, orig = .cell a → a ∈ L

/-- The value `now` of a traced location is still `orig` or already its
relocation. -/
def tracked (base : Nat) (L : List Nat) (now orig : ptr) : Prop :=
  now = orig ∨ evacuated base L now orig

/-- The state `s` in the middle of the collection that started in `s0`, with
`L` the old cells evacuated so far. -/
structure collecting (s0 s : gc) (L : List Nat) : Prop where
  fromspace : s.fromspace = s0.tospace
  tospace : s.tospace = s0.fromspace
  roots : s.roots = s0.roots
  rootstack : s.rootstack = s0.rootstack
  roottop : s.roottop = s0.roottop
  numroots : s.numroots = s0.numroots
  sp : s.sp = s0.sp
  alloc : s.allocptr = s0.tospace + L.length
  nodup : L.Nodup
  reach : ∀ a, a ∈ L → s0.reachable a
  moved : ∀ a, a ∈ L →
    s.mem.get a = ⟨.fwd, .cell (fwd_addr s0.tospace L a), (s0.mem.get a).tag⟩
  old : ∀ a, s0.reachable a → a ∉ L → s.mem.get a = s0.mem.get a
  new_tag : ∀ k, k < L.length →
    (s.mem.get (s0.tospace + k)).tag = (s0.mem.get (L.getD k 0)).tag
  new_car : ∀ k, k < L.length →
    tracked s0.tospace L (s.mem.get (s0.tospace + k)).car (s0.mem.get (L.getD k 0)).car
  new_cdr : ∀ k, k < L.length →
    tracked s0.tospace L (s.mem.get (s0.tospace + k)).cdr (s0.mem.get (L.getD k 0)).cdr
  new_leaf : ∀ k, k < L.length → ¬ (s0.mem.get (L.getD k 0)).tag.traced →
    (s.mem.get (s0.tospace + k)).car = (s0.mem.get (L.getD k 0)).car ∧
    (s.mem.get (s0.tospace + k)).cdr = (s0.mem.get (L.getD k 0)).cdr
  slot : ∀ x, tracked s0.tospace L (s.stack.get x) (s0.stack.get x)
  unreg : ∀ x, (∀ i, i < s0.numroots → s0.roots.get i ≠ x) → s.stack.get x = s0.stack.get x

/-- The first `m` registered slots hold relocated values. -/
def roots_done (s0 s : gc) (L : List Nat) (m : Nat) : Prop :=
  ∀ i, i < m →
    evacuated s0.tospace L (s.stack.get (s0.roots.get i)) (s0.stack.get (s0.roots.get i))

/-- The first `sc` cells of the new semispace are scanned: the fields of the
traced ones hold relocated values. -/
def scanned (s0 s : gc) (L : List Nat) (sc : Nat) : Prop :=
  s.scanptr = s0.tospace + sc ∧ sc ≤ L.length ∧
  ∀ k, k < sc → (s0.mem.get (L.getD k 0)).tag.traced →
    evacuated s0.tospace L (s.mem.get (s0.tospace + k)).car (s0.mem.get (L.getD k 0)).car ∧
    evacuated s0.tospace L (s.mem.get (s0.tospace + k)).cdr (s0.mem.get (L.getD k 0)).cdr

/-- The locations that a collection may have stored to so far: the locals
and the fields of the cells of the new semispace below `allocptr`. -/
def loc.live (base n : Nat) : loc → Prop
  | .slot _ => True
  | .car i => base ≤ i ∧ i < base + n
  | .cdr i => base ≤ i ∧ i < base + n

/-- The value that a location held when the collection started: a local its
own value, a field of the `k`-th cell of the new semispace the field of the
old cell `L[k]` copied there. -/
def loc.orig (s0 : gc) (L : List Nat) : loc → ptr
  | .slot x => s0.stack.get x
  | .car i => (s0.mem.get (L.getD (i - s0.tospace) 0)).car
  | .cdr i => (s0.mem.get (L.getD (i - s0.tospace) 0)).cdr

/-- The locations that `gc_collect` passes to `gc_copy`: the registered
slots, and the fields of the traced cells of the new semispace. -/
def loc.traced (s0 : gc) (L : List Nat) : loc → Prop
  | .slot x => x < STACKCAP ∧ ∃ i, i < s0.numroots ∧ s0.roots.get i = x
  | .car i => s0.tospace ≤ i ∧ i < s0.tospace + L.length ∧
      (s0.mem.get (L.getD (i - s0.tospace) 0)).tag.traced
  | .cdr i => s0.tospace ≤ i ∧ i < s0.tospace + L.length ∧
      (s0.mem.get (L.getD (i - s0.tospace) 0)).tag.traced

/-- The index that a location has in its array. -/
def loc.idx : loc → Nat
  | .slot x => x
  | .car i => i
  | .cdr i => i

/-- The state that `gc_copy` leaves before its last store `*root = p`, when it
copies cell `a`. -/
def evacuate (a : Nat) (s : gc) : gc :=
  let p := s.allocptr
  let s1 := { s with allocptr := p + 1 }
  let s2 := { s1 with mem := s1.mem.set p (s1.mem.get a) }
  let s3 := store s2 (.car a) .fwd
  store s3 (.cdr a) (.cell p)

/-- The state in which `gc_collect` enters its first loop. -/
def gc_swap (s : gc) : gc :=
  { s with fromspace := s.tospace, tospace := s.fromspace,
           allocptr := s.tospace, scanptr := s.tospace }

/-- The state `s1` is what a collection makes of `s`: `L` lists the cells that
were reachable in `s`, each once, in the order of their copies; `f` sends
each to its copy. -/
structure collected (s s1 : gc) (f : Nat → Nat) (L : List Nat) : Prop where
  fromspace : s1.fromspace = s.tospace
  tospace : s1.tospace = s.fromspace
  roots : s1.roots = s.roots
  rootstack : s1.rootstack = s.rootstack
  roottop : s1.roottop = s.roottop
  numroots : s1.numroots = s.numroots
  sp : s1.sp = s.sp
  scan : s1.scanptr = s1.allocptr
  alloc : s1.allocptr = s1.fromspace + L.length
  nodup : L.Nodup
  live : ∀ a, s.reachable a ↔ a ∈ L
  addr : ∀ a, f a = s1.fromspace + L.indexOf a
  slot : ∀ i, i < s.numroots →
    s1.stack.get (s.roots.get i) = relocate f (s.stack.get (s.roots.get i))
  unreg : ∀ x, (∀ i, i < s.numroots → s.roots.get i ≠ x) → s1.stack.get x = s.stack.get x
  tag : ∀ a, s.reachable a → (s1.mem.get (f a)).tag = (s.mem.get a).tag
  traced : ∀ a, s.reachable a → (s.mem.get a).tag.traced →
    (s1.mem.get (f a)).car = relocate f (s.mem.get a).car ∧
    (s1.mem.get (f a)).cdr = relocate f (s.mem.get a).cdr
  leaf : ∀ a, s.reachable a → ¬ (s.mem.get a).tag.traced →
    (s1.mem.get (f a)).car = (s.mem.get a).car ∧
    (s1.mem.get (f a)).cdr = (s.mem.get a).cdr

/-! ### Allocation -/

/-- The cells that the registered roots and the pointers `extra` reach. -/
inductive gc.reachable_with (s : gc) (extra : List ptr) : Nat → Prop where
  | root {b : Nat} : s.is_root b → gc.reachable_with s extra b
  | extra {b : Nat} : ptr.cell b ∈ extra → gc.reachable_with s extra b
  | step {a b : Nat} : gc.reachable_with s extra a → s.edge a b → gc.reachable_with s extra b

/-- The state is collectable once the pointers `extra` are registered too. -/
structure gc.collectable_with (s : gc) (extra : List ptr) : Prop where
  layout : (s.fromspace = 0 ∧ s.tospace = HEAPSIZE) ∨
    (s.fromspace = HEAPSIZE ∧ s.tospace = 0)
  slots : ∀ i, i < s.numroots → s.roots.get i < STACKCAP
  roots : ∀ i, i < s.numroots → s.in_active (s.stack.get (s.roots.get i))
  extras : ∀ p, p ∈ extra → s.in_active p
  fields : ∀ a, s.reachable_with extra a → (s.mem.get a).tag.traced →
    s.in_active (s.mem.get a).car ∧ s.in_active (s.mem.get a).cdr
  leaves : ∀ a, s.reachable_with extra a → ¬ (s.mem.get a).tag.traced →
    (s.mem.get a).car ≠ .fwd

/-- The pointers that `gc_alloc` registers before it collects: the two field
values of a pair, nothing for another tag. -/
def alloc_roots (tag : object_tag) (car cdr : ptr) : List ptr :=
  if tag = .T_CONS then [car, cdr] else []

/-- At least `n` distinct cells are live for the allocation. -/
def gc.live_at_least (s : gc) (extra : List ptr) (n : Nat) : Prop :=
  ∃ l : List Nat, l.Nodup ∧ n ≤ l.length ∧ ∀ a, a ∈ l → s.reachable_with extra a

/-- The state `s1` is `s` with the pointers `extra` held in registered slots
above the registered slots of `s`. -/
structure registers (s s1 : gc) (extra : List ptr) : Prop where
  mem : s1.mem = s.mem
  fromspace : s1.fromspace = s.fromspace
  tospace : s1.tospace = s.tospace
  numroots : s1.numroots = s.numroots + extra.length
  old_root : ∀ i, i < s.numroots → s1.roots.get i = s.roots.get i
  old_slot : ∀ i, i < s.numroots → s1.stack.get (s.roots.get i) = s.stack.get (s.roots.get i)
  new_slot : ∀ j, j < extra.length →
    s1.stack.get (s1.roots.get (s.numroots + j)) = extra.getD j .null
  new_cap : ∀ j, j < extra.length → s1.roots.get (s.numroots + j) < STACKCAP

/-- The state that `enter vals` leaves. -/
def entered (vals : List ptr) (s : gc) : gc :=
  { s with stack := s.stack.write s.sp vals, sp := s.sp + vals.length }

/-- The first part of `gc_alloc`, up to the test for "Out of memory": with the
active semispace full it collects, with the two locals at `b` and `b + 1`
registered for a pair. -/
def gc_alloc_collect (tag : object_tag) (b : Nat) (s0 : gc) : Res gc Unit :=
  if s0.allocptr + 1 > s0.fromspace + HEAPSIZE then
    (if tag = .T_CONS then gc_protect [b, b + 1] s0 else .ret () s0).bind fun _ s1 =>
    (gc_collect s1).bind fun _ s2 =>
    (if tag = .T_CONS then gc_pop s2 else .ret () s2)
  else .ret () s0

/-- The second part of `gc_alloc`: the test and the store of the new cell. -/
def gc_alloc_store (tag : object_tag) (b : Nat) (s3 : gc) : Res gc ptr :=
  if s3.allocptr + 1 > s3.fromspace + HEAPSIZE then .fatal "Out of memory"
  else if s3.allocptr < 2 * HEAPSIZE then
    .ret (.cell s3.allocptr)
      (leave b { s3 with
        mem := s3.mem.set s3.allocptr ⟨s3.stack.get b, s3.stack.get (b + 1), tag⟩,
        allocptr := s3.allocptr + 1 })
  else .undefined

/-- The field value that the new cell gets: relocated for a pair, whose
fields the collection traces, and as passed for another tag. -/
def alloc_field (tag : object_tag) (f : Nat → Nat) (p : ptr) : ptr :=
  if tag = .T_CONS then relocate f p else p

/-- The state `s1` is what `gc_alloc(tag, car, cdr)` makes of `s` when it
collects and returns the cell `p`, the cells that were live having moved as
`f` says. -/
structure allocated (s s1 : gc) (tag : object_tag) (car cdr : ptr) (f : Nat → Nat)
    (p : Nat) : Prop where
  layout : (s1.fromspace = 0 ∧ s1.tospace = HEAPSIZE) ∨
    (s1.fromspace = HEAPSIZE ∧ s1.tospace = 0)
  swap_from : s1.fromspace = s.tospace
  swap_to : s1.tospace = s.fromspace
  roottop : s1.roottop = s.roottop
  numroots : s1.numroots = s.numroots
  roots : ∀ i, i < s.numroots → s1.roots.get i = s.roots.get i
  rootstack : ∀ j, j < s.roottop → s1.rootstack.get j = s.rootstack.get j
  sp : s1.sp = s.sp
  alloc : s1.allocptr = p + 1
  fresh : s1.fromspace ≤ p ∧ p < s1.fromspace + HEAPSIZE
  cell : s1.mem.get p = ⟨alloc_field tag f car, alloc_field tag f cdr, tag⟩
  slot : ∀ i, i < s.numroots →
    s1.stack.get (s.roots.get i) = relocate f (s.stack.get (s.roots.get i))
  unreg : ∀ x, x < s.sp → (∀ i, i < s.numroots → s.roots.get i ≠ x) →
    s1.stack.get x = s.stack.get x
  range : ∀ a, s.reachable_with (alloc_roots tag car cdr) a → s1.fromspace ≤ f a ∧ f a < p
  inj : ∀ a b, s.reachable_with (alloc_roots tag car cdr) a →
    s.reachable_with (alloc_roots tag car cdr) b → f a = f b → a = b
  keeps_tag : ∀ a, s.reachable_with (alloc_roots tag car cdr) a →
    (s1.mem.get (f a)).tag = (s.mem.get a).tag
  keeps_traced : ∀ a, s.reachable_with (alloc_roots tag car cdr) a → (s.mem.get a).tag.traced →
    (s1.mem.get (f a)).car = relocate f (s.mem.get a).car ∧
    (s1.mem.get (f a)).cdr = relocate f (s.mem.get a).cdr
  keeps_leaf : ∀ a, s.reachable_with (alloc_roots tag car cdr) a → ¬ (s.mem.get a).tag.traced →
    (s1.mem.get (f a)).car = (s.mem.get a).car ∧
    (s1.mem.get (f a)).cdr = (s.mem.get a).cdr

/-! ### Sample states -/

/-- A small heap: the atom at cell `0`, the pair at cell `1` whose `car` is
that atom, and one registered local, at address `0`, that holds the pair. -/
def sample_heap : gc :=
  { mem := (Arr.empty.set 0 ⟨.text 0, .null, .T_ATOM⟩).set 1 ⟨.cell 0, .null, .T_CONS⟩,
    tospace := HEAPSIZE, fromspace := 0, allocptr := 2, scanptr := HEAPSIZE,
    roots := Arr.empty.set 0 0, rootstack := Arr.empty.set 0 0,
    roottop := 1, numroots := 1, stack := Arr.empty.set 0 (.cell 1), sp := 1 }

/-- The sample heap with its semispace full: `allocptr` at the end of it. -/
def sample_full : gc := { sample_heap with allocptr := HEAPSIZE }

/-- A state with the active semispace full of unreachable cells and with all
`MAXFRAMES` frames of the registry open, each holding one local that is null. -/
def sample_full_registry : gc :=
  (List.range MAXFRAMES).foldl
    (fun s i => match gc_protect [i] s with
      | .ret _ s1 => s1
      | _ => s)
    { gc_init with allocptr := HEAPSIZE, sp := MAXFRAMES }

/-! ### Callers that allocate pairs -/

/-- The registry of the two callers between their allocations: one frame with
the one local `lst` at address `0`. -/
structure one_root (s : gc) : Prop where
  roottop : s.roottop = 1
  numroots : s.numroots = 1
  root0 : s.roots.get 0 = 0
  rootstack0 : s.rootstack.get 0 = 0
  sp : s.sp = 1

/-- A value built from absent, atoms and pairs; an atom is known by the
address of its interned text. -/
inductive sexp where
  | absent
  | atom (h : Nat)
  | pair (a d : sexp)
  deriving DecidableEq, Repr

/-- The nesting depth of a value. -/
def sexp.depth : sexp → Nat
  | .pair a d => max a.depth d.depth + 1
  | _ => 0

/-- The pointer `p` denotes the value `v` in the heap `g`: null denotes absent,
an atom cell with the text at `h` the atom `h`, a pair cell the pair of what
its fields denote. -/
inductive gc.denotes (g : gc) : ptr → sexp → Prop where
  | absent : gc.denotes g .null .absent
  | atom {i h : Nat} {d : ptr} : i < 2 * HEAPSIZE → g.mem.get i = ⟨.text h, d, .T_ATOM⟩ →
      gc.denotes g (.cell i) (.atom h)
  | pair {i : Nat} {a d : ptr} {va vd : sexp} : i < 2 * HEAPSIZE →
      g.mem.get i = ⟨a, d, .T_CONS⟩ → gc.denotes g a va → gc.denotes g d vd →
      gc.denotes g (.cell i) (.pair va vd)

/-- A heap with the atoms `1`, `2`, `3` (texts at `0`, `1`, `2`) in the cells
`0`, `1`, `2`, and the pairs `(1 . 2)`, `(1 . 2)`, `(1 . 3)` in the cells `3`,
`4`, `5`. -/
def sample_pairs : gc :=
  { gc_init with
    mem := (((((Arr.empty.set 0 ⟨.text 0, .null, .T_ATOM⟩).set 1 ⟨.text 1, .null, .T_ATOM⟩).set 2
      ⟨.text 2, .null, .T_ATOM⟩).set 3 ⟨.cell 0, .cell 1, .T_CONS⟩).set 4
      ⟨.cell 0, .cell 1, .T_CONS⟩).set 5 ⟨.cell 0, .cell 2, .T_CONS⟩,
    allocptr := 6 }

/-! ### Lists in the heap -/

/-- The address of the first cell of a list of cells, null for none. -/
def first_cell : List Nat → ptr
  | [] => .null
  | i :: _ => .cell i

/-- Every cell that the pointer `p` may address is in the set `R`. -/
def ptr.within (R : Nat → Prop) (p : ptr) : Prop := ∀ c, p = .cell c → R c

/-- The cells of `R` hold the same in `g1` as in `g`, and their fields address
only cells of `R`: what a function reads from `g` starting in `R`, it reads
from `g1` too. -/
structure gc.stable (g g1 : gc) (R : Nat → Prop) : Prop where
  closed : ∀ a, R a → ptr.within R (g.mem.get a).car ∧ ptr.within R (g.mem.get a).cdr
  same : ∀ a, R a → g1.mem.get a = g.mem.get a

/-- The pointer `p` is an association list with the keys and values `kvs`,
in order; an element that is null holds no pair. -/
inductive gc.is_alist (g : gc) : ptr → List (ptr × ptr) → Prop where
  | nil : gc.is_alist g .null []
  | skip {i : Nat} {kvs : List (ptr × ptr)} : i < 2 * HEAPSIZE → (g.mem.get i).car = .null →
      gc.is_alist g (g.mem.get i).cdr kvs → gc.is_alist g (.cell i) kvs
  | cons {i j : Nat} {kvs : List (ptr × ptr)} : i < 2 * HEAPSIZE →
      (g.mem.get i).car = .cell j → j < 2 * HEAPSIZE →
      gc.is_alist g (g.mem.get i).cdr kvs →
      gc.is_alist g (.cell i) (((g.mem.get j).car, (g.mem.get j).cdr) :: kvs)

/-- The pointer `p` is an environment with the frames `frames`, innermost
first, each an association list. -/
inductive gc.is_env (g : gc) : ptr → List (List (ptr × ptr)) → Prop where
  | nil : gc.is_env g .null []
  | cons {i : Nat} {kvs : List (ptr × ptr)} {frames : List (List (ptr × ptr))} :
      i < 2 * HEAPSIZE → gc.is_alist g (g.mem.get i).car kvs →
      gc.is_env g (g.mem.get i).cdr frames → gc.is_env g (.cell i) (kvs :: frames)

/-- The values `a` and `b` are not equal for `lisp_equal`. -/
def gc.differs (g : gc) (a b : ptr) : Prop := ∃ n, lisp_equal g n a b = .ok false

/-- The name `k` is bound in no frame. -/
def unbound (g : gc) (k : ptr) (frames : List (List (ptr × ptr))) : Prop :=
  ∀ kvs ∈ frames, ∀ kv ∈ kvs, g.differs k kv.1

/-- The state after a call returned whose parameters and locals, `vals` when
it returned, were on the C stack from `sp` on: they are dead now. -/
def lisp.returned (s : lisp) (vals : List ptr) : lisp :=
  { s with gc := { s.gc with stack := s.gc.stack.write s.gc.sp vals } }

/-- The parameters and locals of `lisp_eval` on entry. -/
def eval_frame (expr env : ptr) : List ptr :=
  expr :: env :: List.replicate (EVAL_FRAME - 2) .null

/-- A state with the texts `x`, `7`, `y` at `0`, `1`, `2`; the atoms `x`, `7`,
`y` in the cells `0`, `1`, `5`; and in cell `4` an environment of one frame
that binds `x` to the atom `7`. Its registry holds one frame with one local,
at address `0`, which holds the environment. -/
def sample_env : lisp :=
  { lisp.start [] with
    tab := ⟨[⟨2, "y"⟩, ⟨1, "7"⟩, ⟨0, "x"⟩], 3⟩,
    gc := { gc_init with
      mem := (((((Arr.empty.set 0 ⟨.text 0, .null, .T_ATOM⟩).set 1
        ⟨.text 1, .null, .T_ATOM⟩).set 2 ⟨.cell 0, .cell 1, .T_CONS⟩).set 3
        ⟨.cell 2, .null, .T_CONS⟩).set 4 ⟨.cell 3, .null, .T_CONS⟩).set 5
        ⟨.text 2, .null, .T_ATOM⟩,
      allocptr := 6,
      stack := Arr.empty.set 0 (.cell 4), sp := 1,
      roots := Arr.empty.set 0 0, rootstack := Arr.empty.set 0 0,
      roottop := 1, numroots := 1 } }

/-- The texts of the special forms are six different texts. -/
def lisp.keywords_distinct (s : lisp) : Prop :=
  [s.TQUOTE, s.TCOND, s.TBEGIN, s.TOR, s.TDEFINE, s.TLAMBDA].Nodup

/-- The cell `x` is a pair whose head is an atom or absent with the text `kw`
(the empty text for absent) and whose tail is `rest`: the form
`(kw . rest)`. -/
def lisp.is_form (s : lisp) (x : Nat) (kw : cstr) (rest : ptr) : Prop :=
  x < 2 * HEAPSIZE ∧ (s.gc.mem.get x).tag = .T_CONS ∧
    TEXT s.gc (s.gc.mem.get x).car = .ok kw ∧ (s.gc.mem.get x).cdr = rest

/-- The state in which the `define` block of `lisp_eval`, with its frame at
`b`, calls `lisp_eval` for the value: `head`, `name` and `value` are set and
the frame of the block is registered. -/
def define_entry (s : lisp) (b : Nat) (head name : ptr) : Res lisp Unit :=
  (lift (gc_protect [b + 1, b + 8, b + 9])
    (((s.lset (b + 2) head).lset (b + 8) .null).lset (b + 9) .null)).bind fun _ s2 =>
    .ret () (s2.lset (b + 8) name)

/-- The sample environment with the text `define` at `3` and the form
`(define y 7)` in cell `7`, in the state in which `lisp_eval` is at its label
`restart` with this form and the environment in its frame at address `1`. -/
def sample_define : lisp :=
  { sample_env with
    tab := ⟨[⟨3, "define"⟩, ⟨2, "y"⟩, ⟨1, "7"⟩, ⟨0, "x"⟩], 4⟩,
    TDEFINE := .interned 3,
    gc := entered (eval_frame (.cell 7) (.cell 4)) { sample_env.gc with
      mem := (((sample_env.gc.mem.set 6 ⟨.text 3, .null, .T_ATOM⟩).set 7
        ⟨.cell 6, .cell 8, .T_CONS⟩).set 8 ⟨.cell 5, .cell 9, .T_CONS⟩).set 9
        ⟨.cell 1, .null, .T_CONS⟩,
      allocptr := 10 } }

/-- The state in which the `define` block, for the sample form, calls
`lisp_eval` for the value `7`. -/
def sample_define_entered : lisp :=
  match define_entry sample_define 1 (.cell 6) (.cell 5) with
  | .ret _ s3 => s3
  | _ => sample_define

/-- The state in which this call has returned. -/
def sample_defined : lisp :=
  sample_define_entered.returned (eval_frame (.cell 1) (.cell 4))

/-! ### The input stream -/

/-- The state in which the characters still to come are `cs`: the first is in
`token_peek`, the others are in the stream; with none to come `token_peek`
is `EOF`. -/
def lisp.feed (s : lisp) (cs : List Char) : lisp :=
  { s with token_peek := cs.head?, input := cs.tail }

/-- The token text of `n` letters `a`. -/
def long_token (n : Nat) : List Char := List.replicate n 'a'

/-! ### After a collection -/

/-- A pointer that is null or addresses a cell of the active semispace below
`allocptr`. -/
def gc.in_copied (s : gc) (p : ptr) : Prop :=
  p = .null ∨ ∃ b, p = .cell b ∧ s.fromspace ≤ b ∧ b < s.allocptr

/-! ### Integer literals -/

/-- A decimal digit. -/
def is_digit (c : Char) : Prop := '0' ≤ c ∧ c ≤ '9'

instance (c : Char) : Decidable (is_digit c) := by unfold is_digit; infer_instance

/-- An integer literal: an optional single `+` or `-`, then one or more
decimal digits, and nothing else. -/
def is_literal (cs : List Char) : Prop :=
  ∃ sign digits, cs = sign ++ digits ∧ (sign = [] ∨ sign = ['+'] ∨ sign = ['-']) ∧
    digits ≠ [] ∧ ∀ c ∈ digits, is_digit c

/-- The number that a string of decimal digits writes. -/
def digits_value (ds : List Char) : Nat :=
  ds.foldl (fun acc c => acc * 10 + (c.toNat - '0'.toNat)) 0

/-- The integer that an integer literal writes. -/
def literal_value (cs : List Char) : Int :=
  match cs with
  | '-' :: ds => - (digits_value ds : Int)
  | '+' :: ds => (digits_value ds : Int)
  | ds => (digits_value ds : Int)

/-- The integer `z` is in the range of `long`. -/
def in_long (z : Int) : Prop := -(2 ^ 63) ≤ z ∧ z < 2 ^ 63

instance (z : Int) : Decidable (in_long z) := by unfold in_long; infer_instance

/-- The pointer `args` is a proper list of atoms whose texts are integer
literals, in the range of `long`, with the values `vals`. -/
inductive lisp.num_args (s : lisp) : ptr → List Int → Prop where
  | nil : lisp.num_args s .null []
  | cons {i j h : Nat} {o a : object} {txt : String} {v : Int} {vals : List Int} :
      i < 2 * HEAPSIZE → s.gc.mem.get i = o → o.car = .cell j →
      j < 2 * HEAPSIZE → s.gc.mem.get j = a → a.tag = .T_ATOM → a.car = .text h →
      s.tab.text_at h = some txt → is_literal txt.toList →
      literal_value txt.toList = v → in_long v →
      lisp.num_args s o.cdr vals →
      lisp.num_args s (.cell i) (v :: vals)

/-- The left fold `a1 - a2 - ... - ak` of `builtin_sub`, and `-a1` for one
argument. -/
def sub_fold : List Int → Int
  | [] => 0
  | [a] => -a
  | a :: rest => rest.foldl (fun x y => x - y) a

/-- A state with the table of the texts `10`, `3`, `2` and the list of the
three atoms with these texts in the cells `3`, `4`, `5`. -/
def sample_numbers : lisp :=
  { lisp.start [] with
    tab := ⟨[⟨2, "2"⟩, ⟨1, "3"⟩, ⟨0, "10"⟩], 3⟩,
    gc := { gc_init with
      mem := (((((Arr.empty.set 0 ⟨.text 0, .null, .T_ATOM⟩).set 1
        ⟨.text 1, .null, .T_ATOM⟩).set 2 ⟨.text 2, .null, .T_ATOM⟩).set 3
        ⟨.cell 0, .cell 4, .T_CONS⟩).set 4 ⟨.cell 1, .cell 5, .T_CONS⟩).set 5
        ⟨.cell 2, .null, .T_CONS⟩,
      allocptr := 6 } }

/-! ### Operands -/

/-- The cells `p, p + 1, ..., p + n - 1`. -/
def cells_from (p n : Nat) : List Nat := List.range' p n

/-- A value built from absent, atoms and pairs, each atom with its text. -/
inductive sx where
  | absent
  | atom (t : List Char)
  | pair (a d : sx)
  deriving DecidableEq, Repr

/-- The text that writes a value: `()` for absent, its text for an atom, and
for a pair the list notation, with ` . ` before a last tail that is an atom. -/
def sx.text : sx → List Char
  | .absent => ['(', ')']
  | .atom t => t
  | .pair a d =>
    '(' :: (a.text ++
      match d with
      | .absent => [')']
      | .atom t => [' ', '.', ' '] ++ t ++ [')']
      | .pair a2 d2 => ' ' :: (sx.text (.pair a2 d2)).tail)

/-- The text that follows an element of a list whose tail is `d`, up to the
closing parenthesis of the list. -/
def sx.tail (d : sx) : List Char :=
  match d with
  | .absent => [')']
  | .atom t => [' ', '.', ' '] ++ t ++ [')']
  | .pair _ _ => ' ' :: d.text.tail

/-- The first token of the text of a value. -/
def sx.first_tok : sx → String
  | .atom t => String.mk t
  | _ => "("

/-- The text of a value after its first token. -/
def sx.after_first : sx → List Char
  | .atom _ => []
  | v => v.text.tail

/-- The atoms of the value are tokens: not empty, of atom characters, shorter
than `TOKEN_MAX`, and not the lone `.`. -/
def sx.valid : sx → Prop
  | .absent => True
  | .atom t => t ≠ [] ∧ (∀ c ∈ t, ATOMCHAR c = true) ∧ t.length < TOKEN_MAX ∧ t ≠ ['.']
  | .pair a d => a.valid ∧ d.valid

/-- The number of cells of a value. -/
def sx.cells : sx → Nat
  | .absent => 0
  | .atom _ => 1
  | .pair a d => a.cells + d.cells + 1

/-- The number of frames of the root registry that are open at once while
the reader reads the value: `lisp_read_list` holds one for each element of a
list while it reads the element and the rest of the list, and `new_cons`
opens one more. -/
def sx.frames : sx → Nat
  | .absent => 0
  | .atom _ => 0
  | .pair a d => 1 + max a.frames (max d.frames 1)

/-- The number of nodes of a value, a bound for the fuel that reading or
printing it takes. -/
def sx.size : sx → Nat
  | .pair a d => a.size + d.size + 1
  | _ => 1

/-- The pointer `p` holds the value `v`: null holds absent, an atom cell an
atom with its text, a pair cell the pair of what its fields hold. -/
inductive lisp.holds (s : lisp) : ptr → sx → Prop where
  | absent : lisp.holds s .null .absent
  | atom {i h : Nat} {t : List Char} {d : ptr} : i < s.gc.allocptr →
      s.gc.mem.get i = ⟨.text h, d, .T_ATOM⟩ → s.tab.text_at h = some (String.mk t) →
      lisp.holds s (.cell i) (.atom t)
  | pair {i : Nat} {a d : ptr} {va vd : sx} : i < s.gc.allocptr →
      s.gc.mem.get i = ⟨a, d, .T_CONS⟩ → lisp.holds s a va → lisp.holds s d vd →
      lisp.holds s (.cell i) (.pair va vd)

/-- The collector's state `g1` is `g` after calls that returned and only
allocated: the registry, the C stack below `sp` and the cells allocated
before are as they were. -/
structure gc.grown (g g1 : gc) : Prop where
  alloc : g.allocptr ≤ g1.allocptr
  fromspace : g1.fromspace = g.fromspace
  tospace : g1.tospace = g.tospace
  roottop : g1.roottop = g.roottop
  numroots : g1.numroots = g.numroots
  sp : g1.sp = g.sp
  roots : ∀ k, k < g.numroots → g1.roots.get k = g.roots.get k
  rootstack : ∀ j, j < g.roottop → g1.rootstack.get j = g.rootstack.get j
  stack : ∀ x, x < g.sp → g1.stack.get x = g.stack.get x
  mem : ∀ a, a < g.allocptr → g1.mem.get a = g.mem.get a

/-- The collector's state `g1` is inside a call of `lisp_read_list` that
started in `g`: the three locals of the call are on the C stack from the old
`sp` on, registered in a new frame, and what was there before is as it was. -/
structure gc.inside (g g1 : gc) : Prop where
  alloc : g.allocptr ≤ g1.allocptr
  fromspace : g1.fromspace = g.fromspace
  tospace : g1.tospace = g.tospace
  roottop : g1.roottop = g.roottop + 1
  numroots : g1.numroots = g.numroots + 3
  sp : g1.sp = g.sp + 3
  saved : g1.rootstack.get g.roottop = g.numroots
  locals : ∀ k, k < 3 → g1.roots.get (g.numroots + k) = g.sp + k
  roots : ∀ k, k < g.numroots → g1.roots.get k = g.roots.get k
  rootstack : ∀ j, j < g.roottop → g1.rootstack.get j = g.rootstack.get j
  stack : ∀ x, x < g.sp → g1.stack.get x = g.stack.get x
  mem : ∀ a, a < g.allocptr → g1.mem.get a = g.mem.get a

/-- The state after `read_token` returned the token `tok`, with the
characters `after` still to come. -/
def lisp.after_token (s : lisp) (tok : String) (after : List Char) : lisp :=
  (intern_str tok (s.feed after)).2

/-- The state `s1` is `s` after the reader read a value and the characters
`after` are still to come: the table of interned strings kept its items. -/
structure lisp.read_to (s s1 : lisp) (after : List Char) : Prop where
  gc : s.gc.grown s1.gc
  peek : s1.token_peek = after.head?
  input : s1.input = after.tail
  wf : s1.tab.wf
  items : ∀ x ∈ s.tab.items, x ∈ s1.tab.items
  keys : s1.TQUOTE = s.TQUOTE ∧ s1.TLAMBDA = s.TLAMBDA ∧ s1.TCOND = s.TCOND ∧
    s1.TDEFINE = s.TDEFINE ∧ s1.TBEGIN = s.TBEGIN ∧ s1.TOR = s.TOR
  output : s1.output = s.output
  errors : s1.errors = s.errors

/-- The state has what reading a value takes that needs `nf` frames of
the registry and `nc` cells: room in the active semispace, in the
registry and on the C stack. -/
structure lisp.can_read (s : lisp) (nf nc : Nat) : Prop where
  wf : s.tab.wf
  room : s.gc.allocptr + nc ≤ s.gc.fromspace + HEAPSIZE
  block : s.gc.fromspace + HEAPSIZE ≤ 2 * HEAPSIZE
  frames : s.gc.roottop + nf ≤ MAXFRAMES
  slots : s.gc.numroots + 3 * nf ≤ MAXROOTS
  stack : s.gc.sp + 3 * nf + 4 ≤ STACKCAP
  below : ∀ k, k < s.gc.numroots → s.gc.roots.get k < s.gc.sp

/-- The first token of the elements of a list and its closing parenthesis:
of the first element, or the parenthesis when there is none. -/
def sx.list_tok : sx → String
  | .pair a _ => a.first_tok
  | _ => ")"

/-- The elements of a list and its closing parenthesis, after the first
token. -/
def sx.list_rem : sx → List Char
  | .pair a d => a.after_first ++ d.tail
  | _ => []

/-- What reading the value `v` leaves: the state `s1` with the characters
`after` still to come, and the pointer `p` that holds `v` in new cells. -/
structure lisp.read_ok (s s1 : lisp) (p : ptr) (v : sx) (after : List Char) : Prop where
  state : s.read_to s1 after
  holds : s1.holds p v
  alloc : s1.gc.allocptr = s.gc.allocptr + v.cells

/-- `lisp_read_obj` reads the value `v`: called with the first token of its
text, the rest of the text and then the characters `dl :: rest` to come, it
returns a pointer that holds `v` and leaves `dl :: rest` to come. -/
def reads_obj (v : sx) (fuel : Nat) : Prop :=
  ∀ (s : lisp) (dl : Char) (rest : List Char), ATOMCHAR dl = false →
    s.can_read v.frames v.cells →
    s.token_peek = (v.after_first ++ dl :: rest).head? →
    s.input = (v.after_first ++ dl :: rest).tail →
    ∃ p s1, lisp_read_obj_with (lisp_read_list fuel) v.first_tok s = .ret p s1 ∧
      s.read_ok s1 p v (dl :: rest)

/-- `lisp_read_list` reads the elements of the list `v`: called with the
first token after the opening parenthesis, it returns a pointer that holds
`v` and leaves the characters after the closing parenthesis to come. -/
def reads_list (v : sx) (fuel : Nat) : Prop :=
  ∀ (s : lisp) (dl : Char) (rest : List Char), ATOMCHAR dl = false →
    s.can_read v.frames v.cells →
    s.token_peek = (v.list_rem ++ dl :: rest).head? →
    s.input = (v.list_rem ++ dl :: rest).tail →
    ∃ p s1, lisp_read_list fuel v.list_tok s = .ret p s1 ∧
      s.read_ok s1 p v (dl :: rest)

/-- The list of `n` atoms `a`. -/
def flat_list : Nat → sx
  | 0 => .absent
  | n + 1 => .pair (.atom ['a']) (flat_list n)

/-- The state in which `main` enters its loop, with `input` to read. -/
def top_state (input : List Char) : lisp :=
  match main_init (lisp.start input) with
  | .ret _ s => s
  | _ => lisp.start input

/-- The value that a call returned. -/
def Res.value {σ α : Type} : Res σ α → Option α
  | .ret a _ => some a
  | _ => none

/-- What the interpreter has written to the error stream when a call
returned. -/
def Res.errors {α : Type} : Res lisp α → Option (List String)
  | .ret _ s => some s.errors
  | _ => none

/-- The conditions of `lisp.can_read`, as a property that can be computed. -/
def lisp.ready (s : lisp) (nf nc : Nat) : Prop :=
  ((∀ x ∈ s.tab.items, x.addr < s.tab.brk) ∧ (s.tab.items.map intern.addr).Nodup) ∧
  s.gc.allocptr + nc ≤ s.gc.fromspace + HEAPSIZE ∧
  s.gc.fromspace + HEAPSIZE ≤ 2 * HEAPSIZE ∧
  s.gc.roottop + nf ≤ MAXFRAMES ∧
  s.gc.numroots + 3 * nf ≤ MAXROOTS ∧
  s.gc.sp + 3 * nf + 4 ≤ STACKCAP ∧
  ∀ k, k < s.gc.numroots → s.gc.roots.get k < s.gc.sp

instance (s : lisp) (nf nc : Nat) : Decidable (s.ready nf nc) := by
  unfold lisp.ready; infer_instance

/-- The size of the root registry, `roottop` and `numroots`, when a call
returned. -/
def Res.registry {α : Type} : Res lisp α → Option (Nat × Nat)
  | .ret _ s => some (s.gc.roottop, s.gc.numroots)
  | _ => none

/-- The text of `n` copies of `txt`. -/
def repeat_text (txt : String) : Nat → String
  | 0 => ""
  | n + 1 => txt ++ repeat_text txt n

/-! ## Notions the statements about `cond` and closures use -/

/-- The state with another C stack. -/
def lisp.with_stack (s : lisp) (st : Arr ptr) : lisp :=
  { s with gc := { s.gc with stack := st } }

theorem Trie.get_nil {α : Type} (dflt : α) (d i : Nat) :
    Trie.get dflt d (Trie.nil : Trie α) i = dflt := by
  cases d <;> simp [Trie.get]

theorem Trie.get_set_self {α : Type} (dflt : α) (d : Nat) :
    ∀ (t : Trie α) (i : Nat) (v : α), i < 2 ^ d → Trie.get dflt d (Trie.set d t i v) i = v := by
  induction d with
  | zero => intro t i v _; simp [Trie.set, Trie.get]
  | succ d ih =>
    intro t i v hi
    have hlt : i < 2 ^ d ∨ (¬ i < 2 ^ d ∧ i - 2 ^ d < 2 ^ d) := by
      by_cases h : i < 2 ^ d
      · exact Or.inl h
      · refine Or.inr ⟨h, ?_⟩
        rw [pow_succ] at hi
        omega
    cases t with
    | node l r =>
      rcases hlt with h | ⟨h, h2⟩
      · simp [Trie.set, Trie.get, h, ih l i v h]
      · simp [Trie.set, Trie.get, h, ih r _ v h2]
    | nil =>
      rcases hlt with h | ⟨h, h2⟩
      · simp [Trie.set, Trie.get, h, ih .nil i v h]
      · simp [Trie.set, Trie.get, h, ih .nil _ v h2]
    | leaf a =>
      rcases hlt with h | ⟨h, h2⟩
      · simp [Trie.set, Trie.get, h, ih .nil i v h]
      · simp [Trie.set, Trie.get, h, ih .nil _ v h2]

theorem Trie.get_set_other {α : Type} (dflt : α) (d : Nat) :
    ∀ (t : Trie α) (i j : Nat) (v : α), i < 2 ^ d → j < 2 ^ d → i ≠ j →
      Trie.get dflt d (Trie.set d t i v) j = Trie.get dflt d t j := by
  induction d with
  | zero => intro t i j v hi hj hne; simp at hi hj; omega
  | succ d ih =>
    intro t i j v hi hj hne
    rw [pow_succ] at hi hj
    cases t with
    | node l r =>
      by_cases h : i < 2 ^ d <;> by_cases h2 : j < 2 ^ d
      · simp [Trie.set, Trie.get, h, h2, ih l i j v h h2 hne]
      · simp [Trie.set, Trie.get, h, h2]
      · simp [Trie.set, Trie.get, h, h2]
      · simp [Trie.set, Trie.get, h, h2]
        exact ih r _ _ v (by omega) (by omega) (by omega)
    | nil =>
      by_cases h : i < 2 ^ d <;> by_cases h2 : j < 2 ^ d
      · simp [Trie.set, Trie.get, h, h2, ih .nil i j v h h2 hne, Trie.get_nil]
      · simp [Trie.set, Trie.get, h, h2, Trie.get_nil]
      · simp [Trie.set, Trie.get, h, h2, Trie.get_nil]
      · simp [Trie.set, Trie.get, h, h2, Trie.get_nil]
        rw [ih .nil _ _ v (by omega) (by omega) (by omega), Trie.get_nil]
    | leaf a =>
      by_cases h : i < 2 ^ d <;> by_cases h2 : j < 2 ^ d
      · simp [Trie.set, Trie.get, h, h2, ih .nil i j v h h2 hne, Trie.get_nil]
      · simp [Trie.set, Trie.get, h, h2, Trie.get_nil]
      · simp [Trie.set, Trie.get, h, h2, Trie.get_nil]
      · simp [Trie.set, Trie.get, h, h2, Trie.get_nil]
        rw [ih .nil _ _ v (by omega) (by omega) (by omega), Trie.get_nil]

theorem Arr.get_empty {α : Type} [Inhabited α] (i : Nat) :
    (Arr.empty : Arr α).get i = default := by
  simp [Arr.get, Arr.empty, Trie.get_nil]

theorem Arr.get_set_eq {α : Type} [Inhabited α] (a : Arr α) (i : Nat) (v : α)
    (hi : i < ARRCAP) : (a.set i v).get i = v := by
  simp only [Arr.get, Arr.set, hi, if_true]
  exact Trie.get_set_self default ARRBITS a.tree i v hi

theorem Arr.get_set_ne {α : Type} [Inhabited α] (a : Arr α) (i j : Nat) (v : α)
    (hne : i ≠ j) : (a.set i v).get j = a.get j := by
  by_cases hi : i < ARRCAP
  · by_cases hj : j < ARRCAP
    · simp only [Arr.get, Arr.set, hi, hj, if_true]
      exact Trie.get_set_other default ARRBITS a.tree i j v hi hj hne
    · simp [Arr.get, hj]
  · simp [Arr.set, hi]

theorem Arr.get_set {α : Type} [Inhabited α] (a : Arr α) (i j : Nat) (v : α)
    (hi : i < ARRCAP) : (a.set i v).get j = if j = i then v else a.get j := by
  by_cases h : j = i
  · subst h; simp [Arr.get_set_eq a j v hi]
  · simp [h, Arr.get_set_ne a i j v (Ne.symm h)]

theorem Arr.get_write_lt {α : Type} [Inhabited α] (vs : List α) :
    ∀ (a : Arr α) (i j : Nat), j < i → (a.write i vs).get j = a.get j := by
  induction vs with
  | nil => intro a i j _; rfl
  | cons v vs ih =>
    intro a i j hj
    simp only [Arr.write]
    rw [ih _ _ _ (by omega), Arr.get_set_ne _ _ _ _ (by omega)]

theorem Arr.get_write_ge {α : Type} [Inhabited α] (vs : List α) :
    ∀ (a : Arr α) (i j : Nat), i + vs.length ≤ j → (a.write i vs).get j = a.get j := by
  induction vs with
  | nil => intro a i j _; rfl
  | cons v vs ih =>
    intro a i j hj
    simp only [Arr.write, List.length_cons] at *
    rw [ih _ _ _ (by omega), Arr.get_set_ne _ _ _ _ (by omega)]

theorem Arr.get_write_in {α : Type} [Inhabited α] (vs : List α) :
    ∀ (a : Arr α) (i k : Nat), k < vs.length → i + vs.length ≤ ARRCAP →
      (a.write i vs).get (i + k) = vs.getD k default := by
  induction vs with
  | nil => intro a i k hk; simp at hk
  | cons v vs ih =>
    intro a i k hk hcap
    simp only [List.length_cons] at hk hcap
    simp only [Arr.write]
    cases k with
    | zero =>
      rw [Arr.get_write_lt _ _ _ _ (by omega), Nat.add_zero, Arr.get_set_eq _ _ _ (by omega)]
      rfl
    | succ k =>
      have := ih (a.set i v) (i + 1) k (by omega) (by omega)
      rw [show i + (k + 1) = i + 1 + k by omega, this]
      rfl

/-! ## The root registry -/

theorem MAXROOTS_lt_ARRCAP : MAXROOTS < ARRCAP := by decide
theorem MAXFRAMES_lt_ARRCAP : MAXFRAMES < ARRCAP := by decide

/-- The argument loop of `gc_protect` stores its slots in order and touches
nothing but `roots` and `numroots`. -/
theorem gc_protect_loop_spec (slots : List Nat) :
    ∀ s : gc, s.numroots + slots.length ≤ MAXROOTS →
      ∃ s1, gc_protect_loop slots s = .ret () s1 ∧
        s1.numroots = s.numroots + slots.length ∧
        s1.roottop = s.roottop ∧ s1.rootstack = s.rootstack ∧
        s1.mem = s.mem ∧ s1.stack = s.stack ∧ s1.sp = s.sp ∧
        s1.fromspace = s.fromspace ∧ s1.tospace = s.tospace ∧
        s1.allocptr = s.allocptr ∧ s1.scanptr = s.scanptr ∧
        (∀ j, j < s.numroots → s1.roots.get j = s.roots.get j) ∧
        (∀ i, i < slots.length → s1.roots.get (s.numroots + i) = slots.getD i 0) := by
  induction slots with
  | nil =>
    intro s _
    exact ⟨s, rfl, by simp, rfl, rfl, rfl, rfl, rfl, rfl, rfl, rfl, rfl, fun _ _ => rfl,
      fun i hi => by simp at hi⟩
  | cons p ps ih =>
    intro s h
    simp only [List.length_cons] at h
    have hlt : s.numroots < MAXROOTS := by omega
    obtain ⟨s1, h1, hn, ht, hrs, hm, hst, hsp, hf, hto, ha, hsc, hold, hnew⟩ :=
      ih { s with roots := s.roots.set s.numroots p, numroots := s.numroots + 1 }
        (by simp only; omega)
    refine ⟨s1, ?_, ?_, ht, hrs, hm, hst, hsp, hf, hto, ha, hsc, ?_, ?_⟩
    · simp only [gc_protect_loop, hlt, if_true]; exact h1
    · simp only at hn; simp only [List.length_cons]; omega
    · intro j hj
      rw [hold j (by simp only; omega)]
      exact Arr.get_set_ne _ _ _ _ (by omega)
    · intro i hi
      cases i with
      | zero =>
        rw [Nat.add_zero, hold _ (by simp only; omega)]
        simp only
        rw [Arr.get_set_eq _ _ _ (lt_trans hlt MAXROOTS_lt_ARRCAP)]
        rfl
      | succ i =>
        simp only [List.length_cons] at hi
        have := hnew i (by omega)
        simp only at this
        rw [show s.numroots + (i + 1) = s.numroots + 1 + i by omega, this]
        rfl

/-- The call `gc_protect(slots)` with room in both arrays. -/
theorem gc_protect_spec (slots : List Nat) (s : gc)
    (ht : s.roottop < MAXFRAMES) (hn : s.numroots + slots.length ≤ MAXROOTS) :
    ∃ s1, gc_protect slots s = .ret () s1 ∧
      s1.numroots = s.numroots + slots.length ∧
      s1.roottop = s.roottop + 1 ∧
      s1.rootstack.get s.roottop = s.numroots ∧
      (∀ j, j ≠ s.roottop → s1.rootstack.get j = s.rootstack.get j) ∧
      s1.mem = s.mem ∧ s1.stack = s.stack ∧ s1.sp = s.sp ∧
      s1.fromspace = s.fromspace ∧ s1.tospace = s.tospace ∧
      s1.allocptr = s.allocptr ∧ s1.scanptr = s.scanptr ∧
      (∀ j, j < s.numroots → s1.roots.get j = s.roots.get j) ∧
      (∀ i, i < slots.length → s1.roots.get (s.numroots + i) = slots.getD i 0) := by
  obtain ⟨s1, h1, hn1, ht1, hrs, hm, hst, hsp, hf, hto, ha, hsc, hold, hnew⟩ :=
    gc_protect_loop_spec slots
      { s with rootstack := s.rootstack.set s.roottop s.numroots, roottop := s.roottop + 1 }
      (by simpa using hn)
  refine ⟨s1, ?_, hn1, ht1, ?_, ?_, hm, hst, hsp, hf, hto, ha, hsc, hold, hnew⟩
  · simp only [gc_protect, ht, if_true]; exact h1
  · rw [hrs]; exact Arr.get_set_eq _ _ _ (lt_trans ht MAXFRAMES_lt_ARRCAP)
  · intro j hj; rw [hrs]; exact Arr.get_set_ne _ _ _ _ (Ne.symm hj)

/-- The call `gc_pop()` with an open frame. -/
theorem gc_pop_spec (s : gc) (ht : 0 < s.roottop) :
    ∃ s1, gc_pop s = .ret () s1 ∧
      s1.roottop = s.roottop - 1 ∧
      s1.numroots = s.rootstack.get (s.roottop - 1) ∧
      s1.rootstack = s.rootstack ∧ s1.roots = s.roots ∧
      s1.mem = s.mem ∧ s1.stack = s.stack ∧ s1.sp = s.sp ∧
      s1.fromspace = s.fromspace ∧ s1.tospace = s.tospace ∧
      s1.allocptr = s.allocptr ∧ s1.scanptr = s.scanptr :=
  ⟨{ s with roottop := s.roottop - 1, numroots := s.rootstack.get (s.roottop - 1) },
    by simp [gc_pop, ht], rfl, rfl, rfl, rfl, rfl, rfl, rfl, rfl, rfl, rfl, rfl⟩

/-- C4: with `roottop < MAXFRAMES` and room for the `k >= 1` slots,
`gc_protect(slots)` stores exactly those slots, in order, at
`roots[numroots .. numroots + k)` and keeps `roots[0 .. numroots)`; the
following `gc_pop()` restores `roottop` and `numroots` and keeps
`roots[0 .. numroots)`; and a protect/pop pair nested inside restores the
inner sizes first and the outer sizes next. -/
theorem C4_gc_protect_pop_lifo (s : gc) (slots : List Nat)
    (ht : s.roottop < MAXFRAMES) (hk : 1 ≤ slots.length)
    (hn : s.numroots + slots.length ≤ MAXROOTS) :
    ∃ s1 s2, gc_protect slots s = .ret () s1 ∧
      s1.roottop = s.roottop + 1 ∧
      s1.numroots = s.numroots + slots.length ∧
      (∀ i, i < slots.length → s1.roots.get (s.numroots + i) = slots.getD i 0) ∧
      (∀ j, j < s.numroots → s1.roots.get j = s.roots.get j) ∧
      gc_pop s1 = .ret () s2 ∧
      s2.roottop = s.roottop ∧ s2.numroots = s.numroots ∧
      (∀ j, j < s.numroots → s2.roots.get j = s.roots.get j) ∧
      (∀ slots2 : List Nat, s1.roottop < MAXFRAMES →
        s1.numroots + slots2.length ≤ MAXROOTS →
        ∃ s3 s4 s5, gc_protect slots2 s1 = .ret () s3 ∧
          s3.roottop = s.roottop + 2 ∧
          s3.numroots = s.numroots + slots.length + slots2.length ∧
          gc_pop s3 = .ret () s4 ∧
          s4.roottop = s1.roottop ∧ s4.numroots = s1.numroots ∧
          gc_pop s4 = .ret () s5 ∧
          s5.roottop = s.roottop ∧ s5.numroots = s.numroots ∧
          (∀ j, j < s.numroots → s5.roots.get j = s.roots.get j)) := by
  obtain ⟨s1, h1, hn1, ht1, hrs1, hrs1', -, -, -, -, -, -, -, hold1, hnew1⟩ :=
    gc_protect_spec slots s ht hn
  obtain ⟨s2, h2, ht2, hn2, -, hr2, -⟩ := gc_pop_spec s1 (by omega)
  refine ⟨s1, s2, h1, ht1, hn1, hnew1, hold1, h2, by omega, ?_, ?_, ?_⟩
  · rw [hn2, ht1, Nat.add_sub_cancel]; exact hrs1
  · intro j hj; rw [hr2]; exact hold1 j hj
  · intro slots2 ht3 hn3
    obtain ⟨s3, h3, hn3', ht3', hrs3, hrs3', -, -, -, -, -, -, -, hold3, -⟩ :=
      gc_protect_spec slots2 s1 ht3 hn3
    obtain ⟨s4, h4, ht4, hn4, hrs4, hr4, -⟩ := gc_pop_spec s3 (by omega)
    have e4 : s3.roottop - 1 = s1.roottop := by omega
    obtain ⟨s5, h5, ht5, hn5, -, hr5, -⟩ := gc_pop_spec s4 (by omega)
    refine ⟨s3, s4, s5, h3, by omega, by omega, h4, by omega, ?_, h5, by omega, ?_, ?_⟩
    · rw [hn4, e4]; exact hrs3
    · rw [hn5, hrs4, ht4, e4, ht1, Nat.add_sub_cancel, hrs3' _ (by omega)]
      exact hrs1
    · intro j hj
      rw [hr5, hr4, hold3 j (by omega)]
      exact hold1 j hj

/-- C4, at the state after `gc_init` with the two slots `7` and `9`. -/
theorem C4_gc_protect_pop_lifo_witness :
    ∃ s1 s2, gc_protect [7, 9] gc_init = .ret () s1 ∧
      s1.roottop = gc_init.roottop + 1 ∧
      s1.numroots = gc_init.numroots + [7, 9].length ∧
      (∀ i, i < [7, 9].length → s1.roots.get (gc_init.numroots + i) = [7, 9].getD i 0) ∧
      (∀ j, j < gc_init.numroots → s1.roots.get j = gc_init.roots.get j) ∧
      gc_pop s1 = .ret () s2 ∧
      s2.roottop = gc_init.roottop ∧ s2.numroots = gc_init.numroots ∧
      (∀ j, j < gc_init.numroots → s2.roots.get j = gc_init.roots.get j) ∧
      (∀ slots2 : List Nat, s1.roottop < MAXFRAMES →
        s1.numroots + slots2.length ≤ MAXROOTS →
        ∃ s3 s4 s5, gc_protect slots2 s1 = .ret () s3 ∧
          s3.roottop = gc_init.roottop + 2 ∧
          s3.numroots = gc_init.numroots + [7, 9].length + slots2.length ∧
          gc_pop s3 = .ret () s4 ∧
          s4.roottop = s1.roottop ∧ s4.numroots = s1.numroots ∧
          gc_pop s4 = .ret () s5 ∧
          s5.roottop = gc_init.roottop ∧ s5.numroots = gc_init.numroots ∧
          (∀ j, j < gc_init.numroots → s5.roots.get j = gc_init.roots.get j)) :=
  C4_gc_protect_pop_lifo gc_init [7, 9] (by decide) (by decide) (by decide)

/-! ## The table of interned strings -/

theorem intern_find_some {str : String} {items : List intern} {a : Nat}
    (h : intern_find str items = some a) : (⟨a, str⟩ : intern) ∈ items := by
  induction items with
  | nil => simp [intern_find] at h
  | cons x xs ih =>
    simp only [intern_find] at h
    by_cases hx : x.text = str
    · simp only [hx, if_true, Option.some.injEq] at h
      have : x = ⟨a, str⟩ := by cases x; simp_all
      simp [this]
    · simp only [hx, if_false] at h
      exact List.mem_cons_of_mem _ (ih h)

theorem intern_find_none {str : String} {items : List intern}
    (h : intern_find str items = none) : ∀ x ∈ items, x.text ≠ str := by
  induction items with
  | nil => simp
  | cons x xs ih =>
    simp only [intern_find] at h
    by_cases hx : x.text = str
    · simp [hx] at h
    · simp only [hx, if_false] at h
      intro y hy
      rcases List.mem_cons.mp hy with rfl | hy
      · exact hx
      · exact ih h y hy

theorem intern_string_wf (str : String) (t : interns) (h : t.wf) :
    (intern_string str t).2.wf := by
  unfold intern_string
  cases hf : intern_find str t.items with
  | some a => exact h
  | none =>
    refine ⟨?_, ?_⟩
    · intro x hx
      rcases List.mem_cons.mp hx with rfl | hx
      · exact Nat.lt_succ_self _
      · exact Nat.lt_succ_of_lt (h.1 x hx)
    · simp only [List.map_cons, List.nodup_cons]
      refine ⟨?_, h.2⟩
      intro hmem
      obtain ⟨x, hx, hxa⟩ := List.mem_map.mp hmem
      have := h.1 x hx
      omega

/-- The item that a call returns is in the table it leaves, with the text asked for. -/
theorem intern_string_mem (str : String) (t : interns) :
    (⟨(intern_string str t).1, str⟩ : intern) ∈ (intern_string str t).2.items := by
  unfold intern_string
  cases hf : intern_find str t.items with
  | some a => exact intern_find_some hf
  | none => simp

/-- A call looked up again finds what it returned. -/
theorem intern_string_find (str : String) (t : interns) :
    intern_find str (intern_string str t).2.items = some (intern_string str t).1 := by
  unfold intern_string
  cases hf : intern_find str t.items with
  | some a => exact hf
  | none => simp [intern_find]

/-- A call keeps every item of the table. -/
theorem intern_string_items_subset (str : String) (t : interns) :
    ∀ x ∈ t.items, x ∈ (intern_string str t).2.items := by
  unfold intern_string
  cases hf : intern_find str t.items with
  | some a => exact fun x hx => hx
  | none => exact fun x hx => List.mem_cons_of_mem _ hx

/-- A call for another text keeps what a lookup of `str` finds. -/
theorem intern_string_find_keep (str u : String) (t : interns) (a : Nat)
    (h : intern_find str t.items = some a) :
    intern_find str (intern_string u t).2.items = some a := by
  unfold intern_string
  cases hf : intern_find u t.items with
  | some b => exact h
  | none =>
    have hne : ¬ u = str := by
      intro e; subst e; rw [h] at hf; cases hf
    simp [intern_find, hne, h]

theorem intern_many_wf (us : List String) : ∀ t : interns, t.wf → (intern_many us t).wf := by
  induction us with
  | nil => intro t h; exact h
  | cons u us ih => intro t h; exact ih _ (intern_string_wf u t h)

theorem intern_many_find_keep (str : String) (a : Nat) (us : List String) :
    ∀ t : interns, intern_find str t.items = some a →
      intern_find str (intern_many us t).items = some a := by
  induction us with
  | nil => intro t h; exact h
  | cons u us ih => intro t h; exact ih _ (intern_string_find_keep str u t a h)

theorem intern_many_items_subset (us : List String) :
    ∀ t : interns, ∀ x ∈ t.items, x ∈ (intern_many us t).items := by
  induction us with
  | nil => intro t x hx; exact hx
  | cons u us ih => intro t x hx; exact ih _ x (intern_string_items_subset u t x hx)

/-- Two items of a well-formed table with one address are one item. -/
theorem interns.wf_addr_inj {t : interns} (h : t.wf) {x y : intern}
    (hx : x ∈ t.items) (hy : y ∈ t.items) (e : x.addr = y.addr) : x = y :=
  List.inj_on_of_nodup_map h.2 hx hy e

/-- C6: in every well-formed table, the handle of `intern_string(s)` and the
handle of a later `intern_string(t)` (after any calls `us` in between) are
the same exactly when `s = t`; the later call for a text already present
returns the existing handle and leaves the table as it is; and the item
returned first is still in every later table, with its text. -/
theorem C6_intern_string_dedup (tb : interns) (hwf : tb.wf) (s t : String)
    (us : List String) :
    let r1 := intern_string s tb
    let tb2 := intern_many us r1.2
    let r2 := intern_string t tb2
    (r1.1 = r2.1 ↔ s = t) ∧
    intern_string s tb2 = (r1.1, tb2) ∧
    (⟨r1.1, s⟩ : intern) ∈ tb2.items ∧
    (⟨r1.1, s⟩ : intern) ∈ r2.2.items := by
  intro r1 tb2 r2
  have hfind : intern_find s tb2.items = some r1.1 :=
    intern_many_find_keep s _ us _ (intern_string_find s tb)
  have hmem1 : (⟨r1.1, s⟩ : intern) ∈ tb2.items :=
    intern_many_items_subset us _ _ (intern_string_mem s tb)
  have hmem1' : (⟨r1.1, s⟩ : intern) ∈ r2.2.items :=
    intern_string_items_subset t tb2 _ hmem1
  have hsame : intern_string s tb2 = (r1.1, tb2) := by
    simp only [intern_string, hfind]
  refine ⟨⟨?_, ?_⟩, hsame, hmem1, hmem1'⟩
  · intro e
    have hwf3 : r2.2.wf :=
      intern_string_wf t tb2 (intern_many_wf us _ (intern_string_wf s tb hwf))
    have hmem2 : (⟨r2.1, t⟩ : intern) ∈ r2.2.items := intern_string_mem t tb2
    have := interns.wf_addr_inj hwf3 hmem1' hmem2 e
    exact congrArg intern.text this
  · intro e
    subst e
    show r1.1 = (intern_string s tb2).1
    rw [hsame]

/-- C6, on the empty table, for the texts `"abc"` and `"abd"` with a call for
`"x"` in between. -/
theorem C6_intern_string_dedup_witness :
    let r1 := intern_string "abc" ⟨[], 0⟩
    let tb2 := intern_many ["x"] r1.2
    let r2 := intern_string "abd" tb2
    (r1.1 = r2.1 ↔ "abc" = "abd") ∧
    intern_string "abc" tb2 = (r1.1, tb2) ∧
    (⟨r1.1, "abc"⟩ : intern) ∈ tb2.items ∧
    (⟨r1.1, "abc"⟩ : intern) ∈ r2.2.items :=
  C6_intern_string_dedup ⟨[], 0⟩ ⟨by simp, by simp⟩ "abc" "abd" ["x"]

/-! ## Lists of evacuated cells -/

theorem two_HEAPSIZE_le_ARRCAP : 2 * HEAPSIZE ≤ ARRCAP := by decide
theorem STACKCAP_eq : STACKCAP = ARRCAP := rfl

theorem getD_mem_of_lt (L : List Nat) (k : Nat) (h : k < L.length) : L.getD k 0 ∈ L := by
  rw [List.getD_eq_getElem _ _ h]; exact List.getElem_mem h

theorem getD_indexOf (L : List Nat) (a : Nat) (h : a ∈ L) : L.getD (L.indexOf a) 0 = a := by
  have hlt : L.indexOf a < L.length := List.indexOf_lt_length.mpr h
  rw [List.getD_eq_getElem _ _ hlt]; exact List.getElem_indexOf hlt

theorem indexOf_getD (L : List Nat) (hn : L.Nodup) (k : Nat) (h : k < L.length) :
    L.indexOf (L.getD k 0) = k := by
  rw [List.getD_eq_getElem _ _ h]; exact List.indexOf_getElem hn k h

theorem getD_append_lt (L : List Nat) (a k : Nat) (h : k < L.length) :
    (L ++ [a]).getD k 0 = L.getD k 0 := List.getD_append _ _ _ _ h

theorem getD_append_self (L : List Nat) (a : Nat) : (L ++ [a]).getD L.length 0 = a := by
  rw [List.getD_append_right _ _ _ _ (le_refl _)]; simp

theorem indexOf_append_self (L : List Nat) (a : Nat) (h : a ∉ L) :
    (L ++ [a]).indexOf a = L.length := by
  rw [List.indexOf_append_of_not_mem h]; simp

/-- A duplicate-free list of addresses of one semispace has at most
`HEAPSIZE` entries. -/
theorem length_le_of_nodup_range (L : List Nat) (lo n : Nat) (hn : L.Nodup)
    (hr : ∀ a, a ∈ L → lo ≤ a ∧ a < lo + n) : L.length ≤ n := by
  have hsub : L ⊆ List.range' lo n := by
    intro a ha
    have := hr a ha
    rw [List.mem_range']
    exact ⟨a - lo, by omega, by omega⟩
  have := (List.subperm_of_subset hn hsub).length_le
  simpa using this

/-! ## Reachable cells lie in the active semispace -/

theorem reachable_in_active {s : gc} (hc : s.collectable) {a : Nat} (h : s.reachable a) :
    s.fromspace ≤ a ∧ a < s.fromspace + HEAPSIZE := by
  induction h with
  | root hr =>
    obtain ⟨i, hi, hv⟩ := hr
    rcases hc.roots i hi with h0 | ⟨b, hb, h1, h2⟩
    · rw [hv] at h0; cases h0
    · rw [hv] at hb; cases hb; exact ⟨h1, h2⟩
  | step ha he _ =>
    obtain ⟨ht, hcar | hcdr⟩ := he
    · rcases (hc.fields _ ha ht).1 with h0 | ⟨b, hb, h1, h2⟩
      · rw [hcar] at h0; cases h0
      · rw [hcar] at hb; cases hb; exact ⟨h1, h2⟩
    · rcases (hc.fields _ ha ht).2 with h0 | ⟨b, hb, h1, h2⟩
      · rw [hcdr] at h0; cases h0
      · rw [hcdr] at hb; cases hb; exact ⟨h1, h2⟩

/-- No field of a reachable cell holds `&fwdmarker`. -/
theorem reachable_car_ne_fwd {s : gc} (hc : s.collectable) {a : Nat} (h : s.reachable a) :
    (s.mem.get a).car ≠ .fwd := by
  by_cases ht : (s.mem.get a).tag.traced
  · rcases (hc.fields _ h ht).1 with h0 | ⟨b, hb, -, -⟩
    · rw [h0]; exact fun e => by cases e
    · rw [hb]; exact fun e => by cases e
  · exact hc.leaves a h ht

/-! ## Monotonicity in the list of evacuated cells -/

theorem fwd_addr_append (base : Nat) (L : List Nat) (b a : Nat) (h : a ∈ L) :
    fwd_addr base (L ++ [b]) a = fwd_addr base L a := by
  unfold fwd_addr; rw [List.indexOf_append_of_mem h]

theorem evacuated_append {base : Nat} {L : List Nat} {now orig : ptr} (b : Nat)
    (h : evacuated base L now orig) : evacuated base (L ++ [b]) now orig := by
  obtain ⟨h1, h2⟩ := h
  refine ⟨?_, fun a ha => List.mem_append_left _ (h2 a ha)⟩
  rw [h1]
  cases orig with
  | cell a => simp only [relocate]; rw [fwd_addr_append base L b a (h2 a rfl)]
  | null => rfl
  | fwd => rfl
  | text _ => rfl
  | func _ => rfl

theorem tracked_append {base : Nat} {L : List Nat} {now orig : ptr} (b : Nat)
    (h : tracked base L now orig) : tracked base (L ++ [b]) now orig :=
  h.imp id (evacuated_append b)

theorem roots_done_append {s0 s : gc} {L : List Nat} {m : Nat} (b : Nat)
    (h : roots_done s0 s L m) : roots_done s0 s (L ++ [b]) m :=
  fun i hi => evacuated_append b (h i hi)

/-! ## Loads and stores -/

theorem mem_set_car (m : Arr object) (i : Nat) (v : ptr) (hi : i < ARRCAP) (j : Nat) :
    ((m.set i { m.get i with car := v }).get j).tag = (m.get j).tag ∧
    ((m.set i { m.get i with car := v }).get j).cdr = (m.get j).cdr ∧
    ((m.set i { m.get i with car := v }).get j).car = if j = i then v else (m.get j).car := by
  by_cases h : j = i
  · subst h; simp [Arr.get_set_eq _ _ _ hi]
  · simp [Arr.get_set_ne _ _ _ _ (Ne.symm h), h]

theorem mem_set_cdr (m : Arr object) (i : Nat) (v : ptr) (hi : i < ARRCAP) (j : Nat) :
    ((m.set i { m.get i with cdr := v }).get j).tag = (m.get j).tag ∧
    ((m.set i { m.get i with cdr := v }).get j).car = (m.get j).car ∧
    ((m.set i { m.get i with cdr := v }).get j).cdr = if j = i then v else (m.get j).cdr := by
  by_cases h : j = i
  · subst h; simp [Arr.get_set_eq _ _ _ hi]
  · simp [Arr.get_set_ne _ _ _ _ (Ne.symm h), h]

theorem load_store_eq (s : gc) (l : loc) (v : ptr) (h : l.idx < ARRCAP) :
    load (store s l v) l = v := by
  cases l with
  | slot x => simp only [load, store]; exact Arr.get_set_eq _ _ _ h
  | car i =>
    have h' : i < ARRCAP := h
    simp only [load, store]; rw [(mem_set_car _ _ _ h' i).2.2]; simp
  | cdr i =>
    have h' : i < ARRCAP := h
    simp only [load, store]; rw [(mem_set_cdr _ _ _ h' i).2.2]; simp

theorem load_store_ne (s : gc) (l l' : loc) (v : ptr) (h : l.idx < ARRCAP) (hne : l' ≠ l) :
    load (store s l v) l' = load s l' := by
  cases l with
  | slot x =>
    cases l' with
    | slot y =>
      simp only [load, store]
      exact Arr.get_set_ne _ _ _ _ (fun e => hne (by rw [e]))
    | car j => rfl
    | cdr j => rfl
  | car i =>
    have h' : i < ARRCAP := h
    cases l' with
    | slot y => rfl
    | car j =>
      simp only [load, store]
      rw [(mem_set_car _ _ _ h' j).2.2, if_neg (fun e => hne (by rw [e]))]
    | cdr j => simp only [load, store]; exact (mem_set_car _ _ _ h' j).2.1
  | cdr i =>
    have h' : i < ARRCAP := h
    cases l' with
    | slot y => rfl
    | car j => simp only [load, store]; exact (mem_set_cdr _ _ _ h' j).2.1
    | cdr j =>
      simp only [load, store]
      rw [(mem_set_cdr _ _ _ h' j).2.2, if_neg (fun e => hne (by rw [e]))]

/-! ## A store to a traced location keeps the invariant -/

theorem collecting.length_le {s0 s : gc} {L : List Nat} (hc : s0.collectable)
    (inv : collecting s0 s L) : L.length ≤ HEAPSIZE :=
  length_le_of_nodup_range L s0.fromspace HEAPSIZE inv.nodup
    (fun a ha => reachable_in_active hc (inv.reach a ha))

theorem loc.traced_idx_lt {s0 s : gc} {L : List Nat} (hc : s0.collectable)
    (inv : collecting s0 s L) {l : loc} (ht : l.traced s0 L) : l.idx < ARRCAP := by
  have hlen := inv.length_le hc
  have hcap := two_HEAPSIZE_le_ARRCAP
  have hlay := hc.layout
  cases l with
  | slot x => exact ht.1
  | car i => obtain ⟨h1, h2, -⟩ := ht; simp only [loc.idx]; omega
  | cdr i => obtain ⟨h1, h2, -⟩ := ht; simp only [loc.idx]; omega

theorem store_collecting {s0 s : gc} {L : List Nat} (hc : s0.collectable)
    (inv : collecting s0 s L) (l : loc) (v : ptr) (ht : l.traced s0 L)
    (hev : evacuated s0.tospace L v (l.orig s0 L)) :
    collecting s0 (store s l v) L := by
  have hidx := loc.traced_idx_lt hc inv ht
  have hlay := hc.layout
  cases l with
  | slot x =>
    obtain ⟨hx, i, hi, hri⟩ := ht
    simp only [loc.orig] at hev
    refine { inv with slot := ?_, unreg := ?_ }
    · intro y
      by_cases hy : y = x
      · subst hy
        simp only [store]
        rw [Arr.get_set_eq _ _ _ hx]
        exact Or.inr hev
      · simp only [store]
        rw [Arr.get_set_ne _ _ _ _ (Ne.symm hy)]
        exact inv.slot y
    · intro y hy
      have hne : x ≠ y := fun e => hy i hi (by rw [hri, e])
      simp only [store]
      rw [Arr.get_set_ne _ _ _ _ hne]
      exact inv.unreg y hy
  | car i =>
    obtain ⟨h1, h2, htr⟩ := ht
    simp only [loc.idx] at hidx
    simp only [loc.orig] at hev
    have hold : ∀ a, s0.reachable a → a ≠ i := by
      intro a ha e
      have := reachable_in_active hc ha
      have := inv.length_le hc
      omega
    have hk : ∀ k, s0.tospace + k = i → k = i - s0.tospace := by intro k e; omega
    refine { inv with moved := ?_, old := ?_, new_tag := ?_, new_car := ?_, new_cdr := ?_,
                      new_leaf := ?_ }
    · intro a ha
      simp only [store]
      rw [Arr.get_set_ne _ _ _ _ (Ne.symm (hold a (inv.reach a ha)))]
      exact inv.moved a ha
    · intro a ha hna
      simp only [store]
      rw [Arr.get_set_ne _ _ _ _ (Ne.symm (hold a ha))]
      exact inv.old a ha hna
    · intro k hk'
      simp only [store]
      rw [(mem_set_car _ _ _ hidx _).1]
      exact inv.new_tag k hk'
    · intro k hk'
      simp only [store]
      rw [(mem_set_car _ _ _ hidx _).2.2]
      by_cases e : s0.tospace + k = i
      · rw [if_pos e, hk k e]; exact Or.inr hev
      · rw [if_neg e]; exact inv.new_car k hk'
    · intro k hk'
      simp only [store]
      rw [(mem_set_car _ _ _ hidx _).2.1]
      exact inv.new_cdr k hk'
    · intro k hk' hnt
      simp only [store]
      rw [(mem_set_car _ _ _ hidx _).2.2, (mem_set_car _ _ _ hidx _).2.1]
      by_cases e : s0.tospace + k = i
      · rw [hk k e] at hnt; exact absurd htr hnt
      · rw [if_neg e]; exact inv.new_leaf k hk' hnt
  | cdr i =>
    obtain ⟨h1, h2, htr⟩ := ht
    simp only [loc.idx] at hidx
    simp only [loc.orig] at hev
    have hold : ∀ a, s0.reachable a → a ≠ i := by
      intro a ha e
      have := reachable_in_active hc ha
      have := inv.length_le hc
      omega
    have hk : ∀ k, s0.tospace + k = i → k = i - s0.tospace := by intro k e; omega
    refine { inv with moved := ?_, old := ?_, new_tag := ?_, new_car := ?_, new_cdr := ?_,
                      new_leaf := ?_ }
    · intro a ha
      simp only [store]
      rw [Arr.get_set_ne _ _ _ _ (Ne.symm (hold a (inv.reach a ha)))]
      exact inv.moved a ha
    · intro a ha hna
      simp only [store]
      rw [Arr.get_set_ne _ _ _ _ (Ne.symm (hold a ha))]
      exact inv.old a ha hna
    · intro k hk'
      simp only [store]
      rw [(mem_set_cdr _ _ _ hidx _).1]
      exact inv.new_tag k hk'
    · intro k hk'
      simp only [store]
      rw [(mem_set_cdr _ _ _ hidx _).2.1]
      exact inv.new_car k hk'
    · intro k hk'
      simp only [store]
      rw [(mem_set_cdr _ _ _ hidx _).2.2]
      by_cases e : s0.tospace + k = i
      · rw [if_pos e, hk k e]; exact Or.inr hev
      · rw [if_neg e]; exact inv.new_cdr k hk'
    · intro k hk' hnt
      simp only [store]
      rw [(mem_set_cdr _ _ _ hidx _).2.2, (mem_set_cdr _ _ _ hidx _).2.1]
      by_cases e : s0.tospace + k = i
      · rw [hk k e] at hnt; exact absurd htr hnt
      · rw [if_neg e]; exact inv.new_leaf k hk' hnt

/-! ## The evacuation of one cell -/

theorem evacuate_fields (a : Nat) (s : gc) :
    (evacuate a s).fromspace = s.fromspace ∧ (evacuate a s).tospace = s.tospace ∧
    (evacuate a s).roots = s.roots ∧ (evacuate a s).rootstack = s.rootstack ∧
    (evacuate a s).roottop = s.roottop ∧ (evacuate a s).numroots = s.numroots ∧
    (evacuate a s).sp = s.sp ∧ (evacuate a s).stack = s.stack ∧
    (evacuate a s).scanptr = s.scanptr ∧ (evacuate a s).allocptr = s.allocptr + 1 :=
  ⟨rfl, rfl, rfl, rfl, rfl, rfl, rfl, rfl, rfl, rfl⟩

theorem evacuate_mem (a : Nat) (s : gc) (ha : a < ARRCAP) (hp : s.allocptr < ARRCAP)
    (hne : a ≠ s.allocptr) :
    (evacuate a s).mem.get a = ⟨.fwd, .cell s.allocptr, (s.mem.get a).tag⟩ ∧
    (evacuate a s).mem.get s.allocptr = s.mem.get a ∧
    ∀ j, j ≠ a → j ≠ s.allocptr → (evacuate a s).mem.get j = s.mem.get j := by
  simp only [evacuate, store]
  refine ⟨?_, ?_, ?_⟩
  · rw [Arr.get_set_eq _ _ _ ha, Arr.get_set_eq _ _ _ ha]
    simp only [Arr.get_set_ne _ _ _ _ (Ne.symm hne)]
  · rw [Arr.get_set_ne _ _ _ _ hne, Arr.get_set_ne _ _ _ _ hne, Arr.get_set_eq _ _ _ hp]
  · intro j hja hjp
    rw [Arr.get_set_ne _ _ _ _ (Ne.symm hja), Arr.get_set_ne _ _ _ _ (Ne.symm hja),
      Arr.get_set_ne _ _ _ _ (Ne.symm hjp)]

theorem evacuate_collecting {s0 s : gc} {L : List Nat} (hc : s0.collectable)
    (inv : collecting s0 s L) (a : Nat) (hr : s0.reachable a) (hna : a ∉ L) :
    collecting s0 (evacuate a s) (L ++ [a]) := by
  have hlay := hc.layout
  have hcap := two_HEAPSIZE_le_ARRCAP
  have hnd : (L ++ [a]).Nodup := by
    rw [List.nodup_append]
    exact ⟨inv.nodup, List.nodup_singleton a, by
      intro x hx hx'; rw [List.mem_singleton] at hx'; subst hx'; exact hna hx⟩
  have hreach : ∀ b, b ∈ L ++ [a] → s0.reachable b := by
    intro b hb
    rcases List.mem_append.mp hb with h | h
    · exact inv.reach b h
    · rw [List.mem_singleton] at h; subst h; exact hr
  have hlen : (L ++ [a]).length ≤ HEAPSIZE :=
    length_le_of_nodup_range _ s0.fromspace HEAPSIZE hnd
      (fun b hb => reachable_in_active hc (hreach b hb))
  simp only [List.length_append, List.length_singleton] at hlen
  have hra := reachable_in_active hc hr
  have hp : s.allocptr = s0.tospace + L.length := inv.alloc
  have ha_cap : a < ARRCAP := by omega
  have hp_cap : s.allocptr < ARRCAP := by omega
  have hne : a ≠ s.allocptr := by omega
  obtain ⟨hma, hmp, hmj⟩ := evacuate_mem a s ha_cap hp_cap hne
  obtain ⟨f1, f2, f3, f4, f5, f6, f7, f8, f9, f10⟩ := evacuate_fields a s
  have hold_ne : ∀ b, s0.reachable b → b ≠ s.allocptr := by
    intro b hb; have := reachable_in_active hc hb; omega
  have hnew_ne : ∀ k, k < L.length → s0.tospace + k ≠ a ∧ s0.tospace + k ≠ s.allocptr := by
    intro k hk; constructor <;> omega
  refine
    { fromspace := f1.trans inv.fromspace, tospace := f2.trans inv.tospace,
      roots := f3.trans inv.roots, rootstack := f4.trans inv.rootstack,
      roottop := f5.trans inv.roottop, numroots := f6.trans inv.numroots,
      sp := f7.trans inv.sp,
      alloc := by rw [f10, hp]; simp only [List.length_append, List.length_singleton]; omega,
      nodup := hnd, reach := hreach,
      moved := ?_, old := ?_, new_tag := ?_, new_car := ?_, new_cdr := ?_, new_leaf := ?_,
      slot := ?_, unreg := ?_ }
  · intro b hb
    rcases List.mem_append.mp hb with h | h
    · have hba : b ≠ a := fun e => hna (e ▸ h)
      rw [hmj b hba (hold_ne b (inv.reach b h)), inv.moved b h,
        fwd_addr_append _ _ _ _ h]
    · rw [List.mem_singleton] at h; subst h
      rw [hma, inv.old b hr hna]
      simp only [fwd_addr, indexOf_append_self L b hna, hp]
  · intro b hb hnb
    have hbL : b ∉ L := fun h => hnb (List.mem_append_left _ h)
    have hba : b ≠ a := fun e => hnb (by rw [e]; simp)
    rw [hmj b hba (hold_ne b hb)]
    exact inv.old b hb hbL
  · intro k hk
    simp only [List.length_append, List.length_singleton] at hk
    by_cases hk' : k < L.length
    · rw [hmj _ (hnew_ne k hk').1 (hnew_ne k hk').2, getD_append_lt L a k hk']
      exact inv.new_tag k hk'
    · have : k = L.length := by omega
      subst this
      rw [← hp, hmp, getD_append_self, inv.old a hr hna]
  · intro k hk
    simp only [List.length_append, List.length_singleton] at hk
    by_cases hk' : k < L.length
    · rw [hmj _ (hnew_ne k hk').1 (hnew_ne k hk').2, getD_append_lt L a k hk']
      exact tracked_append a (inv.new_car k hk')
    · have : k = L.length := by omega
      subst this
      rw [← hp, hmp, getD_append_self, inv.old a hr hna]
      exact Or.inl rfl
  · intro k hk
    simp only [List.length_append, List.length_singleton] at hk
    by_cases hk' : k < L.length
    · rw [hmj _ (hnew_ne k hk').1 (hnew_ne k hk').2, getD_append_lt L a k hk']
      exact tracked_append a (inv.new_cdr k hk')
    · have : k = L.length := by omega
      subst this
      rw [← hp, hmp, getD_append_self, inv.old a hr hna]
      exact Or.inl rfl
  · intro k hk
    simp only [List.length_append, List.length_singleton] at hk
    by_cases hk' : k < L.length
    · rw [hmj _ (hnew_ne k hk').1 (hnew_ne k hk').2, getD_append_lt L a k hk']
      exact inv.new_leaf k hk'
    · have : k = L.length := by omega
      subst this
      rw [← hp, hmp, getD_append_self, inv.old a hr hna]
      exact fun _ => ⟨rfl, rfl⟩
  · intro x
    rw [f8]
    exact tracked_append a (inv.slot x)
  · intro x hx
    rw [f8]
    exact inv.unreg x hx

/-- The evacuation of a cell stores to no location that was live before. -/
theorem evacuate_load {s0 s : gc} {L : List Nat} (hc : s0.collectable)
    (inv : collecting s0 s L) (a : Nat) (hr : s0.reachable a) (hna : a ∉ L)
    (l : loc) (hl : l.live s0.tospace L.length) :
    load (evacuate a s) l = load s l := by
  have hlay := hc.layout
  have hcap := two_HEAPSIZE_le_ARRCAP
  have hlen := inv.length_le hc
  have hra := reachable_in_active hc hr
  have hp : s.allocptr = s0.tospace + L.length := inv.alloc
  have hnd : (L ++ [a]).Nodup := by
    rw [List.nodup_append]
    exact ⟨inv.nodup, List.nodup_singleton a, by
      intro x hx hx'; rw [List.mem_singleton] at hx'; subst hx'; exact hna hx⟩
  have hlen' : (L ++ [a]).length ≤ HEAPSIZE :=
    length_le_of_nodup_range _ s0.fromspace HEAPSIZE hnd (by
      intro b hb
      rcases List.mem_append.mp hb with h | h
      · exact reachable_in_active hc (inv.reach b h)
      · rw [List.mem_singleton] at h; subst h; exact hra)
  simp only [List.length_append, List.length_singleton] at hlen'
  obtain ⟨-, -, hmj⟩ := evacuate_mem a s (by omega) (by omega) (by omega)
  cases l with
  | slot x => simp only [load]; rw [(evacuate_fields a s).2.2.2.2.2.2.2.1]
  | car i =>
    obtain ⟨h1, h2⟩ := hl
    simp only [load]; rw [hmj i (by omega) (by omega)]
  | cdr i =>
    obtain ⟨h1, h2⟩ := hl
    simp only [load]; rw [hmj i (by omega) (by omega)]

/-! ## One call of `gc_copy` -/

theorem loc.traced_live {s0 : gc} {L : List Nat} {l : loc} (ht : l.traced s0 L) :
    l.live s0.tospace L.length := by
  cases l with
  | slot x => trivial
  | car i => exact ⟨ht.1, ht.2.1⟩
  | cdr i => exact ⟨ht.1, ht.2.1⟩

theorem loc.traced_append {s0 : gc} {L : List Nat} {l : loc} (a : Nat) (ht : l.traced s0 L) :
    l.traced s0 (L ++ [a]) ∧ l.orig s0 (L ++ [a]) = l.orig s0 L := by
  cases l with
  | slot x => exact ⟨ht, rfl⟩
  | car i =>
    obtain ⟨h1, h2, h3⟩ := ht
    have hk : i - s0.tospace < L.length := by omega
    simp only [loc.traced, loc.orig, getD_append_lt L a _ hk, List.length_append,
      List.length_singleton]
    exact ⟨⟨h1, by omega, h3⟩, trivial⟩
  | cdr i =>
    obtain ⟨h1, h2, h3⟩ := ht
    have hk : i - s0.tospace < L.length := by omega
    simp only [loc.traced, loc.orig, getD_append_lt L a _ hk, List.length_append,
      List.length_singleton]
    exact ⟨⟨h1, by omega, h3⟩, trivial⟩

/-- What a traced location held at the start is null or a reachable cell. -/
theorem loc.orig_valid {s0 s : gc} {L : List Nat} (hc : s0.collectable)
    (inv : collecting s0 s L) {l : loc} (ht : l.traced s0 L) :
    l.orig s0 L = .null ∨ ∃ a, l.orig s0 L = .cell a ∧ s0.reachable a := by
  cases l with
  | slot x =>
    obtain ⟨-, i, hi, hri⟩ := ht
    simp only [loc.orig]
    have := hc.roots i hi
    rw [hri] at this
    rcases this with h | ⟨b, hb, -, -⟩
    · exact Or.inl h
    · exact Or.inr ⟨b, hb, .root ⟨i, hi, by rw [hri]; exact hb⟩⟩
  | car i =>
    obtain ⟨h1, h2, h3⟩ := ht
    have hk : i - s0.tospace < L.length := by omega
    have hr := inv.reach _ (getD_mem_of_lt L _ hk)
    simp only [loc.orig]
    rcases (hc.fields _ hr h3).1 with h | ⟨b, hb, -, -⟩
    · exact Or.inl h
    · exact Or.inr ⟨b, hb, .step hr ⟨h3, Or.inl hb⟩⟩
  | cdr i =>
    obtain ⟨h1, h2, h3⟩ := ht
    have hk : i - s0.tospace < L.length := by omega
    have hr := inv.reach _ (getD_mem_of_lt L _ hk)
    simp only [loc.orig]
    rcases (hc.fields _ hr h3).2 with h | ⟨b, hb, -, -⟩
    · exact Or.inl h
    · exact Or.inr ⟨b, hb, .step hr ⟨h3, Or.inr hb⟩⟩

/-- The current value of a traced location is its first value or the
relocation of it. -/
theorem loc.traced_tracked {s0 s : gc} {L : List Nat} (inv : collecting s0 s L) {l : loc}
    (ht : l.traced s0 L) : tracked s0.tospace L (load s l) (l.orig s0 L) := by
  cases l with
  | slot x => exact inv.slot x
  | car i =>
    obtain ⟨h1, h2, -⟩ := ht
    have := inv.new_car (i - s0.tospace) (by omega)
    rw [show s0.tospace + (i - s0.tospace) = i by omega] at this
    exact this
  | cdr i =>
    obtain ⟨h1, h2, -⟩ := ht
    have := inv.new_cdr (i - s0.tospace) (by omega)
    rw [show s0.tospace + (i - s0.tospace) = i by omega] at this
    exact this

/-- No cell of the new semispace below `allocptr` holds `&fwdmarker` in `car`. -/
theorem collecting.new_car_ne_fwd {s0 s : gc} {L : List Nat} (hc : s0.collectable)
    (inv : collecting s0 s L) (k : Nat) (hk : k < L.length) :
    (s.mem.get (s0.tospace + k)).car ≠ .fwd := by
  have hr := inv.reach _ (getD_mem_of_lt L _ hk)
  have hne := reachable_car_ne_fwd hc hr
  rcases inv.new_car k hk with h | ⟨h, -⟩
  · rw [h]; exact hne
  · rw [h]
    intro e
    cases ho : (s0.mem.get (L.getD k 0)).car with
    | fwd => exact hne ho
    | null => rw [ho] at e; cases e
    | cell b => rw [ho] at e; cases e
    | text t => rw [ho] at e; cases e
    | func f => rw [ho] at e; cases e

theorem gc_copy_step {s0 s : gc} {L : List Nat} (hc : s0.collectable)
    (inv : collecting s0 s L) (l : loc) (ht : l.traced s0 L) :
    ∃ s1 L1, gc_copy l s = .ret () s1 ∧ collecting s0 s1 L1 ∧
      (L1 = L ∨ ∃ a, L1 = L ++ [a]) ∧
      evacuated s0.tospace L1 (load s1 l) (l.orig s0 L) ∧
      s1.scanptr = s.scanptr ∧
      ∀ l1, l1 ≠ l → l1.live s0.tospace L.length → load s1 l1 = load s l1 := by
  have hlay := hc.layout
  have hcap := two_HEAPSIZE_le_ARRCAP
  have hlen := inv.length_le hc
  have hidx := loc.traced_idx_lt hc inv ht
  rcases loc.orig_valid hc inv ht with ho | ⟨a, ho, hra⟩
  · -- the location held null
    have hv : load s l = .null := by
      rcases loc.traced_tracked inv ht with h | ⟨h, -⟩
      · rw [h, ho]
      · rw [h, ho]; rfl
    refine ⟨s, L, ?_, inv, Or.inl rfl, ?_, rfl, fun _ _ _ => rfl⟩
    · simp only [gc_copy, hv]
    · rw [hv, ho]; exact ⟨rfl, fun a e => by cases e⟩
  · have hain := reachable_in_active hc hra
    rcases loc.traced_tracked inv ht with h | ⟨h, hmem⟩
    · -- the location still holds the old address
      rw [ho] at h
      by_cases haL : a ∈ L
      · -- the cell is forwarded
        have hm := inv.moved a haL
        refine ⟨store s l (.cell (fwd_addr s0.tospace L a)), L, ?_, ?_, Or.inl rfl, ?_, ?_, ?_⟩
        · simp only [gc_copy, h, hm]
          rw [if_pos (by omega)]
          simp
        · exact store_collecting hc inv l _ ht (by
            rw [ho]; exact ⟨rfl, fun b e => by cases e; exact haL⟩)
        · rw [load_store_eq _ _ _ hidx, ho]
          exact ⟨rfl, fun b e => by cases e; exact haL⟩
        · cases l <;> rfl
        · intro l1 hne _
          exact load_store_ne _ _ _ _ hidx hne
      · -- the cell is copied
        have hm := inv.old a hra haL
        have hnf : (s.mem.get a).car ≠ .fwd := by rw [hm]; exact reachable_car_ne_fwd hc hra
        have inv1 := evacuate_collecting hc inv a hra haL
        have hlen1 := inv1.length_le hc
        simp only [List.length_append, List.length_singleton] at hlen1
        have hp : s.allocptr = s0.tospace + L.length := inv.alloc
        obtain ⟨ht1, ho1⟩ := loc.traced_append a ht
        have hev : evacuated s0.tospace (L ++ [a]) (.cell s.allocptr) (l.orig s0 L) := by
          rw [ho]
          refine ⟨?_, fun b e => by cases e; simp⟩
          simp only [relocate, fwd_addr, indexOf_append_self L a haL, hp]
        refine ⟨store (evacuate a s) l (.cell s.allocptr), L ++ [a], ?_, ?_,
          Or.inr ⟨a, rfl⟩, ?_, ?_, ?_⟩
        · simp only [gc_copy, h]
          rw [if_pos (by omega), if_neg hnf, if_pos (by rw [inv.fromspace]; omega),
            if_pos (by omega)]
          rfl
        · exact store_collecting hc inv1 l _ ht1 (by rw [ho1]; exact hev)
        · rw [load_store_eq _ _ _ hidx]; exact hev
        · cases l <;> rfl
        · intro l1 hne hl1
          rw [load_store_ne _ _ _ _ hidx hne]
          exact evacuate_load hc inv a hra haL l1 hl1
    · -- the location holds the new address already
      rw [ho] at h
      simp only [relocate] at h
      have haL := hmem a ho
      have hk : L.indexOf a < L.length := List.indexOf_lt_length.mpr haL
      have hnf := inv.new_car_ne_fwd hc (L.indexOf a) hk
      refine ⟨s, L, ?_, inv, Or.inl rfl, ?_, rfl, fun _ _ _ => rfl⟩
      · simp only [gc_copy, h, fwd_addr]
        rw [if_pos (by omega), if_neg hnf, if_neg (by rw [inv.fromspace]; omega)]
      · rw [h, ho]; exact ⟨rfl, fun b e => by cases e; exact haL⟩

/-! ## The two loops of `gc_collect` -/

theorem evacuated_grow {base : Nat} {L L1 : List Nat} {now orig : ptr}
    (hL : L1 = L ∨ ∃ a, L1 = L ++ [a]) (h : evacuated base L now orig) :
    evacuated base L1 now orig := by
  rcases hL with rfl | ⟨a, rfl⟩
  · exact h
  · exact evacuated_append a h

theorem getD_grow {L L1 : List Nat} (hL : L1 = L ∨ ∃ a, L1 = L ++ [a]) (k : Nat)
    (hk : k < L.length) : L1.getD k 0 = L.getD k 0 := by
  rcases hL with rfl | ⟨a, rfl⟩
  · rfl
  · exact getD_append_lt L a k hk

theorem length_grow {L L1 : List Nat} (hL : L1 = L ∨ ∃ a, L1 = L ++ [a]) :
    L.length ≤ L1.length := by
  rcases hL with rfl | ⟨a, rfl⟩
  · exact le_refl _
  · simp

theorem loc.traced_grow {s0 : gc} {L L1 : List Nat} {l : loc}
    (hL : L1 = L ∨ ∃ a, L1 = L ++ [a]) (ht : l.traced s0 L) :
    l.traced s0 L1 ∧ l.orig s0 L1 = l.orig s0 L := by
  rcases hL with rfl | ⟨a, rfl⟩
  · exact ⟨ht, rfl⟩
  · exact loc.traced_append a ht

theorem roots_done_step {s0 s s1 : gc} {L L1 : List Nat} {m : Nat} (l : loc)
    (hL : L1 = L ∨ ∃ a, L1 = L ++ [a])
    (hkeep : ∀ l1, l1 ≠ l → l1.live s0.tospace L.length → load s1 l1 = load s l1)
    (hl : ∀ x, l = .slot x → evacuated s0.tospace L1 (s1.stack.get x) (s0.stack.get x))
    (h : roots_done s0 s L m) : roots_done s0 s1 L1 m := by
  intro i hi
  by_cases e : l = .slot (s0.roots.get i)
  · exact hl _ e
  · have := hkeep (.slot (s0.roots.get i)) (fun e' => e e'.symm) trivial
    simp only [load] at this
    rw [this]
    exact evacuated_grow hL (h i hi)

theorem gc_collect_roots_spec {s0 : gc} (hc : s0.collectable) (n : Nat) :
    ∀ (i : Nat) (s : gc) (L : List Nat), collecting s0 s L → roots_done s0 s L i →
      i + n ≤ s0.numroots →
      ∃ s1 L1, gc_collect_roots n i s = .ret () s1 ∧ collecting s0 s1 L1 ∧
        roots_done s0 s1 L1 (i + n) ∧ s1.scanptr = s.scanptr := by
  induction n with
  | zero => intro i s L inv hd _; exact ⟨s, L, rfl, inv, hd, rfl⟩
  | succ n ih =>
    intro i s L inv hd hin
    have hi : i < s0.numroots := by omega
    have ht : (loc.slot (s0.roots.get i)).traced s0 L := ⟨hc.slots i hi, i, hi, rfl⟩
    obtain ⟨s1, L1, h1, inv1, hL, hev, hsc, hkeep⟩ := gc_copy_step hc inv _ ht
    have hd1 : roots_done s0 s1 L1 (i + 1) := by
      intro j hj
      by_cases e : j = i
      · subst e; exact hev
      · exact roots_done_step _ hL hkeep
          (fun x hx => by cases hx; exact hev) hd j (by omega)
    obtain ⟨s2, L2, h2, inv2, hd2, hsc2⟩ := ih (i + 1) s1 L1 inv1 hd1 (by omega)
    refine ⟨s2, L2, ?_, inv2, ?_, hsc2.trans hsc⟩
    · simp only [gc_collect_roots, inv.roots, h1, Res.bind]
      exact h2
    · rw [show i + (n + 1) = i + 1 + n by omega]; exact hd2

theorem scanned_step {s0 s s1 : gc} {L L1 : List Nat} (sc : Nat) (l : loc)
    (hL : L1 = L ∨ ∃ a, L1 = L ++ [a]) (hsc : s1.scanptr = s.scanptr)
    (hkeep : ∀ l1, l1 ≠ l → l1.live s0.tospace L.length → load s1 l1 = load s l1)
    (hl : ∀ i, (l = .car i ∨ l = .cdr i) → s0.tospace + sc ≤ i)
    (h : scanned s0 s L sc) : scanned s0 s1 L1 sc := by
  obtain ⟨h1, h2, h3⟩ := h
  refine ⟨hsc.trans h1, le_trans h2 (length_grow hL), ?_⟩
  intro k hk htr
  have hkL : k < L.length := by omega
  rw [getD_grow hL k hkL] at htr ⊢
  obtain ⟨hcar, hcdr⟩ := h3 k hk htr
  have e1 := hkeep (.car (s0.tospace + k))
    (fun e => by have := hl _ (Or.inl e.symm); omega) ⟨by omega, by omega⟩
  have e2 := hkeep (.cdr (s0.tospace + k))
    (fun e => by have := hl _ (Or.inr e.symm); omega) ⟨by omega, by omega⟩
  simp only [load] at e1 e2
  rw [e1, e2]
  exact ⟨evacuated_grow hL hcar, evacuated_grow hL hcdr⟩

theorem collecting_scanptr {s0 s : gc} {L : List Nat} (inv : collecting s0 s L) (x : Nat) :
    collecting s0 { s with scanptr := x } L :=
  { fromspace := inv.fromspace, tospace := inv.tospace, roots := inv.roots,
    rootstack := inv.rootstack, roottop := inv.roottop, numroots := inv.numroots,
    sp := inv.sp, alloc := inv.alloc, nodup := inv.nodup, reach := inv.reach,
    moved := inv.moved, old := inv.old, new_tag := inv.new_tag, new_car := inv.new_car,
    new_cdr := inv.new_cdr, new_leaf := inv.new_leaf, slot := inv.slot, unreg := inv.unreg }

theorem gc_collect_scan_spec {s0 : gc} (hc : s0.collectable) (fuel : Nat) :
    ∀ (s : gc) (L : List Nat) (sc : Nat), collecting s0 s L →
      roots_done s0 s L s0.numroots → scanned s0 s L sc → HEAPSIZE < fuel + sc →
      ∃ s1 L1, gc_collect_scan fuel s = .ret () s1 ∧ collecting s0 s1 L1 ∧
        roots_done s0 s1 L1 s0.numroots ∧ scanned s0 s1 L1 L1.length := by
  induction fuel with
  | zero =>
    intro s L sc inv _ hs hf
    have := inv.length_le hc
    have := hs.2.1
    omega
  | succ fuel ih =>
    intro s L sc inv hd hs hf
    obtain ⟨hs1, hs2, hs3⟩ := hs
    by_cases hlt : sc < L.length
    · have hcond : s.scanptr < s.allocptr := by rw [hs1, inv.alloc]; omega
      have htag := inv.new_tag sc hlt
      by_cases htr : (s0.mem.get (L.getD sc 0)).tag.traced
      · -- a traced cell: both fields are evacuated
        have ht1 : (loc.car (s0.tospace + sc)).traced s0 L :=
          ⟨by omega, by omega, by rw [Nat.add_sub_cancel_left]; exact htr⟩
        obtain ⟨s1, L1, h1, inv1, hL1, hev1, hsc1, hkeep1⟩ := gc_copy_step hc inv _ ht1
        have ht2' : (loc.cdr (s0.tospace + sc)).traced s0 L :=
          ⟨by omega, by omega, by rw [Nat.add_sub_cancel_left]; exact htr⟩
        obtain ⟨ht2, ho2⟩ := loc.traced_grow hL1 ht2'
        obtain ⟨s2, L2, h2, inv2, hL2, hev2, hsc2, hkeep2⟩ := gc_copy_step hc inv1 _ ht2
        have hd1 := roots_done_step _ hL1 hkeep1 (fun x hx => by cases hx) hd
        have hd2 := roots_done_step _ hL2 hkeep2 (fun x hx => by cases hx) hd1
        have hsn1 := scanned_step sc _ hL1 hsc1 hkeep1
          (fun i hi => by rcases hi with e | e <;> cases e; exact le_refl _) ⟨hs1, hs2, hs3⟩
        have hsn2 := scanned_step sc _ hL2 hsc2 hkeep2
          (fun i hi => by rcases hi with e | e <;> cases e; exact le_refl _) hsn1
        have hlen1 := length_grow hL1
        have hlen2 := length_grow hL2
        have hcar2 : load s2 (.car (s0.tospace + sc)) = load s1 (.car (s0.tospace + sc)) :=
          hkeep2 _ (fun e => by cases e) ⟨by omega, by omega⟩
        have hsn3 : scanned s0 { s2 with scanptr := s2.scanptr + 1 } L2 (sc + 1) := by
          refine ⟨?_, by omega, ?_⟩
          · show s2.scanptr + 1 = _
            rw [hsn2.1]; omega
          · intro k hk htr'
            by_cases e : k = sc
            · subst e
              have g1 : L2.getD k 0 = L.getD k 0 := by
                rw [getD_grow hL2 k (by omega), getD_grow hL1 k hlt]
              rw [g1]
              constructor
              · have := evacuated_grow hL2 hev1
                simp only [loc.orig, Nat.add_sub_cancel_left] at this
                rw [← hcar2] at this
                exact this
              · have := hev2
                rw [ho2] at this
                simp only [loc.orig, Nat.add_sub_cancel_left] at this
                exact this
            · exact hsn2.2.2 k (by omega) htr'
        obtain ⟨s3, L3, h3, inv3, hd3, hsn⟩ :=
          ih { s2 with scanptr := s2.scanptr + 1 } L2 (sc + 1)
            (collecting_scanptr inv2 (s2.scanptr + 1)) hd2 hsn3 (by omega)
        refine ⟨s3, L3, ?_, inv3, hd3, hsn⟩
        have htr2 : (s.mem.get s.scanptr).tag = .T_CONS ∨
            (s.mem.get s.scanptr).tag = .T_LAMBDA := by
          rw [hs1, htag]; exact htr
        simp only [gc_collect_scan]
        rw [if_pos hcond, if_pos htr2, hs1, h1]
        simp only [Res.bind]
        rw [h2]
        exact h3
      · -- an atom or a native function: nothing to trace
        have hsn3 : scanned s0 { s with scanptr := s.scanptr + 1 } L (sc + 1) := by
          refine ⟨?_, by omega, ?_⟩
          · show s.scanptr + 1 = _
            rw [hs1]; omega
          · intro k hk htr'
            by_cases e : k = sc
            · subst e; exact absurd htr' htr
            · exact hs3 k (by omega) htr'
        obtain ⟨s3, L3, h3, inv3, hd3, hsn⟩ :=
          ih { s with scanptr := s.scanptr + 1 } L (sc + 1)
            (collecting_scanptr inv (s.scanptr + 1)) hd hsn3 (by omega)
        refine ⟨s3, L3, ?_, inv3, hd3, hsn⟩
        have htr2 : ¬ ((s.mem.get s.scanptr).tag = .T_CONS ∨
            (s.mem.get s.scanptr).tag = .T_LAMBDA) := by
          rw [hs1, htag]; exact htr
        simp only [gc_collect_scan]
        rw [if_pos hcond, if_neg htr2]
        exact h3
    · have hcond : ¬ s.scanptr < s.allocptr := by rw [hs1, inv.alloc]; omega
      have he : sc = L.length := by omega
      subst he
      refine ⟨s, L, ?_, inv, hd, hs1, hs2, hs3⟩
      simp only [gc_collect_scan, hcond, if_false]

/-! ## A whole collection -/

theorem collecting_swap (s0 : gc) : collecting s0 (gc_swap s0) [] :=
  { fromspace := rfl, tospace := rfl, roots := rfl, rootstack := rfl, roottop := rfl,
    numroots := rfl, sp := rfl, alloc := rfl, nodup := List.nodup_nil,
    reach := fun a h => (by cases h),
    moved := fun a h => (by cases h),
    old := fun _ _ _ => rfl,
    new_tag := fun k h => (by cases h),
    new_car := fun k h => (by cases h),
    new_cdr := fun k h => (by cases h),
    new_leaf := fun k h => (by cases h),
    slot := fun _ => Or.inl rfl,
    unreg := fun _ _ => rfl }

/-- The outcome of `gc_collect` on a collectable state, in terms of the list
`L` of the cells it evacuated. -/
theorem gc_collect_spec (s0 : gc) (hc : s0.collectable) :
    ∃ s1 L, gc_collect s0 = .ret () s1 ∧ collecting s0 s1 L ∧
      roots_done s0 s1 L s0.numroots ∧ scanned s0 s1 L L.length ∧
      ∀ a, s0.reachable a ↔ a ∈ L := by
  obtain ⟨s1, L1, h1, inv1, hd1, hsc1⟩ :=
    gc_collect_roots_spec hc s0.numroots 0 (gc_swap s0) [] (collecting_swap s0)
      (fun i hi => by omega) (by omega)
  rw [Nat.zero_add] at hd1
  have hsn1 : scanned s0 s1 L1 0 :=
    ⟨by rw [hsc1]; rfl, Nat.zero_le _, fun k hk => by omega⟩
  obtain ⟨s2, L2, h2, inv2, hd2, hsn2⟩ :=
    gc_collect_scan_spec hc (2 * HEAPSIZE + 1) s1 L1 0 inv1 hd1 hsn1 (by omega)
  refine ⟨s2, L2, ?_, inv2, hd2, hsn2, ?_⟩
  · have h1' : gc_collect_roots s0.numroots 0 (gc_swap s0) = .ret () s1 := h1
    simp only [gc_collect]
    unfold gc_swap at h1'
    rw [h1']
    exact h2
  · intro a
    constructor
    · intro hr
      induction hr with
      | root hroot =>
        obtain ⟨i, hi, hv⟩ := hroot
        exact (hd2 i hi).2 _ hv
      | step hr he ih =>
        obtain ⟨htr, hf⟩ := he
        have hk := List.indexOf_lt_length.mpr ih
        have hg := getD_indexOf L2 _ ih
        have := hsn2.2.2 _ hk (by rw [hg]; exact htr)
        rw [hg] at this
        rcases hf with hcar | hcdr
        · exact this.1.2 _ hcar
        · exact this.2.2 _ hcdr
    · exact inv2.reach a

/-- A collection of a collectable state relocates the reachable graph. -/
theorem gc_collect_collected (s : gc) (hc : s.collectable) :
    ∃ s1 L, gc_collect s = .ret () s1 ∧ collected s s1 (fwd_addr s.tospace L) L := by
  obtain ⟨s1, L, h1, inv, hd, hsn, hlive⟩ := gc_collect_spec s hc
  have hnode : ∀ a, a ∈ L → L.indexOf a < L.length ∧ L.getD (L.indexOf a) 0 = a :=
    fun a ha => ⟨List.indexOf_lt_length.mpr ha, getD_indexOf L a ha⟩
  refine ⟨s1, L, h1,
    { fromspace := inv.fromspace, tospace := inv.tospace, roots := inv.roots,
      rootstack := inv.rootstack, roottop := inv.roottop, numroots := inv.numroots,
      sp := inv.sp,
      scan := by rw [hsn.1, inv.alloc],
      alloc := by rw [inv.alloc, inv.fromspace],
      nodup := inv.nodup, live := hlive,
      addr := fun a => by rw [inv.fromspace]; rfl,
      slot := fun i hi => (hd i hi).1,
      unreg := inv.unreg,
      tag := ?_, traced := ?_, leaf := ?_ }⟩
  · intro a ha
    obtain ⟨hk, hg⟩ := hnode a ((hlive a).mp ha)
    have := inv.new_tag _ hk
    rw [hg] at this
    exact this
  · intro a ha htr
    obtain ⟨hk, hg⟩ := hnode a ((hlive a).mp ha)
    have := hsn.2.2 _ hk (by rw [hg]; exact htr)
    rw [hg] at this
    exact ⟨this.1.1, this.2.1⟩
  · intro a ha htr
    obtain ⟨hk, hg⟩ := hnode a ((hlive a).mp ha)
    have := inv.new_leaf _ hk (by rw [hg]; exact htr)
    rw [hg] at this
    exact this

/-! ## What a relocation keeps -/

theorem collected.inj {s s1 : gc} {f : Nat → Nat} {L : List Nat} (h : collected s s1 f L)
    {a b : Nat} (ha : s.reachable a) (hb : s.reachable b) (e : f a = f b) : a = b := by
  rw [h.addr a, h.addr b] at e
  exact (List.indexOf_inj ((h.live a).mp ha) ((h.live b).mp hb)).mp (by omega)

theorem collected.range {s s1 : gc} {f : Nat → Nat} {L : List Nat} (h : collected s s1 f L)
    {a : Nat} (ha : s.reachable a) : s1.fromspace ≤ f a ∧ f a < s1.allocptr := by
  have := List.indexOf_lt_length.mpr ((h.live a).mp ha)
  rw [h.addr a, h.alloc]
  omega

theorem collected.surj {s s1 : gc} {f : Nat → Nat} {L : List Nat} (h : collected s s1 f L)
    {b : Nat} (h1 : s1.fromspace ≤ b) (h2 : b < s1.allocptr) :
    ∃ a, s.reachable a ∧ f a = b := by
  rw [h.alloc] at h2
  have hk : b - s1.fromspace < L.length := by omega
  refine ⟨L.getD (b - s1.fromspace) 0, (h.live _).mpr (getD_mem_of_lt L _ hk), ?_⟩
  rw [h.addr, indexOf_getD L h.nodup _ hk]
  omega

/-- A relocated pointer addresses a cell exactly when the pointer did. -/
theorem relocate_eq_cell {f : Nat → Nat} {p : ptr} {b : Nat} (h : relocate f p = .cell b) :
    ∃ a, p = .cell a ∧ f a = b := by
  cases p with
  | cell a => exact ⟨a, rfl, by simpa [relocate] using h⟩
  | null => cases h
  | fwd => cases h
  | text _ => cases h
  | func _ => cases h

theorem collected.reachable_after {s s1 : gc} {f : Nat → Nat} {L : List Nat}
    (h : collected s s1 f L) (b : Nat) :
    s1.reachable b ↔ ∃ a, s.reachable a ∧ f a = b := by
  constructor
  · intro hb
    induction hb with
    | root hroot =>
      obtain ⟨i, hi, hv⟩ := hroot
      rw [h.numroots] at hi
      rw [h.roots, h.slot i hi] at hv
      obtain ⟨a, ha, hfa⟩ := relocate_eq_cell hv
      exact ⟨a, .root ⟨i, hi, ha⟩, hfa⟩
    | step _ he ih =>
      obtain ⟨a, ha, rfl⟩ := ih
      obtain ⟨htr, hf⟩ := he
      rw [h.tag a ha] at htr
      obtain ⟨hcar, hcdr⟩ := h.traced a ha htr
      rcases hf with hf | hf
      · rw [hcar] at hf
        obtain ⟨c, hc, hfc⟩ := relocate_eq_cell hf
        exact ⟨c, .step ha ⟨htr, Or.inl hc⟩, hfc⟩
      · rw [hcdr] at hf
        obtain ⟨c, hc, hfc⟩ := relocate_eq_cell hf
        exact ⟨c, .step ha ⟨htr, Or.inr hc⟩, hfc⟩
  · rintro ⟨a, ha, rfl⟩
    induction ha with
    | root hroot =>
      obtain ⟨i, hi, hv⟩ := hroot
      refine .root ⟨i, by rw [h.numroots]; exact hi, ?_⟩
      rw [h.roots, h.slot i hi, hv]; rfl
    | step ha he ih =>
      obtain ⟨htr, hf⟩ := he
      obtain ⟨hcar, hcdr⟩ := h.traced _ ha htr
      refine .step ih ⟨by rw [h.tag _ ha]; exact htr, ?_⟩
      rcases hf with hf | hf
      · left; rw [hcar, hf]; rfl
      · right; rw [hcdr, hf]; rfl

/-! ## The sample heap -/

theorem sample_heap_reachable {a : Nat} (h : sample_heap.reachable a) : a = 0 ∨ a = 1 := by
  induction h with
  | root hroot =>
    obtain ⟨i, hi, hv⟩ := hroot
    have hi0 : i = 0 := by
      have : sample_heap.numroots = 1 := rfl
      omega
    subst hi0
    have : sample_heap.stack.get (sample_heap.roots.get 0) = .cell 1 := by decide
    rw [this] at hv
    cases hv
    exact Or.inr rfl
  | step _ he ih =>
    obtain ⟨htr, hf⟩ := he
    rcases ih with rfl | rfl
    · exact absurd htr (by decide)
    · have h1 : (sample_heap.mem.get 1).car = .cell 0 := by decide
      have h2 : (sample_heap.mem.get 1).cdr = .null := by decide
      rw [h1, h2] at hf
      rcases hf with hf | hf
      · cases hf; exact Or.inl rfl
      · cases hf

theorem sample_heap_collectable : sample_heap.collectable where
  layout := Or.inl ⟨rfl, rfl⟩
  slots := by
    intro i hi
    have hi0 : i = 0 := by
      have : sample_heap.numroots = 1 := rfl
      omega
    subst hi0
    decide
  roots := by
    intro i hi
    have hi0 : i = 0 := by
      have : sample_heap.numroots = 1 := rfl
      omega
    subst hi0
    exact Or.inr ⟨1, by decide, by decide, by decide⟩
  fields := by
    intro a ha htr
    rcases sample_heap_reachable ha with rfl | rfl
    · exact absurd htr (by decide)
    · exact ⟨Or.inr ⟨0, by decide, by decide, by decide⟩, Or.inl (by decide)⟩
  leaves := by
    intro a ha _
    rcases sample_heap_reachable ha with rfl | rfl
    · decide
    · decide

/-- C1: on every state in which the registered slots and the traced fields of
the reachable cells are null or address the active semispace, `gc_collect`
returns, keeps the registry, and relocates the reachable graph by a map `f`
that is one-to-one on it: every registered slot holds the relocation of what
it held (null stays null), every reachable cell keeps its tag at its new
address, an atom or native function keeps its text or function, a pair or
closure has its two fields relocated, and the cells reachable afterwards are
exactly the images of the cells reachable before. -/
theorem C1_gc_collect_transparent (s : gc) (hc : s.collectable) :
    ∃ (s1 : gc) (f : Nat → Nat), gc_collect s = .ret () s1 ∧
      (s1.numroots = s.numroots ∧ s1.roots = s.roots ∧
        s1.roottop = s.roottop ∧ s1.rootstack = s.rootstack) ∧
      (∀ i, i < s.numroots →
        s1.stack.get (s.roots.get i) = relocate f (s.stack.get (s.roots.get i)) ∧
        (s.stack.get (s.roots.get i) = .null → s1.stack.get (s.roots.get i) = .null)) ∧
      (∀ a b, s.reachable a → s.reachable b → f a = f b → a = b) ∧
      (∀ a, s.reachable a →
        (s1.mem.get (f a)).tag = (s.mem.get a).tag ∧
        ((s.mem.get a).tag.traced →
          (s1.mem.get (f a)).car = relocate f (s.mem.get a).car ∧
          (s1.mem.get (f a)).cdr = relocate f (s.mem.get a).cdr) ∧
        (¬ (s.mem.get a).tag.traced →
          (s1.mem.get (f a)).car = (s.mem.get a).car ∧
          (s1.mem.get (f a)).cdr = (s.mem.get a).cdr)) ∧
      (∀ b, s1.reachable b ↔ ∃ a, s.reachable a ∧ f a = b) := by
  obtain ⟨s1, L, h1, hcol⟩ := gc_collect_collected s hc
  refine ⟨s1, fwd_addr s.tospace L, h1,
    ⟨hcol.numroots, hcol.roots, hcol.roottop, hcol.rootstack⟩, ?_,
    fun a b ha hb e => hcol.inj ha hb e,
    fun a ha => ⟨hcol.tag a ha, hcol.traced a ha, hcol.leaf a ha⟩,
    hcol.reachable_after⟩
  intro i hi
  refine ⟨hcol.slot i hi, fun h0 => ?_⟩
  rw [hcol.slot i hi, h0]
  rfl

/-- C1, on the sample heap. -/
theorem C1_gc_collect_transparent_witness :
    sample_heap.collectable ∧
    ∃ (s1 : gc) (f : Nat → Nat), gc_collect sample_heap = .ret () s1 ∧
      (s1.numroots = sample_heap.numroots ∧ s1.roots = sample_heap.roots ∧
        s1.roottop = sample_heap.roottop ∧ s1.rootstack = sample_heap.rootstack) ∧
      (∀ i, i < sample_heap.numroots →
        s1.stack.get (sample_heap.roots.get i) =
          relocate f (sample_heap.stack.get (sample_heap.roots.get i)) ∧
        (sample_heap.stack.get (sample_heap.roots.get i) = .null →
          s1.stack.get (sample_heap.roots.get i) = .null)) ∧
      (∀ a b, sample_heap.reachable a → sample_heap.reachable b → f a = f b → a = b) ∧
      (∀ a, sample_heap.reachable a →
        (s1.mem.get (f a)).tag = (sample_heap.mem.get a).tag ∧
        ((sample_heap.mem.get a).tag.traced →
          (s1.mem.get (f a)).car = relocate f (sample_heap.mem.get a).car ∧
          (s1.mem.get (f a)).cdr = relocate f (sample_heap.mem.get a).cdr) ∧
        (¬ (sample_heap.mem.get a).tag.traced →
          (s1.mem.get (f a)).car = (sample_heap.mem.get a).car ∧
          (s1.mem.get (f a)).cdr = (sample_heap.mem.get a).cdr)) ∧
      (∀ b, s1.reachable b ↔ ∃ a, sample_heap.reachable a ∧ f a = b) :=
  ⟨sample_heap_collectable, C1_gc_collect_transparent sample_heap sample_heap_collectable⟩

/-! ## Registering the extra pointers -/

theorem registers.in_active {s s1 : gc} {extra : List ptr} (h : registers s s1 extra)
    (p : ptr) : s1.in_active p ↔ s.in_active p := by
  unfold gc.in_active; rw [h.fromspace]

theorem registers.edge {s s1 : gc} {extra : List ptr} (h : registers s s1 extra)
    (a b : Nat) : s1.edge a b ↔ s.edge a b := by
  unfold gc.edge; rw [h.mem]

theorem getD_mem_ptr (l : List ptr) (j : Nat) (h : j < l.length) : l.getD j .null ∈ l := by
  rw [List.getD_eq_getElem _ _ h]; exact List.getElem_mem h

theorem registers.reachable {s s1 : gc} {extra : List ptr} (h : registers s s1 extra)
    (a : Nat) : s1.reachable a ↔ s.reachable_with extra a := by
  constructor
  · intro hr
    induction hr with
    | root hroot =>
      obtain ⟨i, hi, hv⟩ := hroot
      rw [h.numroots] at hi
      by_cases hlt : i < s.numroots
      · rw [h.old_root i hlt, h.old_slot i hlt] at hv
        exact .root ⟨i, hlt, hv⟩
      · have hj : i - s.numroots < extra.length := by omega
        have := h.new_slot (i - s.numroots) hj
        rw [show s.numroots + (i - s.numroots) = i by omega, hv] at this
        exact .extra (this ▸ getD_mem_ptr extra _ hj)
    | step _ he ih => exact .step ih ((h.edge _ _).mp he)
  · intro hr
    induction hr with
    | root hroot =>
      obtain ⟨i, hi, hv⟩ := hroot
      refine .root ⟨i, by rw [h.numroots]; omega, ?_⟩
      rw [h.old_root i hi, h.old_slot i hi]; exact hv
    | extra hmem =>
      obtain ⟨j, hj, hjv⟩ := List.getElem_of_mem hmem
      refine .root ⟨s.numroots + j, by rw [h.numroots]; omega, ?_⟩
      rw [h.new_slot j hj, List.getD_eq_getElem _ _ hj, hjv]
    | step _ he ih => exact .step ih ((h.edge _ _).mpr he)

theorem registers.collectable {s s1 : gc} {extra : List ptr} (h : registers s s1 extra)
    (hc : s.collectable_with extra) : s1.collectable where
  layout := by rw [h.fromspace, h.tospace]; exact hc.layout
  slots := by
    intro i hi
    rw [h.numroots] at hi
    by_cases hlt : i < s.numroots
    · rw [h.old_root i hlt]; exact hc.slots i hlt
    · have := h.new_cap (i - s.numroots) (by omega)
      rw [show s.numroots + (i - s.numroots) = i by omega] at this
      exact this
  roots := by
    intro i hi
    rw [h.numroots] at hi
    rw [h.in_active]
    by_cases hlt : i < s.numroots
    · rw [h.old_root i hlt, h.old_slot i hlt]; exact hc.roots i hlt
    · have hj : i - s.numroots < extra.length := by omega
      have := h.new_slot (i - s.numroots) hj
      rw [show s.numroots + (i - s.numroots) = i by omega] at this
      rw [this]
      exact hc.extras _ (getD_mem_ptr extra _ hj)
  fields := by
    intro a ha htr
    rw [h.mem] at htr ⊢
    rw [h.in_active, h.in_active]
    exact hc.fields a ((h.reachable a).mp ha) htr
  leaves := by
    intro a ha htr
    rw [h.mem] at htr ⊢
    exact hc.leaves a ((h.reachable a).mp ha) htr

/-! ## `gc_alloc` with the active semispace full -/

theorem enter_spec (vals : List ptr) (s : gc) (h : s.sp + vals.length ≤ STACKCAP) :
    enter vals s = .ret s.sp (entered vals s) := by
  simp only [enter, h, if_true, entered]

theorem gc_alloc_unfold (tag : object_tag) (car cdr : ptr) (s : gc) :
    gc_alloc tag car cdr s =
      (enter [car, cdr] s).bind fun b s0 =>
        (gc_alloc_collect tag b s0).bind fun _ s3 => gc_alloc_store tag b s3 := rfl

/-- The state in which `gc_alloc` calls `gc_collect` holds the two field
values of a pair in registered slots. -/
theorem gc_alloc_protect_spec (s : gc) (tag : object_tag) (car cdr : ptr)
    (hsp : s.sp + 2 ≤ STACKCAP) (hbelow : ∀ i, i < s.numroots → s.roots.get i < s.sp)
    (hreg : tag = .T_CONS → s.roottop < MAXFRAMES ∧ s.numroots + 2 ≤ MAXROOTS) :
    ∃ s1, (if tag = .T_CONS then gc_protect [s.sp, s.sp + 1] (entered [car, cdr] s)
            else .ret () (entered [car, cdr] s)) = .ret () s1 ∧
      registers s s1 (alloc_roots tag car cdr) ∧
      s1.roottop = s.roottop + (if tag = .T_CONS then 1 else 0) ∧
      (tag = .T_CONS → s1.rootstack.get s.roottop = s.numroots) ∧
      (∀ j, j < s.roottop → s1.rootstack.get j = s.rootstack.get j) ∧
      s1.sp = s.sp + 2 ∧ s1.allocptr = s.allocptr ∧
      s1.stack = s.stack.write s.sp [car, cdr] ∧
      (∀ i, i < s1.numroots → s.numroots ≤ i → s1.roots.get i = s.sp + (i - s.numroots)) := by
  have hcap : STACKCAP = ARRCAP := rfl
  have hw0 : (s.stack.write s.sp [car, cdr]).get (s.sp + 0) = car :=
    Arr.get_write_in [car, cdr] s.stack s.sp 0 (by simp) (by simp; omega)
  have hw1 : (s.stack.write s.sp [car, cdr]).get (s.sp + 1) = cdr :=
    Arr.get_write_in [car, cdr] s.stack s.sp 1 (by simp) (by simp; omega)
  have hwlt : ∀ x, x < s.sp → (s.stack.write s.sp [car, cdr]).get x = s.stack.get x :=
    fun x hx => Arr.get_write_lt _ _ _ _ hx
  by_cases hT : tag = .T_CONS
  · obtain ⟨ht, hn⟩ := hreg hT
    obtain ⟨s1, h1, hn1', ht1', hrs', hrs'', hm', hst', hsp1', hf', hto', ha', -, hold', hnew''⟩ :=
      gc_protect_spec [s.sp, s.sp + 1] (entered [car, cdr] s) ht (by simpa using hn)
    have hn1 : s1.numroots = s.numroots + 2 := hn1'
    have ht1 : s1.roottop = s.roottop + 1 := ht1'
    have hrs : s1.rootstack.get s.roottop = s.numroots := hrs'
    have hrs' : ∀ j, j ≠ s.roottop → s1.rootstack.get j = s.rootstack.get j := hrs''
    have hm : s1.mem = s.mem := hm'
    have hst : s1.stack = s.stack.write s.sp [car, cdr] := hst'
    have hsp1 : s1.sp = s.sp + 2 := hsp1'
    have hf : s1.fromspace = s.fromspace := hf'
    have hto : s1.tospace = s.tospace := hto'
    have ha : s1.allocptr = s.allocptr := ha'
    have hold : ∀ j, j < s.numroots → s1.roots.get j = s.roots.get j := hold'
    have hnew : ∀ i, i < 2 → s1.roots.get (s.numroots + i) = [s.sp, s.sp + 1].getD i 0 := hnew''
    have hnew' : ∀ j, j < 2 → s1.roots.get (s.numroots + j) = s.sp + j := by
      intro j hj
      have := hnew j hj
      rw [this]
      rcases (show j = 0 ∨ j = 1 by omega) with rfl | rfl <;> rfl
    refine ⟨s1, by rw [if_pos hT]; exact h1, ?_, by rw [ht1, if_pos hT],
      fun _ => hrs, fun j hj => hrs' j (by omega), hsp1, ha, hst, ?_⟩
    · simp only [alloc_roots, if_pos hT]
      refine { mem := hm, fromspace := hf, tospace := hto, numroots := hn1,
               old_root := hold, old_slot := ?_, new_slot := ?_, new_cap := ?_ }
      · intro i hi; rw [hst]; exact hwlt _ (hbelow i hi)
      · intro j hj
        simp only [List.length_cons, List.length_nil] at hj
        have hj2 : j < 2 := by omega
        rw [hnew' j hj2, hst]
        rcases (show j = 0 ∨ j = 1 by omega) with rfl | rfl
        · exact hw0
        · exact hw1
      · intro j hj
        simp only [List.length_cons, List.length_nil] at hj
        rw [hnew' j (by omega)]; omega
    · intro i hi hle
      rw [hn1] at hi
      have := hnew' (i - s.numroots) (by omega)
      rw [show s.numroots + (i - s.numroots) = i by omega] at this
      exact this
  · refine ⟨entered [car, cdr] s, by rw [if_neg hT], ?_, by rw [if_neg hT]; rfl,
      fun h => absurd h hT, fun _ _ => rfl, rfl, rfl, rfl, ?_⟩
    · simp only [alloc_roots, if_neg hT]
      exact { mem := rfl, fromspace := rfl, tospace := rfl, numroots := rfl,
              old_root := fun _ _ => rfl,
              old_slot := fun i hi => hwlt _ (hbelow i hi),
              new_slot := fun j hj => (by simp at hj),
              new_cap := fun j hj => (by simp at hj) }
    · intro i hi hle
      have : (entered [car, cdr] s).numroots = s.numroots := rfl
      omega

/-- A call of `gc_alloc` with the active semispace full: `L` lists the live
cells; with `HEAPSIZE` of them the call is fatal, with fewer it returns the
cell right above their copies. -/
theorem gc_alloc_full (s : gc) (tag : object_tag) (car cdr : ptr)
    (hfull : s.allocptr + 1 > s.fromspace + HEAPSIZE)
    (hc : s.collectable_with (alloc_roots tag car cdr))
    (hsp : s.sp + 2 ≤ STACKCAP) (hbelow : ∀ i, i < s.numroots → s.roots.get i < s.sp)
    (hreg : tag = .T_CONS → s.roottop < MAXFRAMES ∧ s.numroots + 2 ≤ MAXROOTS) :
    ∃ L : List Nat, L.Nodup ∧
      (∀ a, s.reachable_with (alloc_roots tag car cdr) a ↔ a ∈ L) ∧
      (HEAPSIZE ≤ L.length → gc_alloc tag car cdr s = .fatal "Out of memory") ∧
      (L.length < HEAPSIZE →
        ∃ s1, gc_alloc tag car cdr s = .ret (.cell (s.tospace + L.length)) s1 ∧
          allocated s s1 tag car cdr (fwd_addr s.tospace L) (s.tospace + L.length)) := by
  obtain ⟨s1, h1, hreg1, ht1, hrs1, hrs1', hsp1, ha1, hst1, hnew1⟩ :=
    gc_alloc_protect_spec s tag car cdr hsp hbelow hreg
  have hc1 := hreg1.collectable hc
  obtain ⟨s2, L, h2, hcol⟩ := gc_collect_collected s1 hc1
  rw [hreg1.tospace] at hcol
  have hlive : ∀ a, s.reachable_with (alloc_roots tag car cdr) a ↔ a ∈ L :=
    fun a => (hreg1.reachable a).symm.trans (hcol.live a)
  have hpop : ∃ s3, (if tag = .T_CONS then gc_pop s2 else .ret () s2) = .ret () s3 ∧
      s3.roottop = s.roottop ∧ s3.numroots = s.numroots ∧ s3.rootstack = s2.rootstack ∧
      s3.roots = s2.roots ∧ s3.mem = s2.mem ∧ s3.stack = s2.stack ∧ s3.sp = s2.sp ∧
      s3.fromspace = s2.fromspace ∧ s3.tospace = s2.tospace ∧
      s3.allocptr = s2.allocptr := by
    by_cases hT : tag = .T_CONS
    · have htop : s2.roottop = s.roottop + 1 := by rw [hcol.roottop, ht1, if_pos hT]
      obtain ⟨s3, h3, e1, e2, e3, e4, e5, e6, e7, e8, e9, e10, -⟩ :=
        gc_pop_spec s2 (by omega)
      refine ⟨s3, by rw [if_pos hT]; exact h3, by omega, ?_, e3, e4, e5, e6, e7, e8, e9, e10⟩
      rw [e2, htop, Nat.add_sub_cancel, hcol.rootstack]
      exact hrs1 hT
    · refine ⟨s2, by rw [if_neg hT], ?_, ?_, rfl, rfl, rfl, rfl, rfl, rfl, rfl, rfl⟩
      · rw [hcol.roottop, ht1, if_neg hT]; rfl
      · rw [hcol.numroots, hreg1.numroots]
        simp [alloc_roots, hT]
  obtain ⟨s3, h3, e1, e2, e3, e4, e5, e6, e7, e8, e9, e10⟩ := hpop
  have hcollect : gc_alloc_collect tag s.sp (entered [car, cdr] s) = .ret () s3 := by
    unfold gc_alloc_collect
    rw [if_pos (show (entered [car, cdr] s).allocptr + 1 >
      (entered [car, cdr] s).fromspace + HEAPSIZE from hfull), h1]
    simp only [Res.bind]
    rw [h2]
    exact h3
  have hal : s3.allocptr = s.tospace + L.length := by
    rw [e10, hcol.alloc, hcol.fromspace, hreg1.tospace]
  have hfs : s3.fromspace = s.tospace := by rw [e8, hcol.fromspace, hreg1.tospace]
  have hstart : gc_alloc tag car cdr s = gc_alloc_store tag s.sp s3 := by
    rw [gc_alloc_unfold, enter_spec [car, cdr] s hsp]
    simp only [Res.bind]
    rw [hcollect]
  have hlay := hc.layout
  have hcap := two_HEAPSIZE_le_ARRCAP
  refine ⟨L, hcol.nodup, hlive, ?_, ?_⟩
  · intro hge
    rw [hstart]
    unfold gc_alloc_store
    rw [if_pos (by rw [hal, hfs]; omega)]
  · intro hlt
    have hp2 : s3.allocptr < 2 * HEAPSIZE := by rw [hal]; omega
    have hpcap : s3.allocptr < ARRCAP := by omega
    have hslot_old : ∀ i, i < s.numroots →
        s2.stack.get (s.roots.get i) = relocate (fwd_addr s.tospace L) (s.stack.get (s.roots.get i)) := by
      intro i hi
      have := hcol.slot i (by rw [hreg1.numroots]; omega)
      rw [hreg1.old_root i hi, hreg1.old_slot i hi] at this
      exact this
    have hfield : s2.stack.get s.sp = alloc_field tag (fwd_addr s.tospace L) car ∧
        s2.stack.get (s.sp + 1) = alloc_field tag (fwd_addr s.tospace L) cdr := by
      have hw0 : s1.stack.get (s.sp + 0) = car := by
        rw [hst1]; exact Arr.get_write_in [car, cdr] s.stack s.sp 0 (by simp) (by simpa using hsp)
      have hw1 : s1.stack.get (s.sp + 1) = cdr := by
        rw [hst1]; exact Arr.get_write_in [car, cdr] s.stack s.sp 1 (by simp) (by simpa using hsp)
      by_cases hT : tag = .T_CONS
      · have hn1 : s1.numroots = s.numroots + 2 := by
          rw [hreg1.numroots]; simp [alloc_roots, hT]
        have r0 := hnew1 s.numroots (by omega) (le_refl _)
        have r1 := hnew1 (s.numroots + 1) (by omega) (by omega)
        rw [Nat.sub_self] at r0
        rw [Nat.add_sub_cancel_left] at r1
        have c0 := hcol.slot s.numroots (by omega)
        have c1 := hcol.slot (s.numroots + 1) (by omega)
        rw [r0, hw0] at c0
        rw [r1, hw1] at c1
        simp only [alloc_field, if_pos hT]
        exact ⟨c0, c1⟩
      · have hn1 : s1.numroots = s.numroots := by
          rw [hreg1.numroots]; simp [alloc_roots, hT]
        have hun : ∀ x, s.sp ≤ x → ∀ i, i < s1.numroots → s1.roots.get i ≠ x := by
          intro x hx i hi
          rw [hn1] at hi
          rw [hreg1.old_root i hi]
          have := hbelow i hi
          omega
        have c0 := hcol.unreg s.sp (hun _ (le_refl _))
        have c1 := hcol.unreg (s.sp + 1) (hun _ (by omega))
        rw [Nat.add_zero] at hw0
        rw [hw0] at c0
        rw [hw1] at c1
        simp only [alloc_field, if_neg hT]
        exact ⟨c0, c1⟩
    refine ⟨leave s.sp { s3 with
        mem := s3.mem.set s3.allocptr ⟨s3.stack.get s.sp, s3.stack.get (s.sp + 1), tag⟩,
        allocptr := s3.allocptr + 1 }, ?_, ?_⟩
    · rw [hstart]
      unfold gc_alloc_store
      rw [if_neg (by rw [hal, hfs]; omega), if_pos hp2, hal]
    · have hget_ne : ∀ j, j ≠ s3.allocptr →
          ((s3.mem.set s3.allocptr
            ⟨s3.stack.get s.sp, s3.stack.get (s.sp + 1), tag⟩).get j) = s2.mem.get j := by
        intro j hj
        rw [Arr.get_set_ne _ _ _ _ (Ne.symm hj), e5]
      have hrange : ∀ a, s.reachable_with (alloc_roots tag car cdr) a →
          s.tospace ≤ fwd_addr s.tospace L a ∧ fwd_addr s.tospace L a < s3.allocptr := by
        intro a ha
        have := hcol.range ((hreg1.reachable a).mpr ha)
        rw [hcol.fromspace, hreg1.tospace] at this
        rw [e10]
        exact this
      refine
        { layout := ?_,
          swap_from := hfs,
          swap_to := by
            show s3.tospace = _
            rw [e9, hcol.tospace, hreg1.fromspace],
          roottop := e1, numroots := e2, roots := ?_, rootstack := ?_,
          sp := rfl, alloc := by simp only [leave]; rw [hal], fresh := ?_, cell := ?_,
          slot := ?_, unreg := ?_, range := ?_, inj := ?_, keeps_tag := ?_,
          keeps_traced := ?_, keeps_leaf := ?_ }
      · show (s3.fromspace = 0 ∧ s3.tospace = HEAPSIZE) ∨ (s3.fromspace = HEAPSIZE ∧ s3.tospace = 0)
        rw [e8, e9, hcol.fromspace, hcol.tospace, hreg1.fromspace, hreg1.tospace]
        rcases hlay with ⟨a, b⟩ | ⟨a, b⟩
        · exact Or.inr ⟨b, a⟩
        · exact Or.inl ⟨b, a⟩
      · intro i hi
        show s3.roots.get i = _
        rw [e4, hcol.roots, hreg1.old_root i hi]
      · intro j hj
        show s3.rootstack.get j = _
        rw [e3, hcol.rootstack, hrs1' j hj]
      · show s3.fromspace ≤ _ ∧ _ < s3.fromspace + HEAPSIZE
        rw [hfs]; omega
      · show (s3.mem.set s3.allocptr _).get (s.tospace + L.length) = _
        rw [← hal, Arr.get_set_eq _ _ _ hpcap, e6, hfield.1, hfield.2]
      · intro i hi
        show s3.stack.get _ = _
        rw [e6]; exact hslot_old i hi
      · intro x hx hun
        show s3.stack.get x = _
        rw [e6]
        have : ∀ i, i < s1.numroots → s1.roots.get i ≠ x := by
          intro i hi
          by_cases hlt' : i < s.numroots
          · rw [hreg1.old_root i hlt']; exact hun i hlt'
          · rw [hnew1 i hi (by omega)]; omega
        rw [hcol.unreg x this, hst1]
        exact Arr.get_write_lt _ _ _ _ hx
      · intro a ha
        have := hrange a ha
        show s3.fromspace ≤ _ ∧ _
        rw [hfs, ← hal]; exact this
      · intro a b ha hb e
        exact hcol.inj ((hreg1.reachable a).mpr ha) ((hreg1.reachable b).mpr hb) e
      · intro a ha
        show ((s3.mem.set s3.allocptr _).get _).tag = _
        rw [hget_ne _ (by have := hrange a ha; omega),
          hcol.tag a ((hreg1.reachable a).mpr ha), hreg1.mem]
      · intro a ha htr
        show ((s3.mem.set s3.allocptr _).get _).car = _ ∧ ((s3.mem.set s3.allocptr _).get _).cdr = _
        rw [hget_ne _ (by have := hrange a ha; omega)]
        have := hcol.traced a ((hreg1.reachable a).mpr ha) (by rw [hreg1.mem]; exact htr)
        rw [hreg1.mem] at this
        exact this
      · intro a ha htr
        show ((s3.mem.set s3.allocptr _).get _).car = _ ∧ ((s3.mem.set s3.allocptr _).get _).cdr = _
        rw [hget_ne _ (by have := hrange a ha; omega)]
        have := hcol.leaf a ((hreg1.reachable a).mpr ha) (by rw [hreg1.mem]; exact htr)
        rw [hreg1.mem] at this
        exact this

/-! ## Out of memory -/

/-- The live cells number `n` or more exactly when their list is that long. -/
theorem live_at_least_iff {s : gc} {extra : List ptr} {L : List Nat} (hn : L.Nodup)
    (hL : ∀ a, s.reachable_with extra a ↔ a ∈ L) (n : Nat) :
    s.live_at_least extra n ↔ n ≤ L.length := by
  constructor
  · rintro ⟨l, hl, hlen, hmem⟩
    have hsub : l ⊆ L := fun a ha => (hL a).mp (hmem a ha)
    exact le_trans hlen (List.subperm_of_subset hl hsub).length_le
  · intro h
    exact ⟨L, hn, h, fun a ha => (hL a).mpr ha⟩

theorem sample_full_reachable_with {a : Nat}
    (h : sample_full.reachable_with (alloc_roots .T_CONS (.cell 0) .null) a) :
    a = 0 ∨ a = 1 := by
  induction h with
  | root hroot =>
    obtain ⟨i, hi, hv⟩ := hroot
    have hi0 : i = 0 := by
      have : sample_full.numroots = 1 := rfl
      omega
    subst hi0
    have : sample_full.stack.get (sample_full.roots.get 0) = .cell 1 := by decide
    rw [this] at hv
    cases hv
    exact Or.inr rfl
  | extra hmem =>
    simp [alloc_roots] at hmem
    exact Or.inl hmem
  | step _ he ih =>
    obtain ⟨htr, hf⟩ := he
    rcases ih with rfl | rfl
    · exact absurd htr (by decide)
    · have h1 : (sample_full.mem.get 1).car = .cell 0 := by decide
      have h2 : (sample_full.mem.get 1).cdr = .null := by decide
      rw [h1, h2] at hf
      rcases hf with hf | hf
      · cases hf; exact Or.inl rfl
      · cases hf

theorem sample_full_collectable :
    sample_full.collectable_with (alloc_roots .T_CONS (.cell 0) .null) where
  layout := Or.inl ⟨rfl, rfl⟩
  slots := by
    intro i hi
    have hi0 : i = 0 := by
      have : sample_full.numroots = 1 := rfl
      omega
    subst hi0
    decide
  roots := by
    intro i hi
    have hi0 : i = 0 := by
      have : sample_full.numroots = 1 := rfl
      omega
    subst hi0
    exact Or.inr ⟨1, by decide, by decide, by decide⟩
  extras := by
    intro p hp
    simp [alloc_roots] at hp
    rcases hp with rfl | rfl
    · exact Or.inr ⟨0, rfl, by decide, by decide⟩
    · exact Or.inl rfl
  fields := by
    intro a ha htr
    rcases sample_full_reachable_with ha with rfl | rfl
    · exact absurd htr (by decide)
    · exact ⟨Or.inr ⟨0, by decide, by decide, by decide⟩, Or.inl (by decide)⟩
  leaves := by
    intro a ha _
    rcases sample_full_reachable_with ha with rfl | rfl
    · decide
    · decide

/-- C3, as amended: with the active semispace full and room in the registry
for the frame that a pair allocation pushes, `gc_alloc` is fatal with "Out of
memory" exactly when `HEAPSIZE` or more distinct cells are reachable from the
registered roots and, for a pair, from the two field values; so it is with
any larger number of live cells; and otherwise it returns a fresh cell of
the active semispace that carries the tag and the two field values,
relocated for a pair, with the live graph relocated by a one-to-one map. -/
theorem C3_gc_alloc_oom_iff (s : gc) (tag : object_tag) (car cdr : ptr)
    (hfull : s.allocptr + 1 > s.fromspace + HEAPSIZE)
    (hc : s.collectable_with (alloc_roots tag car cdr))
    (hsp : s.sp + 2 ≤ STACKCAP) (hbelow : ∀ i, i < s.numroots → s.roots.get i < s.sp)
    (hreg : tag = .T_CONS → s.roottop < MAXFRAMES ∧ s.numroots + 2 ≤ MAXROOTS) :
    (gc_alloc tag car cdr s = .fatal "Out of memory" ↔
      s.live_at_least (alloc_roots tag car cdr) HEAPSIZE) ∧
    (∀ n, HEAPSIZE ≤ n → s.live_at_least (alloc_roots tag car cdr) n →
      gc_alloc tag car cdr s = .fatal "Out of memory") ∧
    (¬ s.live_at_least (alloc_roots tag car cdr) HEAPSIZE →
      ∃ (p : Nat) (s1 : gc) (f : Nat → Nat),
        gc_alloc tag car cdr s = .ret (.cell p) s1 ∧
        s1.mem.get p = ⟨alloc_field tag f car, alloc_field tag f cdr, tag⟩ ∧
        (∀ a, s.reachable_with (alloc_roots tag car cdr) a → f a ≠ p) ∧
        allocated s s1 tag car cdr f p) := by
  obtain ⟨L, hn, hL, hfatal, hret⟩ := gc_alloc_full s tag car cdr hfull hc hsp hbelow hreg
  have hiff := live_at_least_iff hn hL
  refine ⟨⟨?_, fun h => hfatal ((hiff _).mp h)⟩, ?_, ?_⟩
  · intro h
    by_contra hnot
    rw [hiff] at hnot
    obtain ⟨s1, h1, -⟩ := hret (by omega)
    rw [h1] at h
    cases h
  · intro n hle h
    exact hfatal (le_trans hle ((hiff _).mp h))
  · intro hnot
    rw [hiff] at hnot
    obtain ⟨s1, h1, hal⟩ := hret (by omega)
    refine ⟨_, s1, _, h1, hal.cell, ?_, hal⟩
    intro a ha e
    have := (hal.range a ha).2
    omega

/-- C3, as amended, on the sample heap with its semispace full, for the pair
of the atom at cell `0` and null. -/
theorem C3_gc_alloc_oom_iff_witness :
    (sample_full.allocptr + 1 > sample_full.fromspace + HEAPSIZE) ∧
    sample_full.collectable_with (alloc_roots .T_CONS (.cell 0) .null) ∧
    ((gc_alloc .T_CONS (.cell 0) .null sample_full = .fatal "Out of memory" ↔
      sample_full.live_at_least (alloc_roots .T_CONS (.cell 0) .null) HEAPSIZE) ∧
    (∀ n, HEAPSIZE ≤ n →
      sample_full.live_at_least (alloc_roots .T_CONS (.cell 0) .null) n →
      gc_alloc .T_CONS (.cell 0) .null sample_full = .fatal "Out of memory") ∧
    (¬ sample_full.live_at_least (alloc_roots .T_CONS (.cell 0) .null) HEAPSIZE →
      ∃ (p : Nat) (s1 : gc) (f : Nat → Nat),
        gc_alloc .T_CONS (.cell 0) .null sample_full = .ret (.cell p) s1 ∧
        s1.mem.get p =
          ⟨alloc_field .T_CONS f (.cell 0), alloc_field .T_CONS f .null, .T_CONS⟩ ∧
        (∀ a, sample_full.reachable_with (alloc_roots .T_CONS (.cell 0) .null) a →
          f a ≠ p) ∧
        allocated sample_full s1 .T_CONS (.cell 0) .null f p)) :=
  ⟨by decide, sample_full_collectable,
    C3_gc_alloc_oom_iff sample_full .T_CONS (.cell 0) .null (by decide)
      sample_full_collectable (by decide)
      (fun i hi => by
        have hi0 : i = 0 := by
          have : sample_full.numroots = 1 := rfl
          omega
        subst hi0
        decide)
      (fun _ => ⟨by decide, by decide⟩)⟩

set_option maxRecDepth 100000 in
theorem sample_full_registry_stack : sample_full_registry.stack = Arr.empty := by decide

set_option maxRecDepth 100000 in
theorem sample_full_registry_shape :
    sample_full_registry.allocptr + 1 > sample_full_registry.fromspace + HEAPSIZE ∧
    sample_full_registry.roottop = MAXFRAMES := by decide

set_option maxRecDepth 100000 in
theorem sample_full_registry_alloc :
    gc_alloc .T_CONS .null .null sample_full_registry =
      .fatal "Assertion failed: roottop < MAXFRAMES" := by decide

theorem sample_full_registry_no_root (b : Nat) : ¬ sample_full_registry.is_root b := by
  rintro ⟨i, -, hv⟩
  rw [sample_full_registry_stack, Arr.get_empty] at hv
  cases hv

theorem sample_full_registry_no_live {a : Nat}
    (h : sample_full_registry.reachable_with (alloc_roots .T_CONS .null .null) a) : False := by
  induction h with
  | root hroot => exact sample_full_registry_no_root _ hroot
  | extra hmem => simp [alloc_roots] at hmem
  | step _ _ ih => exact ih

/-- C3, refuted as stated: with the active semispace full, nothing live, and
all `MAXFRAMES` frames of the registry open, the allocation of a pair neither
returns a cell nor reports "Out of memory": the assertion of `gc_protect`
fails. -/
theorem C3_full_registry_counterexample :
    sample_full_registry.allocptr + 1 > sample_full_registry.fromspace + HEAPSIZE ∧
    sample_full_registry.roottop = MAXFRAMES ∧
    ¬ sample_full_registry.live_at_least (alloc_roots .T_CONS .null .null) HEAPSIZE ∧
    gc_alloc .T_CONS .null .null sample_full_registry =
      .fatal "Assertion failed: roottop < MAXFRAMES" := by
  refine ⟨sample_full_registry_shape.1, sample_full_registry_shape.2, ?_,
    sample_full_registry_alloc⟩
  rintro ⟨l, -, hlen, hmem⟩
  cases l with
  | nil => simp [HEAPSIZE] at hlen
  | cons a l => exact sample_full_registry_no_live (hmem a (by simp))

/-! ## Allocation with room in the active semispace -/

/-- A call of `gc_alloc` with room: the cell at `allocptr` is initialised and
nothing else of the heap or the registry changes. -/
theorem gc_alloc_room (s : gc) (tag : object_tag) (car cdr : ptr)
    (hroom : s.allocptr + 1 ≤ s.fromspace + HEAPSIZE) (hblock : s.allocptr < 2 * HEAPSIZE)
    (hsp : s.sp + 2 ≤ STACKCAP) :
    ∃ s1, gc_alloc tag car cdr s = .ret (.cell s.allocptr) s1 ∧
      s1.mem = s.mem.set s.allocptr ⟨car, cdr, tag⟩ ∧
      s1.allocptr = s.allocptr + 1 ∧
      s1.fromspace = s.fromspace ∧ s1.tospace = s.tospace ∧
      s1.roots = s.roots ∧ s1.rootstack = s.rootstack ∧
      s1.roottop = s.roottop ∧ s1.numroots = s.numroots ∧ s1.sp = s.sp ∧
      (∀ x, x < s.sp → s1.stack.get x = s.stack.get x) := by
  have hw0 : (s.stack.write s.sp [car, cdr]).get (s.sp + 0) = car :=
    Arr.get_write_in [car, cdr] s.stack s.sp 0 (by simp) (by simpa using hsp)
  have hw1 : (s.stack.write s.sp [car, cdr]).get (s.sp + 1) = cdr :=
    Arr.get_write_in [car, cdr] s.stack s.sp 1 (by simp) (by simpa using hsp)
  rw [Nat.add_zero] at hw0
  refine ⟨leave s.sp { entered [car, cdr] s with
      mem := s.mem.set s.allocptr ⟨car, cdr, tag⟩, allocptr := s.allocptr + 1 },
    ?_, rfl, rfl, rfl, rfl, rfl, rfl, rfl, rfl, rfl, ?_⟩
  · rw [gc_alloc_unfold, enter_spec [car, cdr] s hsp]
    simp only [Res.bind]
    have hc : gc_alloc_collect tag s.sp (entered [car, cdr] s) =
        .ret () (entered [car, cdr] s) := by
      unfold gc_alloc_collect
      rw [if_neg (show ¬ (entered [car, cdr] s).allocptr + 1 >
        (entered [car, cdr] s).fromspace + HEAPSIZE from by
          show ¬ s.allocptr + 1 > s.fromspace + HEAPSIZE; omega)]
    rw [hc]
    simp only [gc_alloc_store]
    rw [if_neg (show ¬ (entered [car, cdr] s).allocptr + 1 >
        (entered [car, cdr] s).fromspace + HEAPSIZE from by
          show ¬ s.allocptr + 1 > s.fromspace + HEAPSIZE; omega),
      if_pos (show (entered [car, cdr] s).allocptr < 2 * HEAPSIZE from hblock)]
    have e0 : (entered [car, cdr] s).stack.get s.sp = car := hw0
    have e1 : (entered [car, cdr] s).stack.get (s.sp + 1) = cdr := hw1
    rw [e0, e1]
    rfl
  · intro x hx
    exact Arr.get_write_lt _ _ _ _ hx

theorem new_cons_unfold (car cdr : ptr) (s : gc) :
    new_cons car cdr s =
      (enter [car, cdr] s).bind fun b s0 =>
      (gc_protect [b, b + 1] s0).bind fun _ s1 =>
      (gc_alloc .T_CONS (s1.stack.get b) (s1.stack.get (b + 1)) s1).bind fun ret s2 =>
      (gc_pop s2).bind fun _ s3 => .ret ret (leave b s3) := rfl

/-- The state in which `new_cons` calls `gc_alloc`. -/
theorem new_cons_protect_spec (s : gc) (car cdr : ptr)
    (hsp : s.sp + 2 ≤ STACKCAP) (hbelow : ∀ i, i < s.numroots → s.roots.get i < s.sp)
    (ht : s.roottop < MAXFRAMES) (hn : s.numroots + 2 ≤ MAXROOTS) :
    ∃ s1, gc_protect [s.sp, s.sp + 1] (entered [car, cdr] s) = .ret () s1 ∧
      registers s s1 [car, cdr] ∧
      s1.roottop = s.roottop + 1 ∧ s1.numroots = s.numroots + 2 ∧
      s1.rootstack.get s.roottop = s.numroots ∧
      (∀ j, j < s.roottop → s1.rootstack.get j = s.rootstack.get j) ∧
      s1.sp = s.sp + 2 ∧ s1.allocptr = s.allocptr ∧
      s1.stack.get s.sp = car ∧ s1.stack.get (s.sp + 1) = cdr ∧
      (∀ x, x < s.sp → s1.stack.get x = s.stack.get x) ∧
      s1.roots.get s.numroots = s.sp ∧ s1.roots.get (s.numroots + 1) = s.sp + 1 := by
  obtain ⟨s1, h1, hreg1, ht1, hrs1, hrs1', hsp1, ha1, hst1, hnew1⟩ :=
    gc_alloc_protect_spec s .T_CONS car cdr hsp hbelow (fun _ => ⟨ht, hn⟩)
  rw [if_pos rfl] at h1 ht1
  have hreg1' : registers s s1 [car, cdr] := hreg1
  have hn1 : s1.numroots = s.numroots + 2 := hreg1'.numroots
  have hw0 : (s.stack.write s.sp [car, cdr]).get (s.sp + 0) = car :=
    Arr.get_write_in [car, cdr] s.stack s.sp 0 (by simp) (by simpa using hsp)
  have hw1 : (s.stack.write s.sp [car, cdr]).get (s.sp + 1) = cdr :=
    Arr.get_write_in [car, cdr] s.stack s.sp 1 (by simp) (by simpa using hsp)
  rw [Nat.add_zero] at hw0
  have r0 := hnew1 s.numroots (by omega) (le_refl _)
  have r1 := hnew1 (s.numroots + 1) (by omega) (by omega)
  rw [Nat.sub_self, Nat.add_zero] at r0
  rw [Nat.add_sub_cancel_left] at r1
  exact ⟨s1, h1, hreg1', ht1, hn1, hrs1 rfl, hrs1', hsp1, ha1, by rw [hst1]; exact hw0,
    by rw [hst1]; exact hw1, fun x hx => by rw [hst1]; exact Arr.get_write_lt _ _ _ _ hx,
    r0, r1⟩

/-- A call of `new_cons` with room: the pair is the cell at `allocptr`. -/
theorem new_cons_room (s : gc) (car cdr : ptr)
    (hroom : s.allocptr + 1 ≤ s.fromspace + HEAPSIZE) (hblock : s.allocptr < 2 * HEAPSIZE)
    (hsp : s.sp + 4 ≤ STACKCAP) (hbelow : ∀ i, i < s.numroots → s.roots.get i < s.sp)
    (ht : s.roottop < MAXFRAMES) (hn : s.numroots + 2 ≤ MAXROOTS) :
    ∃ s1, new_cons car cdr s = .ret (.cell s.allocptr) s1 ∧
      s1.mem = s.mem.set s.allocptr ⟨car, cdr, .T_CONS⟩ ∧
      s1.allocptr = s.allocptr + 1 ∧
      s1.fromspace = s.fromspace ∧ s1.tospace = s.tospace ∧
      s1.roottop = s.roottop ∧ s1.numroots = s.numroots ∧ s1.sp = s.sp ∧
      (∀ i, i < s.numroots → s1.roots.get i = s.roots.get i) ∧
      (∀ j, j < s.roottop → s1.rootstack.get j = s.rootstack.get j) ∧
      (∀ x, x < s.sp → s1.stack.get x = s.stack.get x) := by
  obtain ⟨s1, h1, hreg1, ht1, hn1, hrs1, hrs1', hsp1, ha1, hc0, hc1, hst1, -, -⟩ :=
    new_cons_protect_spec s car cdr (by omega) hbelow ht hn
  obtain ⟨s2, h2, hm2, ha2, hf2, hto2, hr2, hrs2, ht2, hn2, hsp2, hst2⟩ :=
    gc_alloc_room s1 .T_CONS car cdr (by rw [ha1, hreg1.fromspace]; exact hroom)
      (by rw [ha1]; exact hblock) (by rw [hsp1]; omega)
  obtain ⟨s3, h3, e1, e2, e3, e4, e5, e6, e7, e8, e9, e10, -⟩ :=
    gc_pop_spec s2 (by rw [ht2, ht1]; omega)
  refine ⟨leave s.sp s3, ?_, ?_, ?_, ?_, ?_, ?_, ?_, rfl, ?_, ?_, ?_⟩
  · rw [new_cons_unfold, enter_spec [car, cdr] s (by simpa using (show s.sp + 2 ≤ STACKCAP by omega))]
    simp only [Res.bind]
    rw [h1]
    simp only []
    rw [hc0, hc1, h2]
    simp only []
    rw [h3, ha1]
  · show s3.mem = _
    rw [e5, hm2, hreg1.mem, ha1]
  · show s3.allocptr = _
    rw [e10, ha2, ha1]
  · show s3.fromspace = _
    rw [e8, hf2, hreg1.fromspace]
  · show s3.tospace = _
    rw [e9, hto2, hreg1.tospace]
  · show s3.roottop = _
    rw [e1, ht2, ht1]; omega
  · show s3.numroots = _
    rw [e2, ht2, ht1, Nat.add_sub_cancel, hrs2, hrs1]
  · intro i hi
    show s3.roots.get i = _
    rw [e4, hr2, hreg1.old_root i hi]
  · intro j hj
    show s3.rootstack.get j = _
    rw [e3, hrs2, hrs1' j hj]
  · intro x hx
    show s3.stack.get x = _
    rw [e6, hst2 x (by rw [hsp1]; omega), hst1 x hx]

/-! ## `new_cons` with the active semispace full -/

theorem alloc_roots_cons (car cdr : ptr) : alloc_roots .T_CONS car cdr = [car, cdr] := rfl

theorem one_root.below {s : gc} (h : one_root s) :
    ∀ i, i < s.numroots → s.roots.get i < s.sp := by
  intro i hi
  rw [h.numroots] at hi
  have : i = 0 := by omega
  subst this
  rw [h.root0, h.sp]
  omega

/-- The registry of the caller after `lst = new_cons(...)`. -/
theorem one_root.after {s s1 : gc} (h : one_root s) (p : ptr)
    (ht : s1.roottop = s.roottop) (hn : s1.numroots = s.numroots) (hsp : s1.sp = s.sp)
    (hr : ∀ i, i < s.numroots → s1.roots.get i = s.roots.get i)
    (hrs : ∀ j, j < s.roottop → s1.rootstack.get j = s.rootstack.get j) :
    one_root { s1 with stack := s1.stack.set 0 p } where
  roottop := by show s1.roottop = 1; rw [ht, h.roottop]
  numroots := by show s1.numroots = 1; rw [hn, h.numroots]
  root0 := by show s1.roots.get 0 = 0; rw [hr 0 (by rw [h.numroots]; omega), h.root0]
  rootstack0 := by
    show s1.rootstack.get 0 = 0
    rw [hrs 0 (by rw [h.roottop]; omega), h.rootstack0]
  sp := by show s1.sp = 1; rw [hsp, h.sp]

theorem gc.denotes_fun {g : gc} {p : ptr} {v w : sexp} (hv : g.denotes p v) :
    g.denotes p w → v = w := by
  induction hv generalizing w with
  | absent => intro hw; cases hw; rfl
  | atom hi hm =>
    intro hw
    cases hw with
    | atom _ hm2 => rw [hm] at hm2; cases hm2; rfl
    | pair _ hm2 _ _ => rw [hm] at hm2; cases hm2
  | pair hi hm _ _ iha ihd =>
    intro hw
    cases hw with
    | atom _ hm2 => rw [hm] at hm2; cases hm2
    | pair _ hm2 ha2 hd2 =>
      rw [hm] at hm2; cases hm2
      rw [iha ha2, ihd hd2]

theorem gc.obj_cell {g : gc} {i : Nat} (h : i < 2 * HEAPSIZE) :
    g.obj (.cell i) = .ok (g.mem.get i) := by
  simp [gc.obj, h]

theorem lisp_equal_denotes (g : gc) : ∀ (fuel : Nat) (a b : ptr) (va vb : sexp),
    g.denotes a va → g.denotes b vb → va.depth < fuel → vb.depth < fuel →
    lisp_equal g fuel a b = .ok (decide (va = vb)) := by
  intro fuel
  induction fuel with
  | zero => intro a b va vb _ _ h; omega
  | succ n ih =>
    intro a b va vb ha hb hfa hfb
    unfold lisp_equal
    by_cases hab : a = b
    · subst hab
      have := gc.denotes_fun ha hb
      simp [this]
    · rw [if_neg hab]
      cases ha with
      | absent =>
        cases hb with
        | absent => exact absurd rfl hab
        | atom _ _ => simp
        | pair _ _ _ _ => simp
      | atom hi hm =>
        cases hb with
        | absent => simp
        | atom hj hm2 =>
          simp [gc.obj_cell hi, gc.obj_cell hj, hm, hm2, Read.bind]
        | pair hj hm2 _ _ =>
          simp [gc.obj_cell hi, gc.obj_cell hj, hm, hm2, Read.bind]
      | @pair i a1 d1 va1 vd1 hi hm ha1 hd1 =>
        cases hb with
        | absent => simp
        | atom hj hm2 =>
          simp [gc.obj_cell hi, gc.obj_cell hj, hm, hm2, Read.bind]
        | @pair j a2 d2 va2 vd2 hj hm2 ha2 hd2 =>
          simp only [sexp.depth] at hfa hfb
          have e1 := ih _ _ _ _ ha1 ha2 (by omega) (by omega)
          have e2 := ih _ _ _ _ hd1 hd2 (by omega) (by omega)
          simp only [gc.obj_cell hi, gc.obj_cell hj, hm, hm2, Read.bind, e1, e2]
          by_cases h1 : va1 = va2 <;> by_cases h2 : vd1 = vd2 <;> simp [h1, h2]

/-- C12: on values built from absent, atoms and pairs, `lisp_equal` is
reflexive and symmetric, and it holds exactly when the two values are
structurally equal: both absent, both atoms with the same interned text, or
both pairs with equal heads and equal tails. -/
theorem C12_lisp_equal_structural (g : gc) (a b : ptr) (va vb : sexp) (fuel : Nat)
    (ha : g.denotes a va) (hb : g.denotes b vb)
    (hfa : va.depth < fuel) (hfb : vb.depth < fuel) :
    lisp_equal g fuel a a = .ok true ∧
    lisp_equal g fuel a b = lisp_equal g fuel b a ∧
    lisp_equal g fuel a b = .ok (decide (va = vb)) := by
  refine ⟨?_, ?_, lisp_equal_denotes g fuel a b va vb ha hb hfa hfb⟩
  · rw [lisp_equal_denotes g fuel a a va va ha ha hfa hfa]; simp
  · rw [lisp_equal_denotes g fuel a b va vb ha hb hfa hfb,
      lisp_equal_denotes g fuel b a vb va hb ha hfb hfa]
    by_cases h : va = vb
    · simp [h]
    · have h2 : ¬ vb = va := fun e => h e.symm
      simp [h, h2]

theorem sample_pairs_atom (i : Nat) (hi : i < 3) :
    sample_pairs.denotes (.cell i) (.atom i) := by
  have h3 : i = 0 ∨ i = 1 ∨ i = 2 := by omega
  rcases h3 with h | h | h <;> subst h <;>
    exact gc.denotes.atom (d := .null) (by decide) (by decide)

theorem sample_pairs_pair (i : Nat) (hi : i = 3 ∨ i = 4) :
    sample_pairs.denotes (.cell i) (.pair (.atom 0) (.atom 1)) := by
  rcases hi with h | h <;> subst h <;>
    exact gc.denotes.pair (a := .cell 0) (d := .cell 1) (by decide) (by decide)
      (sample_pairs_atom 0 (by decide)) (sample_pairs_atom 1 (by decide))

theorem sample_pairs_other :
    sample_pairs.denotes (.cell 5) (.pair (.atom 0) (.atom 2)) :=
  gc.denotes.pair (a := .cell 0) (d := .cell 2) (by decide) (by decide)
    (sample_pairs_atom 0 (by decide)) (sample_pairs_atom 2 (by decide))

/-- Two separately built pairs `(1 . 2)` are equal, and `(1 . 2)`, `(1 . 3)`
are not. -/
theorem C12_lisp_equal_structural_witness :
    (lisp_equal sample_pairs 2 (.cell 3) (.cell 3) = .ok true ∧
     lisp_equal sample_pairs 2 (.cell 3) (.cell 4) = lisp_equal sample_pairs 2 (.cell 4) (.cell 3) ∧
     lisp_equal sample_pairs 2 (.cell 3) (.cell 4) = .ok true) ∧
    lisp_equal sample_pairs 2 (.cell 3) (.cell 5) = .ok false :=
  ⟨C12_lisp_equal_structural sample_pairs (.cell 3) (.cell 4) _ _ 2
      (sample_pairs_pair 3 (Or.inl rfl)) (sample_pairs_pair 4 (Or.inr rfl))
      (by decide) (by decide),
   (C12_lisp_equal_structural sample_pairs (.cell 3) (.cell 5) _ _ 2
      (sample_pairs_pair 3 (Or.inl rfl)) sample_pairs_other (by decide) (by decide)).2.2⟩

/-! ## `isnumber` -/

theorem not_digit_iff (c : Char) : (c < '0' ∨ c > '9') ↔ ¬ is_digit c := by
  unfold is_digit
  constructor
  · rintro (h | h) ⟨h1, h2⟩
    · exact absurd h (not_lt.mpr h1)
    · exact absurd h (not_lt.mpr h2)
  · intro h
    by_cases h1 : c < '0'
    · exact Or.inl h1
    · right
      by_contra h2
      exact h ⟨not_lt.mp h1, not_lt.mp h2⟩

theorem isnumber_loop_iff (ds : List Char) :
    isnumber_loop ds = true ↔ ds ≠ [] ∧ ∀ c ∈ ds, is_digit c := by
  induction ds with
  | nil => simp [isnumber_loop]
  | cons c rest ih =>
    unfold isnumber_loop
    by_cases hc : is_digit c
    · rw [if_neg (by rw [not_digit_iff]; exact not_not.mpr hc)]
      cases rest with
      | nil => simp [hc]
      | cons d rest2 =>
        simp only [ih]
        simp [hc]
    · rw [if_pos ((not_digit_iff c).mpr hc)]
      simp [hc]

theorem isnumber_iff (cs : List Char) : isnumber cs = true ↔ is_literal cs := by
  unfold is_literal
  constructor
  · intro h
    cases cs with
    | nil => simp [isnumber, isnumber_loop] at h
    | cons c rest =>
      simp only [isnumber] at h
      by_cases hs : c = '-' ∨ c = '+'
      · rw [if_pos hs] at h
        obtain ⟨h1, h2⟩ := (isnumber_loop_iff rest).mp h
        refine ⟨[c], rest, rfl, ?_, h1, h2⟩
        rcases hs with hs | hs <;> simp [hs]
      · rw [if_neg hs] at h
        obtain ⟨h1, h2⟩ := (isnumber_loop_iff _).mp h
        exact ⟨[], c :: rest, rfl, Or.inl rfl, h1, h2⟩
  · rintro ⟨sign, digits, rfl, hs, hne, hd⟩
    cases digits with
    | nil => exact absurd rfl hne
    | cons d ds =>
      have hdd : is_digit d := hd d (List.mem_cons_self _ _)
      rcases hs with hs | hs | hs
      · subst hs
        have hn : ¬ (d = '-' ∨ d = '+') := by
          rintro (h | h) <;> subst h <;> revert hdd <;> decide
        simp only [List.nil_append, isnumber, if_neg hn]
        exact (isnumber_loop_iff _).mpr ⟨hne, hd⟩
      · subst hs
        have e : isnumber (['+'] ++ d :: ds) = isnumber_loop (d :: ds) := by simp [isnumber]
        rw [e]
        exact (isnumber_loop_iff _).mpr ⟨hne, hd⟩
      · subst hs
        have e : isnumber (['-'] ++ d :: ds) = isnumber_loop (d :: ds) := by simp [isnumber]
        rw [e]
        exact (isnumber_loop_iff _).mpr ⟨hne, hd⟩

theorem is_literal_digits (cs : List Char) (hne : cs ≠ []) (h : ∀ c ∈ cs, is_digit c) :
    is_literal cs :=
  ⟨[], cs, rfl, Or.inl rfl, hne, h⟩

/-! ## `atol` and the range of `long` -/

theorem wrap_long_eq (z : Int) : wrap_long z = z - 2 ^ 64 * ((z + 2 ^ 63) / 2 ^ 64) := by
  unfold wrap_long
  have := Int.emod_add_ediv (z + 2 ^ 63) (2 ^ 64)
  omega

theorem wrap_long_shift (z k : Int) : wrap_long (z + 2 ^ 64 * k) = wrap_long z := by
  unfold wrap_long
  have : z + 2 ^ 64 * k + 2 ^ 63 = (z + 2 ^ 63) + 2 ^ 64 * k := by ring
  rw [this, Int.add_mul_emod_self_left]

theorem wrap_long_of_in_long {z : Int} (h : in_long z) : wrap_long z = z := by
  unfold in_long at h
  unfold wrap_long
  omega

theorem wrap_long_idem (z : Int) : wrap_long (wrap_long z) = wrap_long z := by
  unfold wrap_long
  omega

theorem wrap_long_add_left (a b : Int) : wrap_long (wrap_long a + b) = wrap_long (a + b) := by
  rw [wrap_long_eq a]
  have := wrap_long_shift (a + b) (-((a + 2 ^ 63) / 2 ^ 64))
  rw [← this]
  congr 1
  ring

theorem wrap_long_sub_left (a b : Int) : wrap_long (wrap_long a - b) = wrap_long (a - b) := by
  rw [wrap_long_eq a]
  have := wrap_long_shift (a - b) (-((a + 2 ^ 63) / 2 ^ 64))
  rw [← this]
  congr 1
  ring

theorem wrap_long_mul_left (a b : Int) : wrap_long (wrap_long a * b) = wrap_long (a * b) := by
  rw [wrap_long_eq a]
  have := wrap_long_shift (a * b) (-((a + 2 ^ 63) / 2 ^ 64) * b)
  rw [← this]
  congr 1
  ring

theorem atol_digits_eq (ds : List Char) : ∀ acc : Nat, (∀ c ∈ ds, is_digit c) →
    atol_digits ds acc = ds.foldl (fun acc c => acc * 10 + (c.toNat - '0'.toNat)) acc := by
  induction ds with
  | nil => intro acc _; rfl
  | cons c rest ih =>
    intro acc h
    have hc : is_digit c := h c (List.mem_cons_self _ _)
    unfold atol_digits
    rw [if_pos (show '0' ≤ c ∧ c ≤ '9' from hc)]
    rw [ih _ (fun d hd => h d (List.mem_cons_of_mem _ hd))]
    rfl

theorem atol_skip_digit {c : Char} (rest : List Char) (h : isspace c = false) :
    atol_skip (c :: rest) = c :: rest := by
  simp [atol_skip, h]

theorem is_digit_not_space {c : Char} (h : is_digit c) : isspace c = false := by
  unfold is_digit at h
  have h1 : '0'.val ≤ c.val := h.1
  unfold isspace
  simp only [decide_eq_false_iff_not, not_or]
  have hv : (48 : Nat) ≤ c.toNat := by
    have := UInt32.le_def.mp h1
    simpa using this
  refine ⟨?_, ?_, ?_, ?_, ?_, ?_⟩
  · rintro rfl; revert hv; decide
  · rintro rfl; revert hv; decide
  · rintro rfl; revert hv; decide
  · omega
  · omega
  · rintro rfl; revert hv; decide

theorem atol_literal (cs : List Char) (h : is_literal cs) :
    atol cs = wrap_long (literal_value cs) := by
  obtain ⟨sign, digits, rfl, hs, hne, hd⟩ := h
  cases digits with
  | nil => exact absurd rfl hne
  | cons d ds =>
    have hdd : is_digit d := hd d (List.mem_cons_self _ _)
    rcases hs with hs | hs | hs
    · subst hs
      have h1 : d ≠ '-' := by rintro rfl; revert hdd; decide
      have h2 : d ≠ '+' := by rintro rfl; revert hdd; decide
      simp only [List.nil_append]
      unfold atol literal_value
      rw [atol_skip_digit _ (is_digit_not_space hdd)]
      split
      · rename_i heq; cases heq; exact absurd rfl h1
      · rename_i heq; cases heq; exact absurd rfl h2
      · try split
        all_goals first
          | (rename_i heq; cases heq; first | exact absurd rfl h1 | exact absurd rfl h2)
          | (rw [atol_digits_eq _ _ hd]; rfl)
    · subst hs
      simp only [List.singleton_append]
      unfold atol literal_value
      rw [atol_skip_digit _ (by decide)]
      simp only
      rw [atol_digits_eq _ _ hd]; rfl
    · subst hs
      simp only [List.singleton_append]
      unfold atol literal_value
      rw [atol_skip_digit _ (by decide)]
      simp only
      rw [atol_digits_eq _ _ hd]; rfl

/-! ## The integer builtins -/

theorem atol_text_atom {s : lisp} {j h : Nat} {txt : String} (hj : j < 2 * HEAPSIZE)
    (ht : (s.gc.mem.get j).tag = .T_ATOM) (hc : (s.gc.mem.get j).car = .text h)
    (hx : s.tab.text_at h = some txt) :
    atol_text s (.cell j) = .ok (atol txt.toList) := by
  simp [atol_text, TEXT, gc.obj_cell hj, Read.bind, ht, hc, cstr.chars, hx]

theorem num_args_head {s : lisp} {i : Nat} {vals : List Int}
    (h : s.num_args (.cell i) vals) :
    ∃ v rest, vals = v :: rest ∧ i < 2 * HEAPSIZE ∧
      atol_text s (s.gc.mem.get i).car = .ok v ∧ wrap_long v = v ∧
      s.num_args (s.gc.mem.get i).cdr rest := by
  cases h with
  | cons hi ho hcar hj ha htag hacar hx hlit hv hin hrest =>
    subst ho; subst ha
    refine ⟨_, _, rfl, hi, ?_, wrap_long_of_in_long hin, hrest⟩
    rw [hcar, atol_text_atom hj htag hacar hx, atol_literal _ hlit, hv,
      wrap_long_of_in_long hin]

theorem builtin_sum_loop_spec (s : lisp) : ∀ (fuel : Nat) (acc : Int) (args : ptr)
    (vals : List Int), s.num_args args vals → vals.length < fuel →
    builtin_sum_loop s fuel acc args =
      .ok (vals.foldl (fun a v => wrap_long (a + v)) acc) := by
  intro fuel
  induction fuel with
  | zero => intro _ _ _ _ h; omega
  | succ n ih =>
    intro acc args vals h hf
    unfold builtin_sum_loop
    cases args with
    | null => cases h; simp
    | cell i =>
      obtain ⟨v, rest, rfl, hi, hat, _, hrest⟩ := num_args_head h
      simp only [reduceCtorEq, if_false, gc.obj_cell hi, Read.bind, hat]
      rw [ih _ _ _ hrest (by simpa using hf)]
      rfl
    | fwd => cases h
    | text _ => cases h
    | func _ => cases h

theorem builtin_mul_loop_spec (s : lisp) : ∀ (fuel : Nat) (acc : Int) (args : ptr)
    (vals : List Int), s.num_args args vals → vals.length < fuel →
    builtin_mul_loop s fuel acc args =
      .ok (vals.foldl (fun a v => wrap_long (a * v)) acc) := by
  intro fuel
  induction fuel with
  | zero => intro _ _ _ _ h; omega
  | succ n ih =>
    intro acc args vals h hf
    unfold builtin_mul_loop
    cases args with
    | null => cases h; simp
    | cell i =>
      obtain ⟨v, rest, rfl, hi, hat, _, hrest⟩ := num_args_head h
      simp only [reduceCtorEq, if_false, gc.obj_cell hi, Read.bind, hat]
      rw [ih _ _ _ hrest (by simpa using hf)]
      rfl
    | fwd => cases h
    | text _ => cases h
    | func _ => cases h

theorem builtin_sub_loop_spec (s : lisp) : ∀ (fuel : Nat) (acc : Int) (args : ptr)
    (vals : List Int), s.num_args args vals → vals.length < fuel →
    builtin_sub_loop s fuel acc args =
      .ok (vals.foldl (fun a v => wrap_long (a - v)) acc) := by
  intro fuel
  induction fuel with
  | zero => intro _ _ _ _ h; omega
  | succ n ih =>
    intro acc args vals h hf
    unfold builtin_sub_loop
    cases args with
    | null => cases h; simp
    | cell i =>
      obtain ⟨v, rest, rfl, hi, hat, _, hrest⟩ := num_args_head h
      simp only [reduceCtorEq, if_false, gc.obj_cell hi, Read.bind, hat]
      rw [ih _ _ _ hrest (by simpa using hf)]
      rfl
    | fwd => cases h
    | text _ => cases h
    | func _ => cases h

theorem foldl_wrap_add (vals : List Int) : ∀ acc : Int, wrap_long acc = acc →
    vals.foldl (fun a v => wrap_long (a + v)) acc = wrap_long (acc + vals.sum) := by
  induction vals with
  | nil => intro acc h; simp [h]
  | cons v rest ih =>
    intro acc _
    simp only [List.foldl_cons, List.sum_cons]
    rw [ih _ (wrap_long_idem _), wrap_long_add_left, add_assoc]

theorem foldl_wrap_mul (vals : List Int) : ∀ acc : Int, wrap_long acc = acc →
    vals.foldl (fun a v => wrap_long (a * v)) acc = wrap_long (acc * vals.prod) := by
  induction vals with
  | nil => intro acc h; simp [h]
  | cons v rest ih =>
    intro acc _
    simp only [List.foldl_cons, List.prod_cons]
    rw [ih _ (wrap_long_idem _), wrap_long_mul_left, mul_assoc]

theorem foldl_sub_eq (vals : List Int) : ∀ acc : Int,
    vals.foldl (fun x y => x - y) acc = acc - vals.sum := by
  induction vals with
  | nil => intro acc; simp
  | cons v rest ih =>
    intro acc
    simp only [List.foldl_cons, List.sum_cons]
    rw [ih]; ring

theorem foldl_wrap_sub (vals : List Int) : ∀ acc : Int, wrap_long acc = acc →
    vals.foldl (fun a v => wrap_long (a - v)) acc =
      wrap_long (vals.foldl (fun x y => x - y) acc) := by
  induction vals with
  | nil => intro acc h; simp [h]
  | cons v rest ih =>
    intro acc _
    simp only [List.foldl_cons]
    rw [ih _ (wrap_long_idem _), foldl_sub_eq, foldl_sub_eq, wrap_long_sub_left]

/-- C13: on a list of atoms whose texts are integer literals in the range of
`long`, with the values `a1 .. ak`, `builtin_sum` makes the atom whose text
is the decimal rendering of `a1 + ... + ak`, `builtin_mul` the atom of
`a1 * ... * ak`, and `builtin_sub` the atom of `-a1` for `k = 1` and of
`a1 - a2 - ... - ak` for `k >= 2`, each reduced to the 64 bits of a `long`; so
`(+ 1 2 3)` is `6`, `(- 5)` is `-5`, `(- 10 3 2)` is `5` and `(* 2 3 4)` is
`24`. -/
theorem C13_integer_builtins (s : lisp) (args : ptr) (vals : List Int) (fuel : Nat)
    (h : s.num_args args vals) (hf : vals.length < fuel) :
    builtin_sum fuel args s = new_atom (ltoa (wrap_long vals.sum)) s ∧
    builtin_mul fuel args s = new_atom (ltoa (wrap_long vals.prod)) s ∧
    (vals ≠ [] → builtin_sub fuel args s = new_atom (ltoa (wrap_long (sub_fold vals))) s) ∧
    (ltoa (wrap_long ([] : List Int).sum) = "0" ∧ ltoa (wrap_long ([] : List Int).prod) = "1" ∧
      ltoa (wrap_long [1, 2, 3].sum) = "6" ∧ ltoa (wrap_long (sub_fold [5])) = "-5" ∧
      ltoa (wrap_long (sub_fold [10, 3, 2])) = "5" ∧ ltoa (wrap_long [2, 3, 4].prod) = "24") := by
  refine ⟨?_, ?_, ?_, by decide⟩
  · unfold builtin_sum
    rw [builtin_sum_loop_spec s fuel 0 args vals h hf, foldl_wrap_add _ _ (by decide)]
    simp [Read.run, new_number]
  · unfold builtin_mul
    rw [builtin_mul_loop_spec s fuel 1 args vals h hf, foldl_wrap_mul _ _ (by decide)]
    simp [Read.run, new_number]
  · intro hne
    unfold builtin_sub
    cases args with
    | null => cases h; exact absurd rfl hne
    | cell i =>
      obtain ⟨v, rest, rfl, hi, hat, hv, hrest⟩ := num_args_head h
      simp only [gc.obj_cell hi, Read.bind, hat]
      cases hd : (s.gc.mem.get i).cdr with
      | null =>
        rw [hd] at hrest
        cases hrest
        simp [Read.run, new_number, sub_fold]
      | cell k =>
        rw [hd] at hrest
        have hlen : rest.length < fuel := by simp at hf; omega
        rw [if_neg (by simp), builtin_sub_loop_spec s fuel v _ rest hrest hlen,
          foldl_wrap_sub _ _ hv]
        cases rest with
        | nil => cases hrest
        | cons w rest2 => simp [Read.run, new_number, sub_fold]
      | fwd => rw [hd] at hrest; cases hrest
      | text _ => rw [hd] at hrest; cases hrest
      | func _ => rw [hd] at hrest; cases hrest
    | fwd => cases h
    | text _ => cases h
    | func _ => cases h

theorem sample_numbers_args : sample_numbers.num_args (.cell 3) [10, 3, 2] := by
  refine @lisp.num_args.cons sample_numbers 3 0 0 _ _ "10" _ _ (by decide) rfl (by decide)
    (by decide) rfl (by decide) (by decide) (by decide)
    (is_literal_digits _ (by decide) (by decide)) (by decide) (by decide) ?_
  have e1 : (sample_numbers.gc.mem.get 3).cdr = .cell 4 := by decide
  rw [e1]
  refine @lisp.num_args.cons sample_numbers 4 1 1 _ _ "3" _ _ (by decide) rfl (by decide)
    (by decide) rfl (by decide) (by decide) (by decide)
    (is_literal_digits _ (by decide) (by decide)) (by decide) (by decide) ?_
  have e2 : (sample_numbers.gc.mem.get 4).cdr = .cell 5 := by decide
  rw [e2]
  refine @lisp.num_args.cons sample_numbers 5 2 2 _ _ "2" _ _ (by decide) rfl (by decide)
    (by decide) rfl (by decide) (by decide) (by decide)
    (is_literal_digits _ (by decide) (by decide)) (by decide) (by decide) ?_
  have e3 : (sample_numbers.gc.mem.get 5).cdr = .null := by decide
  rw [e3]
  exact lisp.num_args.nil

/-- The builtins on the list of the atoms `10`, `3`, `2`. -/
theorem C13_integer_builtins_witness :
    builtin_sum 4 (.cell 3) sample_numbers = new_atom "15" sample_numbers ∧
    builtin_mul 4 (.cell 3) sample_numbers = new_atom "60" sample_numbers ∧
    builtin_sub 4 (.cell 3) sample_numbers = new_atom "5" sample_numbers := by
  have h := C13_integer_builtins sample_numbers (.cell 3) [10, 3, 2] 4 sample_numbers_args
    (by decide)
  refine ⟨?_, ?_, ?_⟩
  · rw [h.1]; congr 1
  · rw [h.2.1]; congr 1
  · rw [h.2.2.1 (by simp)]; congr 1

theorem collected.in_copied {s s1 : gc} {f : Nat → Nat} {L : List Nat}
    (h : collected s s1 f L) {p : ptr} (hp : s.in_active p)
    (hr : ∀ b, p = .cell b → s.reachable b) : s1.in_copied (relocate f p) := by
  rcases hp with hp | ⟨b, hp, _, _⟩
  · subst hp; exact Or.inl rfl
  · subst hp
    exact Or.inr ⟨f b, rfl, h.range (hr b rfl)⟩

/-- C17: a collection that starts in a collectable state returns with the scan
cursor at the allocation cursor, the allocation cursor within the new active
semispace, and every registered root slot and every field of every pair or
closure cell below the allocation cursor null or the address of a cell of
the new active semispace below the allocation cursor: none addresses the old
semispace or the forwarding marker. -/
theorem C17_gc_collect_no_old_reference (s : gc) (hc : s.collectable) :
    ∃ s1, gc_collect s = .ret () s1 ∧
      s1.fromspace = s.tospace ∧ s1.tospace = s.fromspace ∧
      s1.scanptr = s1.allocptr ∧
      s1.fromspace ≤ s1.allocptr ∧ s1.allocptr ≤ s1.fromspace + HEAPSIZE ∧
      (∀ i, i < s1.numroots → s1.in_copied (s1.stack.get (s1.roots.get i))) ∧
      (∀ b, s1.fromspace ≤ b → b < s1.allocptr → (s1.mem.get b).tag.traced →
        s1.in_copied (s1.mem.get b).car ∧ s1.in_copied (s1.mem.get b).cdr) := by
  obtain ⟨s1, L, h1, hcol⟩ := gc_collect_collected s hc
  refine ⟨s1, h1, hcol.fromspace, hcol.tospace, hcol.scan, ?_, ?_, ?_, ?_⟩
  · rw [hcol.alloc]; omega
  · rw [hcol.alloc]
    have := length_le_of_nodup_range L s.fromspace HEAPSIZE hcol.nodup
      (fun a ha => reachable_in_active hc ((hcol.live a).mpr ha))
    omega
  · intro i hi
    rw [hcol.numroots] at hi
    rw [hcol.roots, hcol.slot i hi]
    exact hcol.in_copied (hc.roots i hi) (fun b hb => gc.reachable.root ⟨i, hi, hb⟩)
  · intro b hb1 hb2 ht
    obtain ⟨a, ha, rfl⟩ := hcol.surj hb1 hb2
    rw [hcol.tag a ha] at ht
    obtain ⟨e1, e2⟩ := hcol.traced a ha ht
    obtain ⟨f1, f2⟩ := hc.fields a ha ht
    rw [e1, e2]
    exact ⟨hcol.in_copied f1 (fun c hcc => gc.reachable.step ha ⟨ht, Or.inl hcc⟩),
      hcol.in_copied f2 (fun c hcc => gc.reachable.step ha ⟨ht, Or.inr hcc⟩)⟩

/-- C17, on the sample heap. -/
theorem C17_gc_collect_no_old_reference_witness :
    ∃ s1, gc_collect sample_heap = .ret () s1 ∧
      s1.fromspace = sample_heap.tospace ∧ s1.tospace = sample_heap.fromspace ∧
      s1.scanptr = s1.allocptr ∧
      s1.fromspace ≤ s1.allocptr ∧ s1.allocptr ≤ s1.fromspace + HEAPSIZE ∧
      (∀ i, i < s1.numroots → s1.in_copied (s1.stack.get (s1.roots.get i))) ∧
      (∀ b, s1.fromspace ≤ b → b < s1.allocptr → (s1.mem.get b).tag.traced →
        s1.in_copied (s1.mem.get b).car ∧ s1.in_copied (s1.mem.get b).cdr) :=
  C17_gc_collect_no_old_reference sample_heap sample_heap_collectable

/-! ## `read_token` -/

theorem advance_feed (s : lisp) (c : Char) (cs : List Char) :
    advance (s.feed (c :: cs)) = s.feed cs := by
  cases cs <;> rfl

theorem feed_feed (s : lisp) (a b : List Char) : (s.feed a).feed b = s.feed b := rfl

theorem feed_peek (s : lisp) (cs : List Char) : (s.feed cs).token_peek = cs.head? := rfl

theorem feed_input (s : lisp) (cs : List Char) : (s.feed cs).input = cs.tail := rfl

theorem feed_self (s : lisp) (c : Char) (h : s.token_peek = some c) :
    s.feed (c :: s.input) = s := by
  cases s
  simp only [lisp.feed, List.head?_cons, List.tail_cons]
  simp only at h
  rw [h]

theorem read_token_skip_spec (s : lisp) : ∀ (ws rest : List Char) (n : Nat),
    (∀ c ∈ ws, isspace c = true) → (∀ c, rest.head? = some c → isspace c = false) →
    ws.length ≤ n → read_token_skip n (s.feed (ws ++ rest)) = s.feed rest := by
  intro ws
  induction ws with
  | nil =>
    intro rest n _ hr _
    simp only [List.nil_append]
    cases n with
    | zero => rfl
    | succ m =>
      unfold read_token_skip
      cases rest with
      | nil => rfl
      | cons c r =>
        simp only [feed_peek, List.head?_cons]
        rw [hr c rfl]
        rfl
  | cons w ws ih =>
    intro rest n hw hr hn
    cases n with
    | zero => simp at hn
    | succ m =>
      unfold read_token_skip
      simp only [List.cons_append, feed_peek, List.head?_cons]
      rw [hw w (List.mem_cons_self _ _)]
      simp only [if_true]
      rw [advance_feed]
      exact ih rest m (fun c hc => hw c (List.mem_cons_of_mem _ hc)) hr (by simpa using hn)

theorem read_token_atom_spec (s : lisp) : ∀ (cs rest acc : List Char) (n : Nat),
    (∀ c ∈ cs, ATOMCHAR c = true) → (∀ c, rest.head? = some c → ATOMCHAR c = false) →
    cs.length < n → acc.length + cs.length ≤ TOKEN_MAX →
    read_token_atom n acc (s.feed (cs ++ rest)) = .ret (acc.reverse ++ cs) (s.feed rest) := by
  intro cs
  induction cs with
  | nil =>
    intro rest acc n _ hr hn _
    cases n with
    | zero => simp at hn
    | succ m =>
      unfold read_token_atom
      simp only [List.nil_append, List.append_nil]
      cases rest with
      | nil => rfl
      | cons c r =>
        simp only [feed_peek, List.head?_cons]
        rw [hr c rfl]
        rfl
  | cons c cs ih =>
    intro rest acc n hc hr hn hlen
    cases n with
    | zero => simp at hn
    | succ m =>
      unfold read_token_atom
      simp only [List.cons_append, feed_peek, List.head?_cons]
      rw [hc c (List.mem_cons_self _ _)]
      simp only [if_true]
      have hl : ¬ acc.length = TOKEN_MAX := by simp at hlen; omega
      rw [if_neg hl, advance_feed]
      rw [ih rest (c :: acc) m (fun d hd => hc d (List.mem_cons_of_mem _ hd)) hr
        (by simpa using hn) (by simp at hlen ⊢; omega)]
      simp

theorem read_token_atom_abort (s : lisp) : ∀ (cs rest acc : List Char) (n : Nat),
    (∀ c ∈ cs, ATOMCHAR c = true) →
    cs.length ≤ n → acc.length ≤ TOKEN_MAX → TOKEN_MAX < acc.length + cs.length →
    read_token_atom n acc (s.feed (cs ++ rest)) = .fatal "abort" := by
  intro cs
  induction cs with
  | nil => intro rest acc n _ _ h1 h2; simp at h2; omega
  | cons c cs ih =>
    intro rest acc n hc hn h1 h2
    cases n with
    | zero => simp at hn
    | succ m =>
      unfold read_token_atom
      simp only [List.cons_append, feed_peek, List.head?_cons]
      rw [hc c (List.mem_cons_self _ _)]
      simp only [if_true]
      by_cases hl : acc.length = TOKEN_MAX
      · rw [if_pos hl]
      · rw [if_neg hl, advance_feed]
        exact ih rest (c :: acc) m (fun d hd => hc d (List.mem_cons_of_mem _ hd))
          (by simpa using hn) (by simp; omega) (by simp at h2 ⊢; omega)

theorem atomchar_not_space {c : Char} (h : ATOMCHAR c = true) : isspace c = false := by
  unfold ATOMCHAR at h
  simp only [decide_eq_true_eq] at h
  have hv : (33 : Nat) ≤ c.toNat := by
    rcases h with ⟨h1, _⟩ | ⟨h1, _⟩
    · have := UInt32.le_def.mp (show '!'.val ≤ c.val from h1)
      simpa using this
    · have := UInt32.le_def.mp (show '*'.val ≤ c.val from h1)
      have h2 : (42 : Nat) ≤ c.toNat := by simpa using this
      omega
  unfold isspace
  simp only [decide_eq_false_iff_not, not_or]
  refine ⟨?_, ?_, ?_, ?_, ?_, ?_⟩
  · rintro rfl; revert hv; decide
  · rintro rfl; revert hv; decide
  · rintro rfl; revert hv; decide
  · omega
  · omega
  · rintro rfl; revert hv; decide

theorem atomchar_not_paren {c : Char} (h : ATOMCHAR c = true) : ¬ (c = '(' ∨ c = ')') := by
  rintro (rfl | rfl) <;> revert h <;> decide

/-- What `read_token` does with an atom token: white space `ws`, the atom
characters `cs`, and a character `d` that ends the token. -/
theorem read_token_atom_token (s : lisp) (ws cs : List Char) (d : Char) (rest : List Char)
    (hw : ∀ c ∈ ws, isspace c = true) (hc : ∀ c ∈ cs, ATOMCHAR c = true) (hne : cs ≠ [])
    (hd : ATOMCHAR d = false) :
    read_token (s.feed (ws ++ (cs ++ d :: rest))) =
      if cs.length < TOKEN_MAX then
        .ret (String.mk cs) (intern_str (String.mk cs) (s.feed (d :: rest))).2
      else if cs.length = TOKEN_MAX then .undefined
      else .fatal "abort" := by
  obtain ⟨c, cs1, rfl⟩ := List.exists_cons_of_ne_nil hne
  have hca : ATOMCHAR c = true := hc c (List.mem_cons_self _ _)
  unfold read_token
  have hskip := read_token_skip_spec s ws (c :: cs1 ++ d :: rest)
    ((s.feed (ws ++ (c :: cs1 ++ d :: rest))).input.length + 1) hw
    (by intro x hx; simp at hx; subst hx; exact atomchar_not_space hca)
    (by simp [feed_input]; omega)
  simp only [hskip]
  simp only [List.cons_append, feed_peek, List.head?_cons]
  rw [if_neg (atomchar_not_paren hca)]
  by_cases hlen : (c :: cs1).length ≤ TOKEN_MAX
  · have h1 := read_token_atom_spec s (c :: cs1) (d :: rest) []
      ((s.feed (c :: (cs1 ++ d :: rest))).input.length + 2) hc
      (by intro x hx; simp at hx; subst hx; exact hd)
      (by simp [feed_input]; omega) (by simpa using hlen)
    simp only [List.cons_append] at h1
    rw [h1]
    simp only [Res.bind, List.reverse_nil, List.nil_append, feed_peek, List.head?_cons,
      reduceCtorEq, if_false]
    by_cases h2 : (c :: cs1).length < TOKEN_MAX
    · rw [if_pos h2, if_pos h2]
    · rw [if_neg h2, if_neg h2, if_pos (by omega)]
  · have h1 := read_token_atom_abort s (c :: cs1) (d :: rest) []
      ((s.feed (c :: (cs1 ++ d :: rest))).input.length + 2) hc
      (by simp [feed_input]; omega) (by simp) (by simp at hlen ⊢; omega)
    simp only [List.cons_append] at h1
    rw [h1]
    simp only [Res.bind]
    rw [if_neg (by omega), if_neg (by omega)]

/-- What `read_token` does with a parenthesis that another character follows. -/
theorem read_token_paren (s : lisp) (ws : List Char) (p d : Char) (rest : List Char)
    (hw : ∀ c ∈ ws, isspace c = true) (hp : p = '(' ∨ p = ')') :
    read_token (s.feed (ws ++ p :: d :: rest)) =
      .ret (String.mk [p]) (intern_str (String.mk [p]) (s.feed (d :: rest))).2 := by
  unfold read_token
  have hskip := read_token_skip_spec s ws (p :: d :: rest)
    ((s.feed (ws ++ p :: d :: rest)).input.length + 1) hw
    (by intro x hx; simp at hx; subst hx; rcases hp with rfl | rfl <;> decide)
    (by simp [feed_input]; omega)
  simp only [hskip]
  simp only [feed_peek, List.head?_cons]
  rw [if_pos hp, advance_feed]
  simp only [Res.bind, feed_peek, List.head?_cons, reduceCtorEq, if_false]
  rw [if_pos (by simp [TOKEN_MAX])]

theorem long_token_atomchar (n : Nat) : ∀ c ∈ long_token n, ATOMCHAR c = true := by
  intro c hc
  rw [List.eq_of_mem_replicate hc]
  decide

theorem long_token_length (n : Nat) : (long_token n).length = n := List.length_replicate _ _

theorem long_token_ne_nil (n : Nat) (h : 0 < n) : long_token n ≠ [] := by
  intro e
  have := congrArg List.length e
  rw [long_token_length] at this
  rw [this] at h
  exact absurd h (by decide)

/-- C19: `read_token` checks the index before it stores a character of the
token, but not before it stores the terminating NUL. For white space, then
the atom characters `cs`, then a character that ends the token: with fewer
than `TOKEN_MAX` characters the token is returned; with more the process
aborts before the store of the character at index `TOKEN_MAX`; with exactly
`TOKEN_MAX` characters no check fails and the NUL is stored at index
`TOKEN_MAX`, outside `token_text`. -/
theorem C19_read_token_terminator_overrun (s : lisp) (ws cs : List Char) (d : Char)
    (rest : List Char) (hw : ∀ c ∈ ws, isspace c = true) (hc : ∀ c ∈ cs, ATOMCHAR c = true)
    (hne : cs ≠ []) (hd : ATOMCHAR d = false) :
    (cs.length < TOKEN_MAX →
      read_token (s.feed (ws ++ (cs ++ d :: rest))) =
        .ret (String.mk cs) (intern_str (String.mk cs) (s.feed (d :: rest))).2) ∧
    (cs.length = TOKEN_MAX →
      read_token (s.feed (ws ++ (cs ++ d :: rest))) = .undefined) ∧
    (TOKEN_MAX < cs.length →
      read_token (s.feed (ws ++ (cs ++ d :: rest))) = .fatal "abort") := by
  have h := read_token_atom_token s ws cs d rest hw hc hne hd
  refine ⟨fun h1 => ?_, fun h1 => ?_, fun h1 => ?_⟩
  · rw [h, if_pos h1]
  · rw [h, if_neg (by omega), if_pos h1]
  · rw [h, if_neg (by omega), if_neg (by omega)]

/-- A token of 256 letters that a blank follows: the NUL goes to index 256. -/
theorem C19_read_token_terminator_overrun_witness :
    read_token ((lisp.start []).feed ([] ++ (long_token 256 ++ ' ' :: []))) = .undefined :=
  (C19_read_token_terminator_overrun (lisp.start []) [] (long_token 256) ' ' []
    (by simp) (long_token_atomchar 256) (long_token_ne_nil 256 (by decide)) (by decide)).2.1
    (long_token_length 256)

/-! ## `list_reverse` -/

theorem gc.cdr_cell {g : gc} {i : Nat} (h : i < 2 * HEAPSIZE) :
    g.cdr (.cell i) = .ok (g.mem.get i).cdr := by
  simp [gc.cdr, gc.obj_cell h, Read.bind]

theorem gc.car_cell {g : gc} {i : Nat} (h : i < 2 * HEAPSIZE) :
    g.car (.cell i) = .ok (g.mem.get i).car := by
  simp [gc.car, gc.obj_cell h, Read.bind]

theorem lt_ARRCAP_of_cell {i : Nat} (h : i < 2 * HEAPSIZE) : i < ARRCAP :=
  Nat.lt_of_lt_of_le h two_HEAPSIZE_le_ARRCAP

theorem first_cell_reverse (cells : List Nat) :
    first_cell cells.reverse = match cells.getLast? with
      | some k => .cell k
      | none => .null := by
  cases h : cells.reverse with
  | nil =>
    have : cells = [] := by simpa using h
    subst this; rfl
  | cons k r =>
    have : cells = r.reverse ++ [k] := by
      have := congrArg List.reverse h
      simpa using this
    subst this
    simp [first_cell]

theorem Read.bind_eq_ok {α β : Type} {r : Read α} {f : α → Read β} {b : β}
    (h : r.bind f = .ok b) : ∃ a, r = .ok a ∧ f a = .ok b := by
  cases r with
  | ok a => exact ⟨a, rfl, h⟩
  | undefined => cases h
  | timeout => cases h

theorem gc.obj_eq_ok {g : gc} {p : ptr} {o : object} (h : g.obj p = .ok o) :
    ∃ i, p = .cell i ∧ i < 2 * HEAPSIZE ∧ o = g.mem.get i := by
  cases p with
  | cell i =>
    by_cases hi : i < 2 * HEAPSIZE
    · rw [gc.obj_cell hi] at h
      cases h
      exact ⟨i, rfl, hi, rfl⟩
    · simp [gc.obj, hi] at h
  | null => cases h
  | fwd => cases h
  | text _ => cases h
  | func _ => cases h

theorem gc.obj_congr {g g1 : gc} (h : g1.mem = g.mem) (p : ptr) : g1.obj p = g.obj p := by
  cases p <;> simp [gc.obj, h]

theorem gc.car_congr {g g1 : gc} (h : g1.mem = g.mem) (p : ptr) : g1.car p = g.car p := by
  simp [gc.car, gc.obj_congr h]

theorem gc.cdr_congr {g g1 : gc} (h : g1.mem = g.mem) (p : ptr) : g1.cdr p = g.cdr p := by
  simp [gc.cdr, gc.obj_congr h]

theorem lisp_equal_congr {g g1 : gc} (h : g1.mem = g.mem) :
    ∀ (n : Nat) (a b : ptr), lisp_equal g1 n a b = lisp_equal g n a b := by
  intro n
  induction n with
  | zero => intro a b; rfl
  | succ n ih =>
    intro a b
    unfold lisp_equal
    simp only [gc.obj_congr h, ih]

theorem list_find_pair_congr {g g1 : gc} (h : g1.mem = g.mem) :
    ∀ (n : Nat) (a b : ptr), list_find_pair g1 n a b = list_find_pair g n a b := by
  intro n
  induction n with
  | zero => intro a b; rfl
  | succ n ih =>
    intro a b
    unfold list_find_pair
    simp only [gc.obj_congr h, gc.car_congr h, lisp_equal_congr h, ih]

theorem env_lookup_congr {g g1 : gc} (h : g1.mem = g.mem) :
    ∀ (n : Nat) (a b : ptr), env_lookup g1 n a b = env_lookup g n a b := by
  intro n
  induction n with
  | zero => intro a b; rfl
  | succ n ih =>
    intro a b
    unfold env_lookup
    simp only [gc.obj_congr h, gc.cdr_congr h, list_find_pair_congr h, ih]

/-! ## Reads that start in a stable set of cells -/

theorem ptr.within_null (R : Nat → Prop) : ptr.within R .null := by
  intro c h; cases h

theorem gc.stable.obj {g g1 : gc} {R : Nat → Prop} (hs : g.stable g1 R) {p : ptr}
    (hp : ptr.within R p) {o : object} (h : g.obj p = .ok o) :
    g1.obj p = .ok o ∧ ptr.within R o.car ∧ ptr.within R o.cdr := by
  obtain ⟨i, rfl, hi, rfl⟩ := gc.obj_eq_ok h
  have hR := hp i rfl
  rw [gc.obj_cell hi, hs.same i hR]
  exact ⟨rfl, hs.closed i hR⟩

theorem gc.stable.refl (g : gc) : g.stable g (fun _ => True) :=
  ⟨fun _ _ => ⟨fun _ _ => trivial, fun _ _ => trivial⟩, fun _ _ => rfl⟩

theorem lisp_equal_stable {g g1 : gc} {R : Nat → Prop} (hs : g.stable g1 R) :
    ∀ (n m : Nat) (a b : ptr) (r : Bool), ptr.within R a → ptr.within R b →
    lisp_equal g n a b = .ok r → n ≤ m → lisp_equal g1 m a b = .ok r := by
  intro n
  induction n with
  | zero => intro m a b r _ _ h; cases h
  | succ n ih =>
    intro m a b r ha hb h hm
    obtain ⟨m, rfl⟩ : ∃ k, m = k + 1 := ⟨m - 1, by omega⟩
    unfold lisp_equal at h ⊢
    by_cases hab : a = b
    · rw [if_pos hab] at h ⊢; exact h
    · rw [if_neg hab] at h ⊢
      by_cases hn : a = .null ∨ b = .null
      · rw [if_pos hn] at h ⊢; exact h
      · rw [if_neg hn] at h ⊢
        obtain ⟨oa, e1, h⟩ := Read.bind_eq_ok h
        obtain ⟨ob, e2, h⟩ := Read.bind_eq_ok h
        obtain ⟨f1, wa1, wa2⟩ := hs.obj ha e1
        obtain ⟨f2, wb1, wb2⟩ := hs.obj hb e2
        rw [f1, f2]
        simp only [Read.bind]
        by_cases ht : oa.tag ≠ ob.tag
        · rw [if_pos ht] at h ⊢; exact h
        · rw [if_neg ht] at h ⊢
          by_cases hc : oa.tag ≠ .T_CONS
          · rw [if_pos hc] at h ⊢; exact h
          · rw [if_neg hc] at h ⊢
            obtain ⟨r1, e3, h⟩ := Read.bind_eq_ok h
            rw [ih m _ _ r1 wa1 wb1 e3 (by omega)]
            simp only [Read.bind]
            cases r1 with
            | true =>
              simp only [if_true] at h ⊢
              exact ih m _ _ r wa2 wb2 h (by omega)
            | false => exact h

theorem list_find_pair_stable {g g1 : gc} {R : Nat → Prop} (hs : g.stable g1 R) :
    ∀ (n m : Nat) (a b r : ptr), ptr.within R a → ptr.within R b →
    list_find_pair g n a b = .ok r → n ≤ m →
    list_find_pair g1 m a b = .ok r ∧ ptr.within R r := by
  intro n
  induction n with
  | zero => intro m a b r _ _ h; cases h
  | succ n ih =>
    intro m a b r ha hb h hm
    obtain ⟨m, rfl⟩ : ∃ k, m = k + 1 := ⟨m - 1, by omega⟩
    unfold list_find_pair at h ⊢
    by_cases hn : b = .null
    · rw [if_pos hn] at h ⊢
      cases h
      exact ⟨rfl, ptr.within_null R⟩
    · rw [if_neg hn] at h ⊢
      obtain ⟨o, e1, h⟩ := Read.bind_eq_ok h
      obtain ⟨f1, w1, w2⟩ := hs.obj hb e1
      rw [f1]
      simp only [Read.bind]
      by_cases hc : o.car = .null
      · rw [if_pos hc] at h ⊢
        exact ih m _ _ r ha w2 h (by omega)
      · rw [if_neg hc] at h ⊢
        obtain ⟨key, e2, h⟩ := Read.bind_eq_ok h
        obtain ⟨po, e3, e4⟩ := Read.bind_eq_ok e2
        obtain ⟨f3, w3, _⟩ := hs.obj w1 e3
        cases e4
        obtain ⟨rb, e5, h⟩ := Read.bind_eq_ok h
        have f5 := lisp_equal_stable hs n m a po.car rb ha w3 e5 (by omega)
        simp only [gc.car, f3, Read.bind, f5]
        cases rb with
        | true =>
          simp only [if_true] at h ⊢
          cases h
          exact ⟨rfl, w1⟩
        | false =>
          simp only [Bool.false_eq_true, if_false] at h ⊢
          exact ih m _ _ r ha w2 h (by omega)

theorem env_lookup_stable {g g1 : gc} {R : Nat → Prop} (hs : g.stable g1 R) :
    ∀ (n m : Nat) (a b r : ptr), ptr.within R a → ptr.within R b →
    env_lookup g n a b = .ok r → n ≤ m →
    env_lookup g1 m a b = .ok r ∧ ptr.within R r := by
  intro n
  induction n with
  | zero => intro m a b r _ _ h; cases h
  | succ n ih =>
    intro m a b r ha hb h hm
    obtain ⟨m, rfl⟩ : ∃ k, m = k + 1 := ⟨m - 1, by omega⟩
    unfold env_lookup at h ⊢
    by_cases hn : b = .null
    · rw [if_pos hn] at h ⊢
      cases h
      exact ⟨rfl, ptr.within_null R⟩
    · rw [if_neg hn] at h ⊢
      obtain ⟨o, e1, h⟩ := Read.bind_eq_ok h
      obtain ⟨f1, w1, w2⟩ := hs.obj hb e1
      obtain ⟨pair, e2, h⟩ := Read.bind_eq_ok h
      obtain ⟨f2, w3⟩ := list_find_pair_stable hs n m a o.car pair ha w1 e2 (by omega)
      rw [f1]
      simp only [Read.bind, f2]
      by_cases hp : pair ≠ .null
      · rw [if_pos hp] at h ⊢
        obtain ⟨po, e3, e4⟩ := Read.bind_eq_ok h
        obtain ⟨f3, _, w5⟩ := hs.obj w3 e3
        cases e4
        simp only [gc.cdr, f3, Read.bind]
        exact ⟨trivial, w5⟩
      · rw [if_neg hp] at h ⊢
        exact ih m _ _ r ha w2 h (by omega)

/-! ## A name that no frame binds -/

theorem list_find_pair_unbound (g : gc) (k : ptr) : ∀ (p : ptr) (kvs : List (ptr × ptr)),
    g.is_alist p kvs → (∀ kv ∈ kvs, g.differs k kv.1) →
    ∃ n0, ∀ n, n0 ≤ n → list_find_pair g n k p = .ok .null := by
  intro p kvs h
  induction h with
  | nil => intro _; exact ⟨1, fun n hn => by
      obtain ⟨n, rfl⟩ : ∃ k, n = k + 1 := ⟨n - 1, by omega⟩
      simp [list_find_pair]⟩
  | skip hi hcar _ ih =>
    intro hk
    obtain ⟨n0, hn0⟩ := ih hk
    refine ⟨n0 + 1, fun n hn => ?_⟩
    obtain ⟨n, rfl⟩ : ∃ k, n = k + 1 := ⟨n - 1, by omega⟩
    unfold list_find_pair
    simp only [reduceCtorEq, if_false, gc.obj_cell hi, Read.bind, hcar, if_true]
    exact hn0 n (by omega)
  | @cons i j kvs hi hcar hj _ ih =>
    intro hk
    obtain ⟨n0, hn0⟩ := ih (fun kv hkv => hk kv (List.mem_cons_of_mem _ hkv))
    obtain ⟨n1, hn1⟩ := hk _ (List.mem_cons_self _ _)
    refine ⟨max n0 n1 + 1, fun n hn => ?_⟩
    obtain ⟨n, rfl⟩ : ∃ k, n = k + 1 := ⟨n - 1, by omega⟩
    unfold list_find_pair
    simp only [reduceCtorEq, if_false, gc.obj_cell hi, Read.bind, hcar, gc.car_cell hj]
    rw [lisp_equal_stable (gc.stable.refl g) n1 n k _ false (fun _ _ => trivial)
      (fun _ _ => trivial) hn1 (by omega)]
    simp only [Bool.false_eq_true, if_false]
    exact hn0 n (by omega)

theorem env_lookup_unbound (g : gc) (k : ptr) : ∀ (env : ptr) (frames : List (List (ptr × ptr))),
    g.is_env env frames → unbound g k frames →
    ∃ n0, ∀ n, n0 ≤ n → env_lookup g n k env = .ok .null := by
  intro env frames h
  induction h with
  | nil => intro _; exact ⟨1, fun n hn => by
      obtain ⟨n, rfl⟩ : ∃ k, n = k + 1 := ⟨n - 1, by omega⟩
      simp [env_lookup]⟩
  | @cons i kvs frames hi hal _ ih =>
    intro hk
    obtain ⟨n0, hn0⟩ := ih (fun f hf => hk f (List.mem_cons_of_mem _ hf))
    obtain ⟨n1, hn1⟩ := list_find_pair_unbound g k _ kvs hal (hk kvs (List.mem_cons_self _ _))
    refine ⟨max n0 n1 + 1, fun n hn => ?_⟩
    obtain ⟨n, rfl⟩ : ∃ k, n = k + 1 := ⟨n - 1, by omega⟩
    unfold env_lookup
    simp only [reduceCtorEq, if_false, gc.obj_cell hi, Read.bind, hn1 n (by omega)]
    simp only [ne_eq, not_true_eq_false, if_false]
    exact hn0 n (by omega)

/-! ## Evaluation of an atom -/

theorem lift_ret {α : Type} {f : gc → Res gc α} {s : lisp} {a : α} {g : gc}
    (h : f s.gc = .ret a g) : lift f s = .ret a { s with gc := g } := by
  simp [lift, h]

theorem lift_enter (vals : List ptr) (s : lisp) (h : s.gc.sp + vals.length ≤ STACKCAP) :
    lift (enter vals) s = .ret s.gc.sp { s with gc := entered vals s.gc } :=
  lift_ret (enter_spec vals s.gc h)

theorem entered_get (vals : List ptr) (g : gc) (k : Nat) (hk : k < vals.length)
    (h : g.sp + vals.length ≤ STACKCAP) :
    (entered vals g).stack.get (g.sp + k) = vals.getD k .null :=
  Arr.get_write_in vals g.stack g.sp k hk h

theorem TEXT_atom {g : gc} {i h : Nat} (hi : i < 2 * HEAPSIZE)
    (ht : (g.mem.get i).tag = .T_ATOM) (hc : (g.mem.get i).car = .text h) :
    TEXT g (.cell i) = .ok (.interned h) := by
  simp [TEXT, gc.obj_cell hi, Read.bind, ht, hc]

theorem eval_restart_atom (s : lisp) (fuel b i h : Nat) (txt : String)
    (hb : s.lget b = .cell i) (hi : i < 2 * HEAPSIZE)
    (htag : (s.gc.mem.get i).tag = .T_ATOM) (hcar : (s.gc.mem.get i).car = .text h)
    (htxt : s.tab.text_at h = some txt) :
    eval_restart (fuel + 1) b s =
      if isnumber txt.toList then .ret (.cell i) s
      else (env_lookup s.gc fuel (.cell i) (s.lget (b + 1))).run fun v => .ret v s := by
  unfold eval_restart
  simp only [hb, reduceCtorEq, if_false, gc.obj_cell hi, Read.run, htag, if_true,
    TEXT_atom hi htag hcar, cstr.chars, htxt]

theorem Res.bind_ret {σ α β : Type} (a : α) (s : σ) (f : α → σ → Res σ β) :
    (Res.ret a s).bind f = f a s := rfl

theorem eval_frame_length (expr env : ptr) : (eval_frame expr env).length = EVAL_FRAME := by
  simp [eval_frame, EVAL_FRAME]

theorem lisp_eval_atom (s : lisp) (fuel i h : Nat) (txt : String) (env : ptr)
    (hi : i < 2 * HEAPSIZE) (htag : (s.gc.mem.get i).tag = .T_ATOM)
    (hcar : (s.gc.mem.get i).car = .text h) (htxt : s.tab.text_at h = some txt)
    (hsp : s.gc.sp + EVAL_FRAME ≤ STACKCAP) :
    lisp_eval (fuel + 1) (.cell i) env s =
      if isnumber txt.toList then .ret (.cell i) (s.returned (eval_frame (.cell i) env))
      else (env_lookup s.gc fuel (.cell i) env).run fun v =>
        .ret v (s.returned (eval_frame (.cell i) env)) := by
  have hlen := eval_frame_length (.cell i) env
  have hcap : s.gc.sp + (eval_frame (.cell i) env).length ≤ STACKCAP := by rw [hlen]; exact hsp
  have he := lift_enter (eval_frame (.cell i) env) s hcap
  have h0 : lisp.lget { s with gc := entered (eval_frame (.cell i) env) s.gc } s.gc.sp
      = .cell i :=
    entered_get _ s.gc 0 (by rw [hlen]; decide) hcap
  have h1 : lisp.lget { s with gc := entered (eval_frame (.cell i) env) s.gc } (s.gc.sp + 1)
      = env :=
    entered_get _ s.gc 1 (by rw [hlen]; decide) hcap
  have hr := eval_restart_atom { s with gc := entered (eval_frame (.cell i) env) s.gc } fuel
    s.gc.sp i h txt h0 hi htag hcar htxt
  rw [h1] at hr
  have hm : (entered (eval_frame (.cell i) env) s.gc).mem = s.gc.mem := rfl
  simp only [env_lookup_congr hm] at hr
  show (lift (enter (eval_frame (.cell i) env)) s).bind _ = _
  rw [he, Res.bind_ret, hr]
  by_cases hn : isnumber txt.toList = true
  · simp only [hn, if_true]
    rfl
  · simp only [hn, Bool.false_eq_true, if_false]
    cases env_lookup s.gc fuel (.cell i) env <;> rfl

/-- C14: `isnumber` accepts exactly the integer literals, so not the empty
text, a lone sign, or `12a`; `lisp_eval` of an atom whose text is one returns
that atom, whatever the environment binds; of another atom it returns what
`env_lookup` finds, which is absent when no frame binds the name. -/
theorem C14_atom_evaluation (s : lisp) (fuel i h : Nat) (txt : String) (env : ptr)
    (hi : i < 2 * HEAPSIZE) (htag : (s.gc.mem.get i).tag = .T_ATOM)
    (hcar : (s.gc.mem.get i).car = .text h) (htxt : s.tab.text_at h = some txt)
    (hsp : s.gc.sp + EVAL_FRAME ≤ STACKCAP) :
    (∀ cs, isnumber cs = true ↔ is_literal cs) ∧
    (isnumber "".toList = false ∧ isnumber "-".toList = false ∧
      isnumber "+".toList = false ∧ isnumber "12a".toList = false) ∧
    (is_literal txt.toList →
      lisp_eval (fuel + 1) (.cell i) env s =
        .ret (.cell i) (s.returned (eval_frame (.cell i) env))) ∧
    (¬ is_literal txt.toList →
      lisp_eval (fuel + 1) (.cell i) env s =
        (env_lookup s.gc fuel (.cell i) env).run fun v =>
          .ret v (s.returned (eval_frame (.cell i) env))) ∧
    (∀ frames, s.gc.is_env env frames → unbound s.gc (.cell i) frames →
      ∃ n0, ∀ n, n0 ≤ n → env_lookup s.gc n (.cell i) env = .ok .null) := by
  refine ⟨isnumber_iff, by decide, fun hl => ?_, fun hl => ?_,
    fun frames he hu => env_lookup_unbound s.gc _ env frames he hu⟩
  · rw [lisp_eval_atom s fuel i h txt env hi htag hcar htxt hsp,
      if_pos ((isnumber_iff _).mpr hl)]
  · rw [lisp_eval_atom s fuel i h txt env hi htag hcar htxt hsp,
      if_neg (fun e => hl ((isnumber_iff _).mp e))]

theorem sample_env_is_env :
    sample_env.gc.is_env (.cell 4) [[(.cell 0, .cell 1)]] := by
  refine gc.is_env.cons (by decide) ?_ ?_
  · have e : (sample_env.gc.mem.get 4).car = .cell 3 := by decide
    rw [e]
    have h := @gc.is_alist.cons sample_env.gc 3 2 [] (by decide) (by decide) (by decide) (by
      have e2 : (sample_env.gc.mem.get 3).cdr = .null := by decide
      rw [e2]; exact gc.is_alist.nil)
    exact h
  · have e : (sample_env.gc.mem.get 4).cdr = .null := by decide
    rw [e]; exact gc.is_env.nil

/-- In the sample environment the atom `7` evaluates to itself, the atom `x`
to what it is bound to, and the atom `y`, which no frame binds, to absent. -/
theorem C14_atom_evaluation_witness :
    lisp_eval 4 (.cell 1) (.cell 4) sample_env =
      .ret (.cell 1) (sample_env.returned (eval_frame (.cell 1) (.cell 4))) ∧
    lisp_eval 4 (.cell 0) (.cell 4) sample_env =
      .ret (.cell 1) (sample_env.returned (eval_frame (.cell 0) (.cell 4))) ∧
    (∃ n0, ∀ n, n0 ≤ n → env_lookup sample_env.gc n (.cell 5) (.cell 4) = .ok .null) := by
  refine ⟨?_, ?_, ?_⟩
  · exact (C14_atom_evaluation sample_env 3 1 1 "7" (.cell 4) (by decide) (by decide)
      (by decide) (by decide) (by decide)).2.2.1 (is_literal_digits _ (by decide) (by decide))
  · rw [(C14_atom_evaluation sample_env 3 0 0 "x" (.cell 4) (by decide) (by decide)
      (by decide) (by decide) (by decide)).2.2.2.1
      (fun hl => absurd ((isnumber_iff _).mpr hl) (by decide))]
    rfl
  · refine (C14_atom_evaluation sample_env 3 5 2 "y" (.cell 4) (by decide) (by decide)
      (by decide) (by decide) (by decide)).2.2.2.2 _ sample_env_is_env ?_
    intro kvs hk kv hkv
    simp only [List.mem_singleton] at hk
    subst hk
    simp only [List.mem_singleton] at hkv
    subst hkv
    exact ⟨1, by decide⟩

/-! ## `env_set` -/

theorem getD_five (a b c d e : Nat) (k : Nat) (hk : k < 5) :
    [a, b, c, d, e].getD k 0 = if k = 0 then a else if k = 1 then b else if k = 2 then c
      else if k = 3 then d else e := by
  have : k = 0 ∨ k = 1 ∨ k = 2 ∨ k = 3 ∨ k = 4 := by omega
  rcases this with h | h | h | h | h <;> subst h <;> rfl

/-- What `env_set` does when the active semispace has room for its two
pairs: the new pair of the key and the value is in the cell at `allocptr`,
the new head of the association list in the next cell, and the `car` of the
environment cell addresses it; nothing else changes. -/
theorem env_set_room (g : gc) (i : Nat) (key value : ptr)
    (hi : i < g.allocptr)
    (hroom : g.allocptr + 2 ≤ g.fromspace + HEAPSIZE)
    (hblock : g.fromspace + HEAPSIZE ≤ 2 * HEAPSIZE)
    (hsp : g.sp + 9 ≤ STACKCAP) (hbelow : ∀ k, k < g.numroots → g.roots.get k < g.sp)
    (ht : g.roottop + 2 ≤ MAXFRAMES) (hn : g.numroots + 7 ≤ MAXROOTS) :
    ∃ g1, env_set (.cell i) key value g = .ret (.cell i) g1 ∧
      g1.mem = ((g.mem.set g.allocptr ⟨key, value, .T_CONS⟩).set (g.allocptr + 1)
        ⟨.cell g.allocptr, (g.mem.get i).car, .T_CONS⟩).set i
        { g.mem.get i with car := .cell (g.allocptr + 1) } ∧
      g1.allocptr = g.allocptr + 2 ∧
      g1.fromspace = g.fromspace ∧ g1.tospace = g.tospace ∧
      g1.roottop = g.roottop ∧ g1.numroots = g.numroots ∧ g1.sp = g.sp ∧
      (∀ k, k < g.numroots → g1.roots.get k = g.roots.get k) ∧
      (∀ j, j < g.roottop → g1.rootstack.get j = g.rootstack.get j) ∧
      (∀ x, x < g.sp → g1.stack.get x = g.stack.get x) := by
  have hcap : g.sp + 9 ≤ ARRCAP := hsp
  have hi2 : i < 2 * HEAPSIZE := by omega
  have hiA : i < ARRCAP := lt_ARRCAP_of_cell hi2
  unfold env_set
  rw [enter_spec _ g (by simp; omega)]
  simp only [Res.bind_ret]
  -- the locals
  have hlen : ([.cell i, key, value, .null, .null] : List ptr).length = 5 := rfl
  have hs0 : ∀ k, k < 5 → (entered [.cell i, key, value, .null, .null] g).stack.get (g.sp + k)
      = [.cell i, key, value, .null, .null].getD k .null :=
    fun k hk => entered_get _ g k hk (by rw [hlen]; omega)
  have hsb : ∀ x, x < g.sp → (entered [.cell i, key, value, .null, .null] g).stack.get x
      = g.stack.get x := fun x hx => Arr.get_write_lt _ _ _ _ hx
  -- gc_protect
  obtain ⟨g1, e1, n1, t1, rs1, rso1, m1, st1, sp1, f1, to1, a1, _, ro1, rn1⟩ :=
    gc_protect_spec [g.sp, g.sp + 1, g.sp + 2, g.sp + 3, g.sp + 4]
      (entered [.cell i, key, value, .null, .null] g) (by show g.roottop < MAXFRAMES; omega)
      (by show g.numroots + 5 ≤ MAXROOTS; omega)
  rw [e1]
  simp only [Res.bind_ret]
  have n1' : g1.numroots = g.numroots + 5 := n1
  have t1' : g1.roottop = g.roottop + 1 := t1
  have sp1' : g1.sp = g.sp + 5 := sp1
  have a1' : g1.allocptr = g.allocptr := a1
  have f1' : g1.fromspace = g.fromspace := f1
  have m1' : g1.mem = g.mem := m1
  have rs1' : g1.rootstack.get g.roottop = g.numroots := rs1
  have hb1 : ∀ k, k < g1.numroots → g1.roots.get k < g1.sp := by
    intro k hk
    by_cases hko : k < g.numroots
    · rw [ro1 k hko, sp1']
      have := hbelow k hko
      show g.roots.get k < g.sp + 5
      omega
    · have := rn1 (k - g.numroots) (by simp; omega)
      have e : (entered [.cell i, key, value, .null, .null] g).numroots + (k - g.numroots) = k := by
        show g.numroots + (k - g.numroots) = k
        omega
      rw [e] at this
      rw [this, getD_five _ _ _ _ _ _ (by omega), sp1']
      split_ifs <;> omega
  have hk1 : g1.stack.get (g.sp + 1) = key := by rw [st1]; exact hs0 1 (by decide)
  have hv1 : g1.stack.get (g.sp + 2) = value := by rw [st1]; exact hs0 2 (by decide)
  rw [hk1, hv1]
  -- the pair
  obtain ⟨g2, e2, m2, a2, f2, to2, t2, n2, sp2, ro2, rs2, st2⟩ :=
    new_cons_room g1 key value (by omega) (by omega) (by rw [sp1']; show g.sp + 5 + 4 ≤ ARRCAP; omega) hb1 (by omega) (by omega)
  rw [e2]
  simp only [Res.bind_ret]
  have he3 : (g2.setl (g.sp + 3) (.cell g1.allocptr)).stack.get g.sp = .cell i := by
    show (g2.stack.set (g.sp + 3) _).get g.sp = _
    rw [Arr.get_set_ne _ _ _ _ (by omega), st2 _ (by omega), st1]
    exact hs0 0 (by decide)
  have hp3 : (g2.setl (g.sp + 3) (.cell g1.allocptr)).stack.get (g.sp + 3) = .cell g1.allocptr := by
    show (g2.stack.set (g.sp + 3) _).get (g.sp + 3) = _
    exact Arr.get_set_eq _ _ _ (by omega)
  rw [he3, hp3]
  have hcar : (g2.setl (g.sp + 3) (.cell g1.allocptr)).car (.cell i) = .ok (g.mem.get i).car := by
    rw [gc.car_cell hi2]
    show Read.ok (g2.mem.get i).car = _
    rw [m2, Arr.get_set_ne _ _ _ _ (by omega), m1']
  rw [hcar]
  simp only [Read.run]
  -- the head of the list
  have hb3 : ∀ k, k < (g2.setl (g.sp + 3) (.cell g1.allocptr)).numroots →
      (g2.setl (g.sp + 3) (.cell g1.allocptr)).roots.get k <
        (g2.setl (g.sp + 3) (.cell g1.allocptr)).sp := by
    intro k hk
    have hk' : k < g1.numroots := by rw [← n2]; exact hk
    show g2.roots.get k < g2.sp
    rw [ro2 k hk', sp2]
    exact hb1 k hk'
  obtain ⟨g4, e4, m4, a4, f4, to4, t4, n4, sp4, ro4, rs4, st4⟩ :=
    new_cons_room (g2.setl (g.sp + 3) (.cell g1.allocptr)) (.cell g1.allocptr) (g.mem.get i).car
      (by show g2.allocptr + 1 ≤ g2.fromspace + HEAPSIZE; omega)
      (by show g2.allocptr < 2 * HEAPSIZE; omega)
      (by show g2.sp + 4 ≤ ARRCAP; omega) hb3
      (by show g2.roottop < MAXFRAMES; omega) (by show g2.numroots + 2 ≤ MAXROOTS; omega)
  rw [e4]
  simp only [Res.bind_ret]
  have t4' : g4.roottop = g.roottop + 1 := by
    rw [t4]; show g2.roottop = _; omega
  have n4' : g4.numroots = g.numroots + 5 := by
    rw [n4]; show g2.numroots = _; omega
  have a3 : (g2.setl (g.sp + 3) (.cell g1.allocptr)).allocptr = g.allocptr + 1 := by
    show g2.allocptr = _; omega
  rw [a3]
  have sp3 : (g2.setl (g.sp + 3) (.cell g1.allocptr)).sp = g.sp + 5 := by
    show g2.sp = _; omega
  have he5 : (g4.setl (g.sp + 4) (.cell (g.allocptr + 1))).stack.get g.sp = .cell i := by
    show (g4.stack.set (g.sp + 4) _).get g.sp = _
    rw [Arr.get_set_ne _ _ _ _ (by omega), st4 _ (by omega)]
    exact he3
  have hf5 : (g4.setl (g.sp + 4) (.cell (g.allocptr + 1))).stack.get (g.sp + 4)
      = .cell (g.allocptr + 1) := by
    show (g4.stack.set (g.sp + 4) _).get (g.sp + 4) = _
    exact Arr.get_set_eq _ _ _ (by omega)
  rw [he5]
  simp only [if_pos hi2, hf5]
  -- gc_pop
  obtain ⟨g6, e6, t6, n6, rs6, ro6, m6, st6, sp6, f6, to6, a6, _⟩ :=
    gc_pop_spec (store (g4.setl (g.sp + 4) (.cell (g.allocptr + 1))) (.car i)
      (.cell (g.allocptr + 1))) (by show 0 < g4.roottop; omega)
  rw [e6]
  simp only [Res.bind_ret]
  have hst6 : g6.stack = (g4.stack.set (g.sp + 4) (.cell (g.allocptr + 1))) := st6
  have hret : g6.stack.get g.sp = .cell i := by rw [hst6]; exact he5
  rw [hret]
  refine ⟨_, rfl, ?_, ?_, ?_, ?_, ?_, ?_, rfl, ?_, ?_, ?_⟩
  · show g6.mem = _
    rw [m6]
    show g4.mem.set i { g4.mem.get i with car := .cell (g.allocptr + 1) } = _
    have hg4 : g4.mem = (g.mem.set g.allocptr ⟨key, value, .T_CONS⟩).set (g.allocptr + 1)
        ⟨.cell g.allocptr, (g.mem.get i).car, .T_CONS⟩ := by
      rw [m4, a3]
      show (g2.mem).set _ _ = _
      rw [m2, m1', a1']
    rw [hg4, Arr.get_set_ne _ _ _ _ (by omega), Arr.get_set_ne _ _ _ _ (by omega)]
  · show g6.allocptr = _
    rw [a6]; show g4.allocptr = _; rw [a4, a3]
  · show g6.fromspace = _
    rw [f6]; show g4.fromspace = _; rw [f4]; show g2.fromspace = _; omega
  · show g6.tospace = _
    rw [to6]; show g4.tospace = _; rw [to4]; show g2.tospace = _; rw [to2, to1]; rfl
  · show g6.roottop = _
    rw [t6]; show g4.roottop - 1 = _; omega
  · show g6.numroots = _
    rw [n6]
    show g4.rootstack.get (g4.roottop - 1) = _
    have e : g4.roottop - 1 = g.roottop := by omega
    rw [e, rs4 _ (by show g.roottop < g2.roottop; omega)]
    show g2.rootstack.get g.roottop = _
    rw [rs2 _ (by omega), rs1']
  · intro k hk
    show g6.roots.get k = _
    rw [ro6]
    show g4.roots.get k = _
    rw [ro4 k (by show k < g2.numroots; omega)]
    show g2.roots.get k = _
    rw [ro2 k (by omega), ro1 k hk]
    rfl
  · intro j hj
    show g6.rootstack.get j = _
    rw [rs6]
    show g4.rootstack.get j = _
    rw [rs4 j (by show j < g2.roottop; omega)]
    show g2.rootstack.get j = _
    rw [rs2 j (by omega), rso1 j (by show j ≠ g.roottop; omega)]
    rfl
  · intro x hx
    show g6.stack.get x = _
    rw [hst6, Arr.get_set_ne _ _ _ _ (by omega), st4 x (by omega)]
    show (g2.stack.set (g.sp + 3) _).get x = _
    rw [Arr.get_set_ne _ _ _ _ (by omega), st2 x (by omega), st1]
    exact hsb x hx

/-! ## `define` -/

theorem lget_lset_eq (s : lisp) (a : Nat) (v : ptr) (h : a < ARRCAP) :
    (s.lset a v).lget a = v := Arr.get_set_eq _ _ _ h

theorem lget_lset_ne (s : lisp) (a a1 : Nat) (v : ptr) (h : a1 ≠ a) :
    (s.lset a v).lget a1 = s.lget a1 := Arr.get_set_ne _ _ _ _ (Ne.symm h)

theorem Res.bind_eq_ret {σ α β : Type} {r : Res σ α} {f : α → σ → Res σ β} {b : β} {s : σ}
    (h : r.bind f = .ret b s) : ∃ a s1, r = .ret a s1 ∧ f a s1 = .ret b s := by
  cases r with
  | ret a s1 => exact ⟨a, s1, rfl, h⟩
  | fatal m => cases h
  | halt s => cases h
  | undefined => cases h
  | timeout => cases h

theorem lift_eq_ret {α : Type} {f : gc → Res gc α} {s s1 : lisp} {a : α}
    (h : lift f s = .ret a s1) : f s.gc = .ret a s1.gc ∧ s1 = { s with gc := s1.gc } := by
  unfold lift at h
  cases hf : f s.gc with
  | ret a2 g =>
    rw [hf] at h
    cases h
    exact ⟨rfl, rfl⟩
  | fatal m => rw [hf] at h; cases h
  | halt g => rw [hf] at h; cases h
  | undefined => rw [hf] at h; cases h
  | timeout => rw [hf] at h; cases h

theorem gc_protect_loop_ret (slots : List Nat) : ∀ (g g1 : gc),
    gc_protect_loop slots g = .ret () g1 →
    g1.mem = g.mem ∧ g1.stack = g.stack ∧ g1.sp = g.sp ∧ g1.allocptr = g.allocptr ∧
    g1.fromspace = g.fromspace ∧ g1.tospace = g.tospace ∧ g1.roottop = g.roottop ∧
    g1.numroots = g.numroots + slots.length := by
  induction slots with
  | nil => intro g g1 h; cases h; simp
  | cons p ps ih =>
    intro g g1 h
    unfold gc_protect_loop at h
    split at h
    · obtain ⟨a, b, c, d, e, f, k, l⟩ := ih _ _ h
      refine ⟨a, b, c, d, e, f, k, ?_⟩
      rw [l]
      simp only [List.length_cons]
      omega
    · cases h

theorem gc_protect_ret (slots : List Nat) (g g1 : gc) (h : gc_protect slots g = .ret () g1) :
    g1.mem = g.mem ∧ g1.stack = g.stack ∧ g1.sp = g.sp ∧ g1.allocptr = g.allocptr ∧
    g1.fromspace = g.fromspace ∧ g1.tospace = g.tospace ∧ g1.roottop = g.roottop + 1 ∧
    g1.numroots = g.numroots + slots.length := by
  unfold gc_protect at h
  split at h
  · exact gc_protect_loop_ret slots _ _ h
  · cases h

/-- The `define` block of `lisp_eval`, from the label `restart` to the call
of `lisp_eval` for the value, and from its return on. -/
theorem eval_restart_define (s s3 : lisp) (fuel b x y z : Nat) (head name e : ptr)
    (hb : b + EVAL_FRAME ≤ ARRCAP)
    (hx : s.lget b = .cell x) (hform : s.is_form x s.TDEFINE (.cell y))
    (hq : s.TDEFINE ≠ s.TQUOTE) (hc : s.TDEFINE ≠ s.TCOND) (hbg : s.TDEFINE ≠ s.TBEGIN)
    (ho : s.TDEFINE ≠ s.TOR)
    (hhead : (s.gc.mem.get x).car = head)
    (hy : y < 2 * HEAPSIZE) (hname : (s.gc.mem.get y).car = name)
    (hyz : (s.gc.mem.get y).cdr = .cell z) (hz : z < 2 * HEAPSIZE)
    (he : (s.gc.mem.get z).car = e)
    (h3 : define_entry s b head name = .ret () s3) :
    eval_restart (fuel + 1) b s =
      (lisp_eval fuel e (s3.lget (b + 1)) s3).bind fun value s4 =>
        (lift (env_set ((s4.lset (b + 9) value).lget (b + 1)) ((s4.lset (b + 9) value).lget (b + 8))
          ((s4.lset (b + 9) value).lget (b + 9))) (s4.lset (b + 9) value)).bind
          fun _ s6 =>
        (lift gc_pop s6).bind fun _ s7 => .ret (s7.lget (b + 9)) s7 := by
  obtain ⟨hx2, htag, htext, hcdr⟩ := hform
  have hB : EVAL_FRAME = 16 := rfl
  unfold define_entry at h3
  obtain ⟨u, s2, e2, h3⟩ := Res.bind_eq_ret h3
  cases h3
  obtain ⟨hp2, hs2⟩ := lift_eq_ret e2
  obtain ⟨hm2, hst2, _⟩ := gc_protect_ret _ _ _ hp2
  have hm2' : s2.gc.mem = s.gc.mem := hm2
  have hl2 : s2.lget b = .cell x := by
    show s2.gc.stack.get b = _
    rw [hst2]
    show ((((s.lset (b + 2) head).lset (b + 8) .null).lset (b + 9) .null)).lget b = _
    rw [lget_lset_ne _ _ _ _ (by omega), lget_lset_ne _ _ _ _ (by omega),
      lget_lset_ne _ _ _ _ (by omega), hx]
  unfold eval_restart
  simp only [hx, reduceCtorEq, if_false, gc.obj_cell hx2, Read.run, htag, ne_eq,
    not_true_eq_false, hhead]
  have ht2 : TEXT (s.lset (b + 2) head).gc ((s.lset (b + 2) head).lget (b + 2))
      = .ok s.TDEFINE := by
    rw [lget_lset_eq _ _ _ (by omega)]
    rw [← hhead]
    exact htext
  rw [ht2]
  simp only []
  rw [if_neg (show ¬ s.TDEFINE = (s.lset (b + 2) head).TQUOTE from hq),
    if_neg (show ¬ s.TDEFINE = (s.lset (b + 2) head).TCOND from hc),
    if_neg (show ¬ s.TDEFINE = (s.lset (b + 2) head).TBEGIN from hbg),
    if_neg (show ¬ s.TDEFINE = (s.lset (b + 2) head).TOR from ho),
    if_pos (show s.TDEFINE = (s.lset (b + 2) head).TDEFINE from rfl)]
  rw [e2]
  simp only [Res.bind_ret]
  rw [hl2, gc.cdr_cell hx2]
  simp only [hm2', hcdr, gc.car_cell hy, hname]
  have hm3 : (s2.lset (b + 8) name).gc.mem = s.gc.mem := hm2'
  rw [gc.cdr_congr hm3, gc.cdr_cell hy, hyz]
  simp only [Read.bind, gc.car_congr hm3, gc.car_cell hz, he]
  rfl

theorem env_lookup_new (g1 : gc) (i p : Nat) (key value : ptr)
    (hi : i < 2 * HEAPSIZE) (hp : p + 1 < 2 * HEAPSIZE)
    (h0 : (g1.mem.get i).car = .cell (p + 1))
    (h1 : (g1.mem.get (p + 1)).car = .cell p)
    (h2 : g1.mem.get p = ⟨key, value, .T_CONS⟩) (n : Nat) :
    env_lookup g1 (n + 3) key (.cell i) = .ok value := by
  have hp0 : p < 2 * HEAPSIZE := by omega
  unfold env_lookup
  simp only [reduceCtorEq, if_false, gc.obj_cell hi, Read.bind, h0]
  unfold list_find_pair
  simp only [reduceCtorEq, if_false, gc.obj_cell hp, Read.bind, h1, gc.car_cell hp0, h2]
  have he : lisp_equal g1 (n + 1) key key = .ok true := by
    unfold lisp_equal; simp
  simp only [he, if_true, ne_eq, reduceCtorEq, not_false_eq_true, gc.cdr_cell hp0, h2]

theorem env_lookup_old (g g1 : gc) (R : Nat → Prop) (i p : Nat) (key k2 r : ptr) (n : Nat)
    (hs : g.stable g1 R)
    (hi : i < 2 * HEAPSIZE) (hp : p + 1 < 2 * HEAPSIZE)
    (h0 : g1.mem.get i = { g.mem.get i with car := .cell (p + 1) })
    (h1 : g1.mem.get (p + 1) = ⟨.cell p, (g.mem.get i).car, .T_CONS⟩)
    (h2 : (g1.mem.get p).car = key)
    (hk : ptr.within R k2) (hcar : ptr.within R (g.mem.get i).car)
    (hcdr : ptr.within R (g.mem.get i).cdr)
    (hd : g1.differs k2 key) (hl : env_lookup g n k2 (.cell i) = .ok r) :
    ∃ n0, ∀ m, n0 ≤ m → env_lookup g1 m k2 (.cell i) = .ok r := by
  have hp0 : p < 2 * HEAPSIZE := by omega
  obtain ⟨nd, hnd⟩ := hd
  cases n with
  | zero => cases hl
  | succ n =>
    refine ⟨max n nd + 3, fun m hm => ?_⟩
    obtain ⟨m, rfl⟩ : ∃ k, m = k + 2 := ⟨m - 2, by omega⟩
    unfold env_lookup at hl ⊢
    simp only [reduceCtorEq, if_false, gc.obj_cell hi, Read.bind, h0] at hl ⊢
    obtain ⟨pair, e1, hl⟩ := Read.bind_eq_ok hl
    obtain ⟨f1, w1⟩ := list_find_pair_stable hs n m k2 _ pair hk hcar e1 (by omega)
    have hfp : list_find_pair g1 (m + 1) k2 (.cell (p + 1)) = .ok pair := by
      unfold list_find_pair
      simp only [reduceCtorEq, if_false, gc.obj_cell hp, Read.bind, h1, gc.car_cell hp0, h2]
      rw [lisp_equal_stable (gc.stable.refl g1) nd m k2 key false (fun _ _ => trivial)
        (fun _ _ => trivial) hnd (by omega)]
      simp only [Bool.false_eq_true, if_false]
      exact f1
    rw [hfp]
    simp only []
    by_cases hpn : pair ≠ .null
    · rw [if_pos hpn] at hl ⊢
      obtain ⟨po, e3, e4⟩ := Read.bind_eq_ok hl
      obtain ⟨f3, _, _⟩ := hs.obj w1 e3
      cases e4
      simp only [gc.cdr, f3, Read.bind]
    · rw [if_neg hpn] at hl ⊢
      exact (env_lookup_stable hs n (m + 1) k2 _ r hk hcdr hl (by omega)).1

/-- C11: with room for its two pairs `env_set` prepends one pair of the key
and the value to the association list of the innermost frame and changes no
other cell, so the outer frames stay; `env_lookup` of the key then returns
the value, whatever was bound before; `env_lookup` of another key, one that
`lisp_equal` tells from the key, returns what it returned before; and
`(define name e)` returns the value of `e`, bound to the name. -/
theorem C11_env_set_shadows (g : gc) (i : Nat) (key value : ptr)
    (hi : i < g.allocptr)
    (hroom : g.allocptr + 2 ≤ g.fromspace + HEAPSIZE)
    (hblock : g.fromspace + HEAPSIZE ≤ 2 * HEAPSIZE)
    (hsp : g.sp + 9 ≤ STACKCAP) (hbelow : ∀ k, k < g.numroots → g.roots.get k < g.sp)
    (ht : g.roottop + 2 ≤ MAXFRAMES) (hn : g.numroots + 7 ≤ MAXROOTS) :
    (∃ g1, env_set (.cell i) key value g = .ret (.cell i) g1 ∧
      g1.mem.get i = { g.mem.get i with car := .cell (g.allocptr + 1) } ∧
      g1.mem.get (g.allocptr + 1) = ⟨.cell g.allocptr, (g.mem.get i).car, .T_CONS⟩ ∧
      g1.mem.get g.allocptr = ⟨key, value, .T_CONS⟩ ∧
      (∀ a, a ≠ i → a ≠ g.allocptr → a ≠ g.allocptr + 1 → g1.mem.get a = g.mem.get a) ∧
      g1.roottop = g.roottop ∧ g1.numroots = g.numroots ∧
      (∀ n, env_lookup g1 (n + 3) key (.cell i) = .ok value) ∧
      (∀ (R : Nat → Prop) (k2 r : ptr) (n : Nat),
        (∀ a, R a → ptr.within R (g.mem.get a).car ∧ ptr.within R (g.mem.get a).cdr) →
        (∀ a, R a → a < g.allocptr ∧ a ≠ i) →
        ptr.within R k2 → ptr.within R (g.mem.get i).car → ptr.within R (g.mem.get i).cdr →
        g1.differs k2 key → env_lookup g n k2 (.cell i) = .ok r →
        ∃ n0, ∀ m, n0 ≤ m → env_lookup g1 m k2 (.cell i) = .ok r)) ∧
    (∀ (s s3 s4 : lisp) (fuel b x y z : Nat) (head name e v : ptr),
      s4.gc = g → s4.lget (b + 1) = .cell i → s4.lget (b + 8) = key → v = value →
      b + EVAL_FRAME ≤ g.sp → 0 < g.roottop →
      s.lget b = .cell x → s.is_form x s.TDEFINE (.cell y) →
      s.TDEFINE ≠ s.TQUOTE → s.TDEFINE ≠ s.TCOND → s.TDEFINE ≠ s.TBEGIN → s.TDEFINE ≠ s.TOR →
      (s.gc.mem.get x).car = head →
      y < 2 * HEAPSIZE → (s.gc.mem.get y).car = name →
      (s.gc.mem.get y).cdr = .cell z → z < 2 * HEAPSIZE → (s.gc.mem.get z).car = e →
      define_entry s b head name = .ret () s3 →
      lisp_eval fuel e (s3.lget (b + 1)) s3 = .ret v s4 →
      ∃ s7, eval_restart (fuel + 1) b s = .ret v s7 ∧
        ∀ n, env_lookup s7.gc (n + 3) key (.cell i) = .ok v) := by
  have hi2 : i < 2 * HEAPSIZE := by omega
  have hiA : i < ARRCAP := lt_ARRCAP_of_cell hi2
  have hpA : g.allocptr + 1 < ARRCAP := lt_ARRCAP_of_cell (by omega)
  have hmem : ∀ m : Arr object, m = ((g.mem.set g.allocptr ⟨key, value, .T_CONS⟩).set
      (g.allocptr + 1) ⟨.cell g.allocptr, (g.mem.get i).car, .T_CONS⟩).set i
      { g.mem.get i with car := .cell (g.allocptr + 1) } →
      m.get i = { g.mem.get i with car := .cell (g.allocptr + 1) } ∧
      m.get (g.allocptr + 1) = ⟨.cell g.allocptr, (g.mem.get i).car, .T_CONS⟩ ∧
      m.get g.allocptr = ⟨key, value, .T_CONS⟩ ∧
      (∀ a, a ≠ i → a ≠ g.allocptr → a ≠ g.allocptr + 1 → m.get a = g.mem.get a) := by
    intro m hm
    subst hm
    refine ⟨Arr.get_set_eq _ _ _ hiA, ?_, ?_, ?_⟩
    · rw [Arr.get_set_ne _ _ _ _ (by omega), Arr.get_set_eq _ _ _ hpA]
    · rw [Arr.get_set_ne _ _ _ _ (by omega), Arr.get_set_ne _ _ _ _ (by omega),
        Arr.get_set_eq _ _ _ (by omega)]
    · intro a h1 h2 h3
      rw [Arr.get_set_ne _ _ _ _ (Ne.symm h1), Arr.get_set_ne _ _ _ _ (Ne.symm h3),
        Arr.get_set_ne _ _ _ _ (Ne.symm h2)]
  constructor
  · obtain ⟨g1, e1, m1, a1, f1, to1, t1, n1, sp1, ro1, rs1, st1⟩ :=
      env_set_room g i key value hi hroom hblock hsp hbelow ht hn
    obtain ⟨c0, c1, c2, c3⟩ := hmem _ m1
    refine ⟨g1, e1, c0, c1, c2, c3, t1, n1, ?_, ?_⟩
    · intro n
      exact env_lookup_new g1 i g.allocptr key value hi2 (by omega) (by rw [c0])
        (by rw [c1]) c2 n
    · intro R k2 r n hcl hR hk hcar hcdr hd hl
      have hs : g.stable g1 R := ⟨hcl, fun a ha => c3 a (hR a ha).2 (by have := (hR a ha).1; omega)
        (by have := (hR a ha).1; omega)⟩
      exact env_lookup_old g g1 R i g.allocptr key k2 r n hs hi2 (by omega) c0 c1
        (by rw [c2]) hk hcar hcdr hd hl
  · intro s s3 s4 fuel b x y z head name e v hg he4 hk4 hv hb hrt hx hform hq hc hbg ho hhead
      hy hname hyz hz he h3 hev
    subst hv
    have hbA : b + EVAL_FRAME ≤ ARRCAP := by
      have : g.sp + 9 ≤ ARRCAP := hsp
      omega
    have hB : EVAL_FRAME = 16 := rfl
    rw [eval_restart_define s s3 fuel b x y z head name e hbA hx hform hq hc hbg ho hhead
      hy hname hyz hz he h3, hev]
    simp only [Res.bind_ret]
    rw [lget_lset_ne _ _ _ _ (by omega), lget_lset_ne _ _ _ _ (by omega),
      lget_lset_eq _ _ _ (by omega), he4, hk4]
    have hg5 : ∀ k, k < (s4.lset (b + 9) v).gc.numroots →
        (s4.lset (b + 9) v).gc.roots.get k < (s4.lset (b + 9) v).gc.sp := by
      intro k hk
      show s4.gc.roots.get k < s4.gc.sp
      rw [hg]
      exact hbelow k (by rw [← hg]; exact hk)
    obtain ⟨g6, e6, m6, a6, f6, to6, t6, n6, sp6, ro6, rs6, st6⟩ :=
      env_set_room (s4.lset (b + 9) v).gc i key v
        (by show i < s4.gc.allocptr; rw [hg]; exact hi)
        (by show s4.gc.allocptr + 2 ≤ s4.gc.fromspace + HEAPSIZE; rw [hg]; exact hroom)
        (by show s4.gc.fromspace + HEAPSIZE ≤ 2 * HEAPSIZE; rw [hg]; exact hblock)
        (by show s4.gc.sp + 9 ≤ STACKCAP; rw [hg]; exact hsp) hg5
        (by show s4.gc.roottop + 2 ≤ MAXFRAMES; rw [hg]; exact ht)
        (by show s4.gc.numroots + 7 ≤ MAXROOTS; rw [hg]; exact hn)
    rw [lift_ret e6]
    simp only [Res.bind_ret]
    obtain ⟨g7, e7, t7, n7, rs7, ro7, m7, st7, sp7, _⟩ :=
      gc_pop_spec g6 (by rw [t6]; show 0 < s4.gc.roottop; rw [hg]; exact hrt)
    have e7' : gc_pop ({ (s4.lset (b + 9) v) with gc := g6 } : lisp).gc = .ret () g7 := e7
    rw [lift_ret e7']
    simp only [Res.bind_ret]
    refine ⟨{ (s4.lset (b + 9) v) with gc := g7 }, ?_, ?_⟩
    · congr 1
      show g7.stack.get (b + 9) = v
      rw [st7, st6 _ (by show b + 9 < s4.gc.sp; rw [hg]; omega)]
      exact lget_lset_eq _ _ _ (by omega)
    · intro n
      show env_lookup g7 (n + 3) key (.cell i) = .ok v
      have hm5 : (s4.lset (b + 9) v).gc.mem = g.mem := by show s4.gc.mem = _; rw [hg]
      have ha5 : (s4.lset (b + 9) v).gc.allocptr = g.allocptr := by
        show s4.gc.allocptr = _; rw [hg]
      rw [hm5, ha5] at m6
      obtain ⟨c0, c1, c2, _⟩ := hmem _ m6
      rw [env_lookup_congr m7]
      exact env_lookup_new g6 i g.allocptr key v hi2 (by omega) (by rw [c0]) (by rw [c1]) c2 n

set_option maxRecDepth 100000 in
theorem sample_defined_shape :
    4 < sample_defined.gc.allocptr ∧
    sample_defined.gc.allocptr + 2 ≤ sample_defined.gc.fromspace + HEAPSIZE ∧
    sample_defined.gc.fromspace + HEAPSIZE ≤ 2 * HEAPSIZE ∧
    sample_defined.gc.sp + 9 ≤ STACKCAP ∧
    (∀ k, k < sample_defined.gc.numroots →
      sample_defined.gc.roots.get k < sample_defined.gc.sp) ∧
    sample_defined.gc.roottop + 2 ≤ MAXFRAMES ∧ sample_defined.gc.numroots + 7 ≤ MAXROOTS ∧
    sample_defined.lget (1 + 1) = .cell 4 ∧ sample_defined.lget (1 + 8) = .cell 5 ∧
    1 + EVAL_FRAME ≤ sample_defined.gc.sp ∧ 0 < sample_defined.gc.roottop ∧
    sample_defined.gc.allocptr = 10 := by
  decide

set_option maxRecDepth 100000 in
theorem sample_define_shape :
    sample_define.lget 1 = .cell 7 ∧ sample_define.is_form 7 sample_define.TDEFINE (.cell 8) ∧
    (sample_define.gc.mem.get 7).car = .cell 6 ∧
    (sample_define.gc.mem.get 8).car = .cell 5 ∧
    (sample_define.gc.mem.get 8).cdr = .cell 9 ∧
    (sample_define.gc.mem.get 9).car = .cell 1 := by
  unfold lisp.is_form
  decide

set_option maxRecDepth 100000 in
theorem sample_define_entry :
    define_entry sample_define 1 (.cell 6) (.cell 5) = .ret () sample_define_entered ∧
    sample_define_entered.lget (1 + 1) = .cell 4 := by
  decide

set_option maxRecDepth 100000 in
theorem sample_define_value :
    lisp_eval 4 (.cell 1) (.cell 4) sample_define_entered = .ret (.cell 1) sample_defined := by
  have h := lisp_eval_atom sample_define_entered 3 1 1 "7" (.cell 4) (by decide) (by decide)
    (by decide) (by decide) (by decide)
  rw [h, if_pos (by decide)]
  rfl

set_option maxRecDepth 100000 in
theorem sample_defined_cells :
    sample_defined.gc.mem.get 0 = ⟨.text 0, .null, .T_ATOM⟩ ∧
    sample_defined.gc.mem.get 1 = ⟨.text 1, .null, .T_ATOM⟩ ∧
    sample_defined.gc.mem.get 2 = ⟨.cell 0, .cell 1, .T_CONS⟩ ∧
    sample_defined.gc.mem.get 3 = ⟨.cell 2, .null, .T_CONS⟩ ∧
    sample_defined.gc.mem.get 4 = ⟨.cell 3, .null, .T_CONS⟩ ∧
    sample_defined.gc.mem.get 5 = ⟨.text 2, .null, .T_ATOM⟩ := by
  decide

set_option maxRecDepth 100000 in
theorem sample_defined_other :
    env_lookup sample_defined.gc 4 (.cell 0) (.cell 4) = .ok (.cell 1) ∧
    (∀ a, a < 4 → ptr.within (fun c => c < 4) (sample_defined.gc.mem.get a).car ∧
      ptr.within (fun c => c < 4) (sample_defined.gc.mem.get a).cdr) ∧
    ptr.within (fun c => c < 4) (sample_defined.gc.mem.get 4).car ∧
    ptr.within (fun c => c < 4) (sample_defined.gc.mem.get 4).cdr ∧
    (sample_defined.gc.mem.get 0).tag = .T_ATOM ∧ (sample_defined.gc.mem.get 5).tag = .T_ATOM ∧
    (sample_defined.gc.mem.get 0).car ≠ (sample_defined.gc.mem.get 5).car := by
  obtain ⟨c0, c1, c2, c3, c4, c5⟩ := sample_defined_cells
  refine ⟨by decide, ?_, ?_, ?_, ?_, ?_, ?_⟩
  · intro a ha
    have : a = 0 ∨ a = 1 ∨ a = 2 ∨ a = 3 := by omega
    rcases this with h | h | h | h <;> subst h
    · rw [c0]; exact ⟨fun c hc => (by cases hc), fun c hc => (by cases hc)⟩
    · rw [c1]; exact ⟨fun c hc => (by cases hc), fun c hc => (by cases hc)⟩
    · rw [c2]; exact ⟨fun c hc => (by cases hc; decide), fun c hc => (by cases hc; decide)⟩
    · rw [c3]; exact ⟨fun c hc => (by cases hc; decide), fun c hc => (by cases hc)⟩
  · rw [c4]; intro c hc; cases hc; decide
  · rw [c4]; intro c hc; cases hc
  · rw [c0]
  · rw [c5]
  · rw [c0, c5]; decide

/-- In the sample state `(define y 7)` binds `y` to the atom `7` in the one
frame of the environment and returns that atom; `x` stays bound. -/
theorem C11_env_set_shadows_witness :
    (∃ g1, env_set (.cell 4) (.cell 5) (.cell 1) sample_defined.gc = .ret (.cell 4) g1 ∧
      (∀ n, env_lookup g1 (n + 3) (.cell 5) (.cell 4) = .ok (.cell 1)) ∧
      (∃ n0, ∀ m, n0 ≤ m → env_lookup g1 m (.cell 0) (.cell 4) = .ok (.cell 1))) ∧
    (∃ s7, eval_restart (4 + 1) 1 sample_define = .ret (.cell 1) s7 ∧
      ∀ n, env_lookup s7.gc (n + 3) (.cell 5) (.cell 4) = .ok (.cell 1)) := by
  obtain ⟨h1, h2, h3, h4, h5, h6, h7, h8, h9, h10, h11, h12⟩ := sample_defined_shape
  obtain ⟨d1, d2, d3, d4, d5, d6⟩ := sample_define_shape
  obtain ⟨o1, o2, o3, o4, o5, o6, o7⟩ := sample_defined_other
  obtain ⟨⟨g1, e1, c0, c1, c2, c3, _, _, l1, l2⟩, hdef⟩ :=
    C11_env_set_shadows sample_defined.gc 4 (.cell 5) (.cell 1) h1 h2 h3 h4 h5 h6 h7
  refine ⟨⟨g1, e1, l1, ?_⟩, ?_⟩
  · refine l2 (fun c => c < 4) (.cell 0) (.cell 1) 4 o2 (fun a ha => ⟨by omega, by omega⟩)
      (fun c hc => by cases hc; decide) o3 o4 ?_ o1
    refine ⟨1, ?_⟩
    have m0 := c3 0 (by decide) (by rw [h12]; decide) (by rw [h12]; decide)
    have m5 := c3 5 (by decide) (by rw [h12]; decide) (by rw [h12]; decide)
    unfold lisp_equal
    simp only [reduceCtorEq, ptr.cell.injEq, OfNat.zero_ne_ofNat, if_false, or_self,
      gc.obj_cell (show 0 < 2 * HEAPSIZE by decide), gc.obj_cell (show 5 < 2 * HEAPSIZE by decide),
      Read.bind, m0, m5, o5, o6, ne_eq, not_true_eq_false, not_false_eq_true, if_true]
    simp [o7]
  · exact hdef sample_define sample_define_entered sample_defined 4 1 7 8 9 (.cell 6) (.cell 5)
      (.cell 1) (.cell 1) rfl h8 h9 rfl h10 h11 d1 d2 (by decide) (by decide) (by decide)
      (by decide) d3 (by decide) d4 d5 (by decide) d6 sample_define_entry.1 sample_define_value

/-! ## The operands of a native application -/

theorem first_cell_cells_from (p n : Nat) :
    first_cell (cells_from p n) = if n = 0 then .null else .cell p := by
  cases n <;> rfl

theorem interns.text_at_of_mem {t : interns} (h : t.wf) {x : intern} (hx : x ∈ t.items) :
    t.text_at x.addr = some x.text := by
  unfold interns.text_at
  cases hf : t.items.find? (fun y => decide (y.addr = x.addr)) with
  | none =>
    have := List.find?_eq_none.mp hf x hx
    simp at this
  | some y =>
    have hy := List.mem_of_find?_eq_some hf
    have hp := List.find?_some hf
    simp only [decide_eq_true_eq] at hp
    rw [interns.wf_addr_inj h hy hx hp]

theorem interns.text_at_some {t : interns} {h : Nat} {str : String}
    (e : t.text_at h = some str) : (⟨h, str⟩ : intern) ∈ t.items := by
  unfold interns.text_at at e
  cases hf : t.items.find? (fun y => decide (y.addr = h)) with
  | none => rw [hf] at e; cases e
  | some y =>
    rw [hf] at e
    have hy := List.mem_of_find?_eq_some hf
    have hp := List.find?_some hf
    simp only [decide_eq_true_eq] at hp
    cases e
    cases y
    simp only at hp
    subst hp
    exact hy

theorem interns.text_at_keep {t t1 : interns} (h1 : t1.wf)
    (hsub : ∀ x ∈ t.items, x ∈ t1.items) {h : Nat} {str : String}
    (e : t.text_at h = some str) : t1.text_at h = some str :=
  interns.text_at_of_mem h1 (hsub _ (interns.text_at_some e))

theorem intern_string_text_at (str : String) (t : interns) (h : t.wf) :
    (intern_string str t).2.text_at (intern_string str t).1 = some str :=
  interns.text_at_of_mem (intern_string_wf str t h) (intern_string_mem str t)

/-! ## States of the reader -/

theorem gc.grown.grown_refl (g : gc) : g.grown g :=
  ⟨le_refl _, rfl, rfl, rfl, rfl, rfl, fun _ _ => rfl, fun _ _ => rfl, fun _ _ => rfl,
    fun _ _ => rfl⟩

theorem gc.grown.grown_trans {g g1 g2 : gc} (h1 : g.grown g1) (h2 : g1.grown g2) : g.grown g2 where
  alloc := le_trans h1.alloc h2.alloc
  fromspace := by rw [h2.fromspace, h1.fromspace]
  tospace := by rw [h2.tospace, h1.tospace]
  roottop := by rw [h2.roottop, h1.roottop]
  numroots := by rw [h2.numroots, h1.numroots]
  sp := by rw [h2.sp, h1.sp]
  roots := fun k hk => by rw [h2.roots k (by rw [h1.numroots]; exact hk), h1.roots k hk]
  rootstack := fun j hj => by
    rw [h2.rootstack j (by rw [h1.roottop]; exact hj), h1.rootstack j hj]
  stack := fun x hx => by rw [h2.stack x (by rw [h1.sp]; exact hx), h1.stack x hx]
  mem := fun a ha => by
    rw [h2.mem a (lt_of_lt_of_le ha h1.alloc), h1.mem a ha]

theorem gc.inside.grown {g g1 g2 : gc} (h1 : g.inside g1) (h2 : g1.grown g2) : g.inside g2 where
  alloc := le_trans h1.alloc h2.alloc
  fromspace := by rw [h2.fromspace, h1.fromspace]
  tospace := by rw [h2.tospace, h1.tospace]
  roottop := by rw [h2.roottop, h1.roottop]
  numroots := by rw [h2.numroots, h1.numroots]
  sp := by rw [h2.sp, h1.sp]
  saved := by rw [h2.rootstack _ (by rw [h1.roottop]; omega), h1.saved]
  locals := fun k hk => by
    rw [h2.roots _ (by rw [h1.numroots]; omega), h1.locals k hk]
  roots := fun k hk => by rw [h2.roots k (by rw [h1.numroots]; omega), h1.roots k hk]
  rootstack := fun j hj => by
    rw [h2.rootstack j (by rw [h1.roottop]; omega), h1.rootstack j hj]
  stack := fun x hx => by rw [h2.stack x (by rw [h1.sp]; omega), h1.stack x hx]
  mem := fun a ha => by
    rw [h2.mem a (lt_of_lt_of_le ha h1.alloc), h1.mem a ha]

theorem gc.inside.setl {g g1 : gc} (h1 : g.inside g1) (x : Nat) (v : ptr) (hx : g.sp ≤ x) :
    g.inside (g1.setl x v) where
  alloc := h1.alloc
  fromspace := h1.fromspace
  tospace := h1.tospace
  roottop := h1.roottop
  numroots := h1.numroots
  sp := h1.sp
  saved := h1.saved
  locals := h1.locals
  roots := h1.roots
  rootstack := h1.rootstack
  stack := fun y hy => by
    show (g1.stack.set x v).get y = _
    rw [Arr.get_set_ne _ _ _ _ (by omega), h1.stack y hy]
  mem := h1.mem

/-- Entry of `lisp_read_list`: its locals and their frame in the registry. -/
theorem read_list_enter (g : gc) (hsp : g.sp + 3 ≤ STACKCAP)
    (ht : g.roottop < MAXFRAMES) (hn : g.numroots + 3 ≤ MAXROOTS) :
    ∃ g1, enter [.null, .null, .null] g = .ret g.sp (entered [.null, .null, .null] g) ∧
      gc_protect [g.sp, g.sp + 1, g.sp + 2] (entered [.null, .null, .null] g) = .ret () g1 ∧
      g.inside g1 ∧ g1.allocptr = g.allocptr := by
  obtain ⟨g1, e1, n1, t1, rs1, rso1, m1, st1, sp1, f1, to1, a1, _, ro1, rn1⟩ :=
    gc_protect_spec [g.sp, g.sp + 1, g.sp + 2] (entered [.null, .null, .null] g) ht hn
  refine ⟨g1, enter_spec _ g hsp, e1, ?_, a1⟩
  refine ⟨by rw [a1]; exact le_refl _, f1, to1, t1, n1, sp1, rs1, ?_, ro1, ?_, ?_, ?_⟩
  · intro k hk
    have := rn1 k hk
    have e : (entered [.null, .null, .null] g).numroots = g.numroots := rfl
    rw [e] at this
    rw [this]
    have : k = 0 ∨ k = 1 ∨ k = 2 := by omega
    rcases this with h | h | h <;> subst h <;> rfl
  · intro j hj
    rw [rso1 j (by show j ≠ g.roottop; omega)]
    rfl
  · intro x hx
    rw [st1]
    exact Arr.get_write_lt _ _ _ _ hx
  · intro a _
    rw [m1]
    rfl

/-- Exit of `lisp_read_list`: the new pair of the two locals `obj` and `tmp`,
the frame popped. -/
theorem read_list_finish (g g5 : gc) (obj tmp : ptr) (h : g.inside g5)
    (h0 : g5.stack.get g.sp = obj) (h1 : g5.stack.get (g.sp + 1) = tmp)
    (hroom : g5.allocptr + 1 ≤ g5.fromspace + HEAPSIZE)
    (hblock : g5.fromspace + HEAPSIZE ≤ 2 * HEAPSIZE)
    (hsp : g5.sp + 4 ≤ STACKCAP)
    (hbelow : ∀ k, k < g.numroots → g.roots.get k < g.sp)
    (ht : g5.roottop < MAXFRAMES) (hn : g5.numroots + 2 ≤ MAXROOTS) :
    ∃ g6 g7, new_cons obj tmp g5 = .ret (.cell g5.allocptr) g6 ∧
      g5.grown g6 ∧ g6.allocptr = g5.allocptr + 1 ∧
      g6.mem.get g5.allocptr = ⟨obj, tmp, .T_CONS⟩ ∧
      gc_pop (g6.setl (g.sp + 2) (.cell g5.allocptr)) = .ret () g7 ∧
      g7.stack.get (g.sp + 2) = .cell g5.allocptr ∧
      g.grown (leave g.sp g7) ∧ g7.allocptr = g5.allocptr + 1 ∧ g7.mem = g6.mem := by
  have hcap : g5.sp + 4 ≤ ARRCAP := hsp
  have hb5 : ∀ k, k < g5.numroots → g5.roots.get k < g5.sp := by
    intro k hk
    rw [h.sp]
    by_cases hko : k < g.numroots
    · rw [h.roots k hko]
      have := hbelow k hko
      omega
    · have := h.locals (k - g.numroots) (by rw [h.numroots] at hk; omega)
      rw [show g.numroots + (k - g.numroots) = k by omega] at this
      rw [this]
      rw [h.numroots] at hk
      omega
  obtain ⟨g6, e6, m6, a6, f6, to6, t6, n6, sp6, ro6, rs6, st6⟩ :=
    new_cons_room g5 obj tmp hroom (by omega) hsp hb5 ht hn
  have hg56 : g5.grown g6 := ⟨by omega, f6, to6, t6, n6, sp6, ro6, rs6, st6, fun a ha => by
    rw [m6]; exact Arr.get_set_ne _ _ _ _ (by omega)⟩
  obtain ⟨g7, e7, t7, n7, rs7, ro7, m7, st7, sp7, f7, to7, a7, _⟩ :=
    gc_pop_spec (g6.setl (g.sp + 2) (.cell g5.allocptr)) (by
      show 0 < g6.roottop; rw [t6, h.roottop]; omega)
  have hin6 : g.inside g6 := h.grown hg56
  refine ⟨g6, g7, e6, hg56, a6, ?_, e7, ?_, ?_, by rw [a7]; exact a6, m7⟩
  · rw [m6]
    exact Arr.get_set_eq _ _ _ (lt_ARRCAP_of_cell (by omega))
  · rw [st7]
    show (g6.stack.set (g.sp + 2) _).get (g.sp + 2) = _
    exact Arr.get_set_eq _ _ _ (by have := h.sp; omega)
  · refine ⟨?_, ?_, ?_, ?_, ?_, rfl, ?_, ?_, ?_, ?_⟩
    · show g.allocptr ≤ g7.allocptr
      rw [a7]
      exact hin6.alloc
    · show g7.fromspace = _
      rw [f7]; exact hin6.fromspace
    · show g7.tospace = _
      rw [to7]; exact hin6.tospace
    · show g7.roottop = _
      rw [t7]
      show g6.roottop - 1 = _
      rw [hin6.roottop]; omega
    · show g7.numroots = _
      rw [n7]
      show g6.rootstack.get (g6.roottop - 1) = _
      rw [hin6.roottop]
      exact hin6.saved
    · intro k hk
      show g7.roots.get k = _
      rw [ro7]
      exact hin6.roots k hk
    · intro j hj
      show g7.rootstack.get j = _
      rw [rs7]
      exact hin6.rootstack j hj
    · intro x hx
      show g7.stack.get x = _
      rw [st7]
      show (g6.stack.set (g.sp + 2) _).get x = _
      rw [Arr.get_set_ne _ _ _ _ (by omega)]
      exact hin6.stack x hx
    · intro a ha
      show g7.mem.get a = _
      rw [m7]
      exact hin6.mem a ha

/-! ## Values in the heap -/

theorem lisp.holds_mono {s s1 : lisp} (hm : ∀ a, a < s.gc.allocptr → s1.gc.mem.get a = s.gc.mem.get a)
    (ha : s.gc.allocptr ≤ s1.gc.allocptr) (hwf : s1.tab.wf)
    (hsub : ∀ x ∈ s.tab.items, x ∈ s1.tab.items) {p : ptr} {v : sx} (h : s.holds p v) :
    s1.holds p v := by
  induction h with
  | absent => exact lisp.holds.absent
  | atom hi hmem htxt =>
    exact lisp.holds.atom (lt_of_lt_of_le hi ha) (by rw [hm _ hi]; exact hmem)
      (interns.text_at_keep hwf hsub htxt)
  | pair hi hmem _ _ iha ihd =>
    exact lisp.holds.pair (lt_of_lt_of_le hi ha) (by rw [hm _ hi]; exact hmem) iha ihd

/-- `new_atom` with room in the active semispace. -/
theorem new_atom_room (s : lisp) (t : List Char) (hwf : s.tab.wf)
    (hroom : s.gc.allocptr + 1 ≤ s.gc.fromspace + HEAPSIZE)
    (hblock : s.gc.fromspace + HEAPSIZE ≤ 2 * HEAPSIZE)
    (hsp : s.gc.sp + 2 ≤ STACKCAP) :
    ∃ s1, new_atom (String.mk t) s = .ret (.cell s.gc.allocptr) s1 ∧
      s.gc.grown s1.gc ∧ s1.gc.allocptr = s.gc.allocptr + 1 ∧
      s1.holds (.cell s.gc.allocptr) (.atom t) ∧
      s1.tab.wf ∧ (∀ x ∈ s.tab.items, x ∈ s1.tab.items) ∧
      s1 = { s with gc := s1.gc, tab := s1.tab } := by
  obtain ⟨g1, e1, m1, a1, f1, to1, ro1, rs1, t1, n1, sp1, st1⟩ :=
    gc_alloc_room s.gc .T_ATOM (.text (intern_string (String.mk t) s.tab).1) .null hroom
      (by omega) hsp
  refine ⟨{ s with gc := g1, tab := (intern_string (String.mk t) s.tab).2 }, ?_, ?_, a1, ?_,
    intern_string_wf _ _ hwf, intern_string_items_subset _ _, rfl⟩
  · unfold new_atom intern_str
    exact lift_ret e1
  · exact ⟨by show s.gc.allocptr ≤ g1.allocptr; omega, f1, to1, t1, n1, sp1,
      fun k _ => by show g1.roots.get k = _; rw [ro1],
      fun j _ => by show g1.rootstack.get j = _; rw [rs1], st1,
      fun a ha => by
        show g1.mem.get a = _
        rw [m1]; exact Arr.get_set_ne _ _ _ _ (by omega)⟩
  · refine lisp.holds.atom (h := (intern_string (String.mk t) s.tab).1) (d := .null)
      (by show s.gc.allocptr < g1.allocptr; omega) ?_ (intern_string_text_at _ _ hwf)
    show g1.mem.get s.gc.allocptr = _
    rw [m1]
    exact Arr.get_set_eq _ _ _ (lt_ARRCAP_of_cell (by omega))

/-! ## The tokens of the text of a value -/

theorem sx.text_pair (a d : sx) : (sx.pair a d).text = '(' :: (a.text ++ d.tail) := by
  cases d <;> rfl

theorem sx.text_ne_nil {v : sx} (h : v.valid) : v.text ≠ [] := by
  cases v with
  | absent => simp [sx.text]
  | atom t => exact h.1
  | pair a d => rw [sx.text_pair]; simp

theorem sx.tail_eq (d : sx) : ∃ c rest, d.tail = c :: rest ∧ ATOMCHAR c = false := by
  cases d with
  | absent => exact ⟨')', [], rfl, by decide⟩
  | atom t => exact ⟨' ', _, rfl, by decide⟩
  | pair a d => exact ⟨' ', _, rfl, by decide⟩

theorem tok0_mk (c : Char) (cs : List Char) : tok0 (String.mk (c :: cs)) = c := rfl

theorem sx.first_tok_ne_close {v : sx} (h : v.valid) : tok0 v.first_tok ≠ ')' := by
  cases v with
  | absent => decide
  | atom t =>
    obtain ⟨c, cs, rfl⟩ := List.exists_cons_of_ne_nil h.1
    have := h.2.1 c (List.mem_cons_self _ _)
    show c ≠ ')'
    rintro rfl
    revert this; decide
  | pair a d => show tok0 "(" ≠ ')'; decide

theorem sx.first_tok_ne_dot {v : sx} (h : v.valid) : v.first_tok ≠ "." := by
  cases v with
  | absent => decide
  | atom t =>
    intro e
    have : t = ['.'] := by
      have := congrArg String.toList e
      exact this
    exact h.2.2.2 this
  | pair a d => show "(" ≠ "."; decide

/-- The token that `read_token` finds at the start of the text of a value. -/
theorem read_token_value (s : lisp) (v : sx) (ws : List Char) (dl : Char) (rest : List Char)
    (hv : v.valid) (hw : ∀ c ∈ ws, isspace c = true) (hd : ATOMCHAR dl = false) :
    read_token (s.feed (ws ++ (v.text ++ dl :: rest))) =
      .ret v.first_tok (s.after_token v.first_tok (v.after_first ++ dl :: rest)) := by
  cases v with
  | absent =>
    exact read_token_paren s ws '(' ')' (dl :: rest) hw (Or.inl rfl)
  | atom t =>
    have := read_token_atom_token s ws t dl rest hw hv.2.1 hv.1 hd
    rw [if_pos hv.2.2.1] at this
    exact this
  | pair a d =>
    rw [sx.text_pair]
    obtain ⟨c, cs, e⟩ := List.exists_cons_of_ne_nil (sx.text_ne_nil hv.1)
    have e2 : '(' :: (a.text ++ d.tail) ++ dl :: rest
        = '(' :: c :: (cs ++ d.tail ++ dl :: rest) := by
      rw [e]; simp
    rw [e2]
    have := read_token_paren s ws '(' c (cs ++ d.tail ++ dl :: rest) hw (Or.inl rfl)
    rw [this]
    show _ = Res.ret "(" (s.after_token "(" ((sx.pair a d).text.tail ++ dl :: rest))
    rw [sx.text_pair, List.tail_cons, e]
    simp
    rfl

/-! ## States of the reader -/

theorem after_token_gc (s : lisp) (tok : String) (X : List Char) :
    (s.after_token tok X).gc = s.gc := rfl

theorem lisp.read_to.of_token (s : lisp) (tok : String) (X : List Char) (hwf : s.tab.wf) :
    s.read_to (s.after_token tok X) X where
  gc := gc.grown.grown_refl _
  peek := rfl
  input := rfl
  wf := intern_string_wf _ _ hwf
  items := intern_string_items_subset _ _
  keys := ⟨rfl, rfl, rfl, rfl, rfl, rfl⟩
  output := rfl
  errors := rfl

theorem lisp.read_to.read_trans {s s1 s2 : lisp} {X Y : List Char} (h1 : s.read_to s1 X)
    (h2 : s1.read_to s2 Y) : s.read_to s2 Y where
  gc := h1.gc.grown_trans h2.gc
  peek := h2.peek
  input := h2.input
  wf := h2.wf
  items := fun x hx => h2.items x (h1.items x hx)
  keys := by
    obtain ⟨a1, a2, a3, a4, a5, a6⟩ := h1.keys
    obtain ⟨b1, b2, b3, b4, b5, b6⟩ := h2.keys
    exact ⟨b1.trans a1, b2.trans a2, b3.trans a3, b4.trans a4, b5.trans a5, b6.trans a6⟩
  output := h2.output.trans h1.output
  errors := h2.errors.trans h1.errors

/-- A state whose stream holds `X` is the state fed with `X`. -/
theorem feed_of_stream (s : lisp) (X : List Char) (hp : s.token_peek = X.head?)
    (hi : s.input = X.tail) : s.feed X = s := by
  cases s
  simp only [lisp.feed] at *
  rw [hp, hi]

theorem gc.inside.roots_below {g g1 : gc} (h : g.inside g1)
    (hbelow : ∀ k, k < g.numroots → g.roots.get k < g.sp) :
    ∀ k, k < g1.numroots → g1.roots.get k < g1.sp := by
  intro k hk
  rw [h.sp]
  by_cases hko : k < g.numroots
  · rw [h.roots k hko]
    have := hbelow k hko
    omega
  · have := h.locals (k - g.numroots) (by rw [h.numroots] at hk; omega)
    rw [show g.numroots + (k - g.numroots) = k by omega] at this
    rw [this]
    rw [h.numroots] at hk
    omega

/-! ## The reader on the text of a value -/

theorem reads_obj_atom (t : List Char) (hv : (sx.atom t).valid) (fuel : Nat) :
    reads_obj (.atom t) fuel := by
  intro s dl rest hd hc hp hi
  obtain ⟨c, cs, rfl⟩ := List.exists_cons_of_ne_nil hv.1
  have hc0 := hv.2.1 c (List.mem_cons_self _ _)
  have h0 : tok0 (sx.atom (c :: cs)).first_tok ≠ '(' := by
    show c ≠ '('
    rintro rfl
    revert hc0; decide
  obtain ⟨s1, e1, g1, a1, ho1, w1, i1, es1⟩ :=
    new_atom_room s (c :: cs) hc.wf (by have := hc.room; simp only [sx.cells] at this; omega)
      hc.block (by have := hc.stack; omega)
  refine ⟨.cell s.gc.allocptr, s1, ?_, ?_, ho1, a1⟩
  · unfold lisp_read_obj_with
    rw [if_pos h0]
    exact e1
  · refine ⟨g1, ?_, ?_, w1, i1, ?_, ?_, ?_⟩
    · rw [es1]; exact hp
    · rw [es1]; exact hi
    · rw [es1]; exact ⟨rfl, rfl, rfl, rfl, rfl, rfl⟩
    · rw [es1]
    · rw [es1]

theorem reads_list_absent (fuel : Nat) : reads_list .absent (fuel + 1) := by
  intro s dl rest hd hc hp hi
  refine ⟨.null, s, ?_, ⟨gc.grown.grown_refl _, hp, hi, hc.wf, fun x hx => hx,
    ⟨rfl, rfl, rfl, rfl, rfl, rfl⟩, rfl, rfl⟩, lisp.holds.absent, rfl⟩
  unfold lisp_read_list
  rw [if_pos (by decide)]

/-- `lisp_read_obj` on an opening parenthesis reads the token that follows
and calls `lisp_read_list`. -/
theorem reads_obj_of_list (v : sx) (fuel : Nat) (hv : v.valid) (hna : ∀ t, v ≠ .atom t)
    (h : reads_list v fuel) : reads_obj v fuel := by
  intro s dl rest hd hc hp hi
  have e0 : v.first_tok = "(" := by
    cases v with
    | atom t => exact absurd rfl (hna t)
    | absent => rfl
    | pair a d => rfl
  unfold lisp_read_obj_with
  rw [e0, if_neg (by decide)]
  have hs : s.feed (v.after_first ++ dl :: rest) = s := feed_of_stream s _ hp hi
  cases v with
  | atom t => exact absurd rfl (hna t)
  | absent =>
    have ht := read_token_paren s [] ')' dl rest (by simp) (Or.inr rfl)
    have hs' : s.feed ([] ++ ')' :: dl :: rest) = s := hs
    rw [hs'] at ht
    rw [ht, Res.bind_ret]
    obtain ⟨p, s1, e1, r1⟩ := h ((intern_str (String.mk [')']) (s.feed (dl :: rest))).2) dl rest hd
      ⟨intern_string_wf _ _ hc.wf, hc.room, hc.block, hc.frames, hc.slots, hc.stack, hc.below⟩
      rfl rfl
    refine ⟨p, s1, e1, ?_, r1.holds, r1.alloc⟩
    exact (lisp.read_to.of_token s _ (dl :: rest) hc.wf).read_trans r1.state
  | pair a d =>
    obtain ⟨c, r, ec, hcd⟩ := sx.tail_eq d
    have ht := read_token_value s a [] c (r ++ dl :: rest) hv.1 (by simp) hcd
    have el : (sx.pair a d).after_first = a.text ++ c :: r := by
      show (sx.pair a d).text.tail = _
      rw [sx.text_pair, List.tail_cons, ec]
    have el2 : [] ++ (a.text ++ c :: (r ++ dl :: rest))
        = (sx.pair a d).after_first ++ dl :: rest := by
      rw [el]; simp
    have el3 : (sx.pair a d).list_rem ++ dl :: rest
        = a.after_first ++ c :: (r ++ dl :: rest) := by
      show (a.after_first ++ d.tail) ++ dl :: rest = _
      rw [ec]; simp
    rw [el2, hs] at ht
    rw [ht, Res.bind_ret]
    obtain ⟨p, s1, e1, r1⟩ := h (s.after_token a.first_tok (a.after_first ++ c :: (r ++ dl :: rest)))
      dl rest hd
      ⟨intern_string_wf _ _ hc.wf, hc.room, hc.block, hc.frames, hc.slots, hc.stack, hc.below⟩
      (by rw [el3]; rfl) (by rw [el3]; rfl)
    refine ⟨p, s1, e1, ?_, r1.holds, r1.alloc⟩
    exact (lisp.read_to.of_token s _ _ hc.wf).read_trans r1.state

theorem lisp.holds_of_read_to {s s1 : lisp} {X : List Char} (h : s.read_to s1 X) {p : ptr}
    {v : sx} (hh : s.holds p v) : s1.holds p v :=
  lisp.holds_mono h.gc.mem h.gc.alloc h.wf h.items hh

/-- The token after an element of a list whose tail is not an atom. -/
theorem read_token_tail (s : lisp) (d : sx) (dl : Char) (rest : List Char)
    (hv : d.valid) (hna : ∀ t, d ≠ .atom t) (hd : ATOMCHAR dl = false) :
    read_token (s.feed (d.tail ++ dl :: rest)) =
      .ret d.list_tok (s.after_token d.list_tok (d.list_rem ++ dl :: rest)) ∧
    d.list_tok ≠ "." := by
  cases d with
  | atom t => exact absurd rfl (hna t)
  | absent =>
    exact ⟨read_token_paren s [] ')' dl rest (by simp) (Or.inr rfl), by decide⟩
  | pair a2 d2 =>
    obtain ⟨c, r, ec, hcd⟩ := sx.tail_eq d2
    have ht := read_token_value s a2 [' '] c (r ++ dl :: rest) hv.1
      (by intro x hx; simp at hx; subst hx; decide) hcd
    have e1 : (sx.pair a2 d2).tail ++ dl :: rest
        = [' '] ++ (a2.text ++ c :: (r ++ dl :: rest)) := by
      show ' ' :: (sx.pair a2 d2).text.tail ++ dl :: rest = _
      rw [sx.text_pair, List.tail_cons, ec]
      simp
    have e2 : (sx.pair a2 d2).list_rem ++ dl :: rest
        = a2.after_first ++ c :: (r ++ dl :: rest) := by
      show (a2.after_first ++ d2.tail) ++ dl :: rest = _
      rw [ec]; simp
    rw [e1, e2]
    exact ⟨ht, sx.first_tok_ne_dot hv.1⟩

theorem sx.frames_pair_ge (a d : sx) : 2 ≤ (sx.pair a d).frames ∧
    a.frames + 1 ≤ (sx.pair a d).frames ∧ d.frames + 1 ≤ (sx.pair a d).frames := by
  simp only [sx.frames]
  omega

/-- `lisp_read_list` on a list whose first element and whose tail the reader
reads. -/
theorem reads_list_pair (a d : sx) (f : Nat) (hv : (sx.pair a d).valid)
    (iha : reads_obj a f) (ihd : (∀ t, d ≠ .atom t) → reads_list d f) :
    reads_list (.pair a d) (f + 1) := by
  intro s dl rest hd hc hp hi
  obtain ⟨hF2, hFa, hFd⟩ := sx.frames_pair_ge a d
  have hC : (sx.pair a d).cells = a.cells + d.cells + 1 := rfl
  obtain ⟨c, r, ec, hcd⟩ := sx.tail_eq d
  have el3 : (sx.pair a d).list_rem ++ dl :: rest
      = a.after_first ++ c :: (r ++ dl :: rest) := by
    show (a.after_first ++ d.tail) ++ dl :: rest = _
    rw [ec]; simp
  have el4 : c :: (r ++ dl :: rest) = d.tail ++ dl :: rest := by rw [ec]; simp
  rw [el3] at hp hi
  have hroom := hc.room
  have hblock := hc.block
  have hfr := hc.frames
  have hsl := hc.slots
  have hst := hc.stack
  rw [hC] at hroom
  -- entry
  obtain ⟨g1, ee, ep, hin, ha1⟩ := read_list_enter s.gc (by omega) (by omega) (by omega)
  have hb1 := hin.roots_below hc.below
  -- the first element
  obtain ⟨obj, s2, e2, r2⟩ := iha { s with gc := g1 } c (r ++ dl :: rest) hcd
    ⟨hc.wf, by show g1.allocptr + _ ≤ g1.fromspace + _; rw [ha1, hin.fromspace]; omega,
      by show g1.fromspace + _ ≤ _; rw [hin.fromspace]; exact hblock,
      by show g1.roottop + _ ≤ _; rw [hin.roottop]; omega,
      by show g1.numroots + _ ≤ _; rw [hin.numroots]; omega,
      by show g1.sp + _ + 4 ≤ _; rw [hin.sp]; omega, hb1⟩ hp hi
  have hin2 : s.gc.inside s2.gc := hin.grown r2.state.gc
  have ha2 : s2.gc.allocptr = s.gc.allocptr + a.cells := by
    rw [r2.alloc]; show g1.allocptr + _ = _; rw [ha1]
  have hin2' : s.gc.inside (s2.lset s.gc.sp obj).gc := hin2.setl _ _ (le_refl _)
  have hstream2 : (s2.lset s.gc.sp obj).feed (d.tail ++ dl :: rest) = s2.lset s.gc.sp obj := by
    rw [← el4]
    exact feed_of_stream _ _ r2.state.peek r2.state.input
  have hcapb : s.gc.sp + 3 ≤ ARRCAP := by
    have : s.gc.sp + 3 * (sx.pair a d).frames + 4 ≤ ARRCAP := hst
    omega
  have hobj2 : (s2.lset s.gc.sp obj).gc.stack.get s.gc.sp = obj :=
    Arr.get_set_eq _ _ _ (by omega)
  have hunf : lisp_read_list (f + 1) (sx.pair a d).list_tok s =
      (read_token (s2.lset s.gc.sp obj)).bind fun tok1 s3 =>
        if tok1 = "." then
          (read_token s3).bind fun tok2 s4 =>
          (lisp_read_obj_with (lisp_read_list f) tok2 s4).bind fun tmp s5 =>
          (lift (new_cons ((s5.lset (s.gc.sp + 1) tmp).lget s.gc.sp)
            ((s5.lset (s.gc.sp + 1) tmp).lget (s.gc.sp + 1))) (s5.lset (s.gc.sp + 1) tmp)).bind
            fun obj2 s7 =>
          (read_token (s7.lset (s.gc.sp + 2) obj2)).bind fun tok3 s8 =>
          (lift gc_pop s8).bind fun _ s9 =>
          if tok0 tok3 = ')' then .ret (s9.lget (s.gc.sp + 2)) (s9.leave s.gc.sp)
          else .ret .null ((s9.err "Error: Malformed dotted cons\n").leave s.gc.sp)
        else
          (lisp_read_list f tok1 s3).bind fun tmp s4 =>
          (lift (new_cons ((s4.lset (s.gc.sp + 1) tmp).lget s.gc.sp)
            ((s4.lset (s.gc.sp + 1) tmp).lget (s.gc.sp + 1))) (s4.lset (s.gc.sp + 1) tmp)).bind
            fun obj2 s6 =>
          (lift gc_pop (s6.lset (s.gc.sp + 2) obj2)).bind fun _ s7 =>
          .ret (s7.lget (s.gc.sp + 2)) (s7.leave s.gc.sp) := by
    conv_lhs => unfold lisp_read_list
    have h0 : tok0 (sx.pair a d).list_tok ≠ ')' := sx.first_tok_ne_close hv.1
    rw [if_neg h0, lift_ret ee, Res.bind_ret]
    have ep' : gc_protect [s.gc.sp, s.gc.sp + 1, s.gc.sp + 2]
        ({ s with gc := entered [.null, .null, .null] s.gc } : lisp).gc = .ret () g1 := ep
    rw [lift_ret ep', Res.bind_ret]
    have e2' : lisp_read_obj_with (lisp_read_list f) (sx.pair a d).list_tok
        { s with gc := g1 } = .ret obj s2 := e2
    rw [e2', Res.bind_ret]
  rw [hunf]
  by_cases hna : ∀ t, d ≠ .atom t
  · -- the rest of the list
    obtain ⟨ht, hdot⟩ := read_token_tail (s2.lset s.gc.sp obj) d dl rest hv.2 hna hd
    rw [hstream2] at ht
    rw [ht, Res.bind_ret, if_neg hdot]
    have hwf3 : (lisp.after_token (s2.lset s.gc.sp obj) d.list_tok
        (d.list_rem ++ dl :: rest)).tab.wf := intern_string_wf _ _ r2.state.wf
    obtain ⟨tmp, s4, e4, r4⟩ := ihd hna (lisp.after_token (s2.lset s.gc.sp obj) d.list_tok
        (d.list_rem ++ dl :: rest)) dl rest hd
      ⟨hwf3, by show s2.gc.allocptr + _ ≤ s2.gc.fromspace + _
                rw [ha2, hin2.fromspace]; omega,
        by show s2.gc.fromspace + _ ≤ _; rw [hin2.fromspace]; exact hblock,
        by show s2.gc.roottop + _ ≤ _; rw [hin2.roottop]; omega,
        by show s2.gc.numroots + _ ≤ _; rw [hin2.numroots]; omega,
        by show s2.gc.sp + _ + 4 ≤ _; rw [hin2.sp]; omega,
        hin2'.roots_below hc.below⟩ rfl rfl
    rw [e4, Res.bind_ret]
    have hg34 : (s2.lset s.gc.sp obj).gc.grown s4.gc := r4.state.gc
    have hin4 : s.gc.inside s4.gc := hin2'.grown hg34
    have hin5 : s.gc.inside (s4.lset (s.gc.sp + 1) tmp).gc := hin4.setl _ _ (by omega)
    have ha4 : s4.gc.allocptr = s.gc.allocptr + a.cells + d.cells := by
      rw [r4.alloc]; show s2.gc.allocptr + _ = _; rw [ha2]
    have h0 : (s4.lset (s.gc.sp + 1) tmp).gc.stack.get s.gc.sp = obj := by
      show (s4.gc.stack.set (s.gc.sp + 1) tmp).get s.gc.sp = _
      rw [Arr.get_set_ne _ _ _ _ (by omega), hg34.stack _ (by
        show s.gc.sp < s2.gc.sp; rw [hin2.sp]; omega)]
      exact hobj2
    have h1 : (s4.lset (s.gc.sp + 1) tmp).gc.stack.get (s.gc.sp + 1) = tmp :=
      Arr.get_set_eq _ _ _ (by omega)
    obtain ⟨g6, g7, e6, hg56, a6, m6, e7, st7, hgrown, a7, m7⟩ :=
      read_list_finish s.gc (s4.lset (s.gc.sp + 1) tmp).gc obj tmp hin5 h0 h1
        (by show s4.gc.allocptr + 1 ≤ s4.gc.fromspace + _; rw [ha4, hin4.fromspace]; omega)
        (by show s4.gc.fromspace + _ ≤ _; rw [hin4.fromspace]; exact hblock)
        (by show s4.gc.sp + 4 ≤ _; rw [hin4.sp]; omega) hc.below
        (by show s4.gc.roottop < _; rw [hin4.roottop]; omega)
        (by show s4.gc.numroots + 2 ≤ _; rw [hin4.numroots]; omega)
    have h0' : (s4.lset (s.gc.sp + 1) tmp).lget s.gc.sp = obj := h0
    have h1' : (s4.lset (s.gc.sp + 1) tmp).lget (s.gc.sp + 1) = tmp := h1
    rw [h0', h1', lift_ret e6, Res.bind_ret]
    have e7' : gc_pop (lisp.lset { (s4.lset (s.gc.sp + 1) tmp) with gc := g6 } (s.gc.sp + 2)
        (.cell (s4.lset (s.gc.sp + 1) tmp).gc.allocptr)).gc = .ret () g7 := e7
    rw [lift_ret e7', Res.bind_ret]
    have ha5 : (s4.lset (s.gc.sp + 1) tmp).gc.allocptr = s4.gc.allocptr := rfl
    rw [ha5] at a6 m6 st7 a7
    obtain ⟨sfin, hsfin⟩ : ∃ x : lisp, x = lisp.leave { (lisp.lset
        { (s4.lset (s.gc.sp + 1) tmp) with gc := g6 } (s.gc.sp + 2)
        (.cell s4.gc.allocptr)) with gc := g7 } s.gc.sp := ⟨_, rfl⟩
    have hfg : sfin.gc = leave s.gc.sp g7 := by rw [hsfin]; rfl
    have hft : sfin.tab = s4.tab := by rw [hsfin]; rfl
    have hfm : sfin.gc.mem = g6.mem := by rw [hfg]; exact m7
    have hfa : sfin.gc.allocptr = s4.gc.allocptr + 1 := by rw [hfg]; exact a7
    have hmf : ∀ x, x < s4.gc.allocptr → sfin.gc.mem.get x = s4.gc.mem.get x := by
      intro x hx
      rw [hfm]
      exact hg56.mem x hx
    refine ⟨.cell s4.gc.allocptr, sfin, by rw [hsfin]; congr 1, ?_, ?_, ?_⟩
    · refine ⟨by rw [hfg]; exact hgrown, by rw [hsfin]; exact r4.state.peek,
        by rw [hsfin]; exact r4.state.input, by rw [hft]; exact r4.state.wf,
        fun x hx => by
          rw [hft]
          exact r4.state.items x (intern_string_items_subset _ _ x (r2.state.items x hx)),
        ?_, by rw [hsfin]; exact r4.state.output.trans r2.state.output,
        by rw [hsfin]; exact r4.state.errors.trans r2.state.errors⟩
      obtain ⟨a1, a2, a3, a4, a5, a6⟩ := r2.state.keys
      obtain ⟨b1, b2, b3, b4, b5, b6⟩ := r4.state.keys
      rw [hsfin]
      exact ⟨b1.trans a1, b2.trans a2, b3.trans a3, b4.trans a4, b5.trans a5, b6.trans a6⟩
    · refine lisp.holds.pair (a := obj) (d := tmp) (by rw [hfa]; omega)
        (by rw [hfm]; exact m6) ?_ ?_
      · have h3 : lisp.holds (lisp.after_token (s2.lset s.gc.sp obj) d.list_tok
            (d.list_rem ++ dl :: rest)) obj a :=
          @lisp.holds_mono s2 (lisp.after_token (s2.lset s.gc.sp obj) d.list_tok
            (d.list_rem ++ dl :: rest)) (fun _ _ => rfl) (le_refl _) hwf3
            (intern_string_items_subset _ _) _ _ r2.holds
        have h4 := lisp.holds_of_read_to r4.state h3
        exact @lisp.holds_mono s4 sfin hmf (by rw [hfa]; omega)
          (by rw [hft]; exact r4.state.wf) (fun _ hx => by rw [hft]; exact hx) _ _ h4
      · exact @lisp.holds_mono s4 sfin hmf (by rw [hfa]; omega)
          (by rw [hft]; exact r4.state.wf) (fun _ hx => by rw [hft]; exact hx) _ _ r4.holds
    · rw [hfa, ha4]
      show _ = s.gc.allocptr + (a.cells + d.cells + 1)
      omega
  · -- the dotted tail
    obtain ⟨t, rfl⟩ : ∃ t, d = .atom t := by
      by_contra h
      exact hna (fun t e => h ⟨t, e⟩)
    have hvt : (sx.atom t).valid := hv.2
    have hCd : (sx.atom t).cells = 1 := rfl
    rw [hCd] at hroom
    have est : (sx.atom t).tail ++ dl :: rest
        = [' '] ++ (['.'] ++ ' ' :: (t ++ ')' :: dl :: rest)) := by
      show ([' ', '.', ' '] ++ t ++ [')']) ++ dl :: rest = _
      simp
    -- the token `.`
    have ht1 := read_token_atom_token (s2.lset s.gc.sp obj) [' '] ['.'] ' '
      (t ++ ')' :: dl :: rest) (by intro x hx; simp at hx; subst hx; decide)
      (by intro x hx; simp at hx; subst hx; decide) (by simp) (by decide)
    rw [if_pos (by decide), ← est, hstream2] at ht1
    have ht1' : read_token (s2.lset s.gc.sp obj) = .ret "."
        (lisp.after_token (s2.lset s.gc.sp obj) "." (' ' :: (t ++ ')' :: dl :: rest))) := ht1
    rw [ht1', Res.bind_ret, if_pos rfl]
    -- the token after it
    have ht2 := read_token_atom_token
      (lisp.after_token (s2.lset s.gc.sp obj) "." (' ' :: (t ++ ')' :: dl :: rest))) [' '] t ')'
      (dl :: rest) (by intro x hx; simp at hx; subst hx; decide) hvt.2.1 hvt.1 (by decide)
    rw [if_pos hvt.2.2.1] at ht2
    have hs3 : lisp.feed (lisp.after_token (s2.lset s.gc.sp obj) "."
        (' ' :: (t ++ ')' :: dl :: rest))) ([' '] ++ (t ++ ')' :: dl :: rest))
        = lisp.after_token (s2.lset s.gc.sp obj) "." (' ' :: (t ++ ')' :: dl :: rest)) :=
      feed_of_stream _ _ rfl rfl
    rw [hs3] at ht2
    rw [ht2, Res.bind_ret]
    obtain ⟨s4, hs4⟩ : ∃ x : lisp, x = lisp.after_token (lisp.after_token (s2.lset s.gc.sp obj)
        "." (' ' :: (t ++ ')' :: dl :: rest))) (String.mk t) (')' :: dl :: rest) := ⟨_, rfl⟩
    have hs4' : (intern_str (String.mk t) (lisp.feed (lisp.after_token (s2.lset s.gc.sp obj)
        "." (' ' :: (t ++ ')' :: dl :: rest))) (')' :: dl :: rest))).2 = s4 := by rw [hs4]; rfl
    rw [hs4']
    have hg4 : s4.gc = (s2.lset s.gc.sp obj).gc := by rw [hs4]; rfl
    have hwf4 : s4.tab.wf := by
      rw [hs4]
      exact intern_string_wf _ _ (intern_string_wf _ _ r2.state.wf)
    have hit4 : ∀ x ∈ s2.tab.items, x ∈ s4.tab.items := by
      intro x hx
      rw [hs4]
      exact intern_string_items_subset _ _ x (intern_string_items_subset _ _ x hx)
    have hin4 : s.gc.inside s4.gc := by rw [hg4]; exact hin2'
    have ha4 : s4.gc.allocptr = s.gc.allocptr + a.cells := by rw [hg4]; exact ha2
    obtain ⟨tmp, s5, e5, r5⟩ := reads_obj_atom t hvt f s4 ')' (dl :: rest) (by decide)
      ⟨hwf4, by rw [ha4, hin4.fromspace]; show _ + 1 ≤ _; omega,
        by rw [hin4.fromspace]; exact hblock,
        by rw [hin4.roottop]; show _ + 0 ≤ _; omega,
        by rw [hin4.numroots]; show _ + 3 * 0 ≤ _; omega,
        by rw [hin4.sp]; show _ + 3 * 0 + 4 ≤ _; omega,
        hin4.roots_below hc.below⟩ (by rw [hs4]; rfl) (by rw [hs4]; rfl)
    have e5' : lisp_read_obj_with (lisp_read_list f) (String.mk t) s4 = .ret tmp s5 := e5
    rw [e5', Res.bind_ret]
    have hg45 : s4.gc.grown s5.gc := r5.state.gc
    have hin5 : s.gc.inside s5.gc := hin4.grown hg45
    have hin6 : s.gc.inside (s5.lset (s.gc.sp + 1) tmp).gc := hin5.setl _ _ (by omega)
    have ha5 : s5.gc.allocptr = s.gc.allocptr + a.cells + 1 := by
      rw [r5.alloc, ha4]; rfl
    have h0 : (s5.lset (s.gc.sp + 1) tmp).gc.stack.get s.gc.sp = obj := by
      show (s5.gc.stack.set (s.gc.sp + 1) tmp).get s.gc.sp = _
      rw [Arr.get_set_ne _ _ _ _ (by omega), hg45.stack _ (by rw [hin4.sp]; omega), hg4]
      exact hobj2
    have h1 : (s5.lset (s.gc.sp + 1) tmp).gc.stack.get (s.gc.sp + 1) = tmp :=
      Arr.get_set_eq _ _ _ (by omega)
    obtain ⟨g6, g7, e6, hg56, a6, m6, e7, st7, hgrown, a7, m7⟩ :=
      read_list_finish s.gc (s5.lset (s.gc.sp + 1) tmp).gc obj tmp hin6 h0 h1
        (by show s5.gc.allocptr + 1 ≤ s5.gc.fromspace + _; rw [ha5, hin5.fromspace]; omega)
        (by show s5.gc.fromspace + _ ≤ _; rw [hin5.fromspace]; exact hblock)
        (by show s5.gc.sp + 4 ≤ _; rw [hin5.sp]; omega) hc.below
        (by show s5.gc.roottop < _; rw [hin5.roottop]; omega)
        (by show s5.gc.numroots + 2 ≤ _; rw [hin5.numroots]; omega)
    have h0' : (s5.lset (s.gc.sp + 1) tmp).lget s.gc.sp = obj := h0
    have h1' : (s5.lset (s.gc.sp + 1) tmp).lget (s.gc.sp + 1) = tmp := h1
    rw [h0', h1', lift_ret e6, Res.bind_ret]
    have ha5' : (s5.lset (s.gc.sp + 1) tmp).gc.allocptr = s5.gc.allocptr := rfl
    rw [ha5'] at a6 m6 st7 a7 e7
    rw [ha5']
    -- the closing parenthesis
    obtain ⟨s7, hs7⟩ : ∃ x : lisp, x = lisp.lset { (s5.lset (s.gc.sp + 1) tmp) with gc := g6 }
        (s.gc.sp + 2) (.cell s5.gc.allocptr) := ⟨_, rfl⟩
    rw [← hs7]
    have hg7 : s7.gc = g6.setl (s.gc.sp + 2) (.cell s5.gc.allocptr) := by rw [hs7]; rfl
    have htb7 : s7.tab = s5.tab := by rw [hs7]; rfl
    have ht3 := read_token_paren s7 [] ')' dl rest (by simp) (Or.inr rfl)
    have hs7f : s7.feed ([] ++ ')' :: dl :: rest) = s7 :=
      feed_of_stream _ _ (by rw [hs7]; exact r5.state.peek) (by rw [hs7]; exact r5.state.input)
    rw [hs7f] at ht3
    rw [ht3, Res.bind_ret]
    have e7' : gc_pop (intern_str (String.mk [')']) (s7.feed (dl :: rest))).2.gc = .ret () g7 := by
      show gc_pop s7.gc = _
      rw [hg7]; exact e7
    rw [lift_ret e7', Res.bind_ret, if_pos (by decide)]
    obtain ⟨sfin, hsfin⟩ : ∃ x : lisp, x = lisp.leave
        { (intern_str (String.mk [')']) (s7.feed (dl :: rest))).2 with gc := g7 } s.gc.sp :=
      ⟨_, rfl⟩
    have hfg : sfin.gc = leave s.gc.sp g7 := by rw [hsfin]; rfl
    have hft : sfin.tab = (intern_string (String.mk [')']) s5.tab).2 := by
      rw [hsfin, ← htb7]; rfl
    have hfw : sfin.tab.wf := by rw [hft]; exact intern_string_wf _ _ r5.state.wf
    have hfi : ∀ x ∈ s5.tab.items, x ∈ sfin.tab.items := by
      intro x hx; rw [hft]; exact intern_string_items_subset _ _ x hx
    have hfm : sfin.gc.mem = g6.mem := by rw [hfg]; exact m7
    have hfa : sfin.gc.allocptr = s5.gc.allocptr + 1 := by rw [hfg]; exact a7
    have hmf : ∀ x, x < s5.gc.allocptr → sfin.gc.mem.get x = s5.gc.mem.get x := by
      intro x hx
      rw [hfm]
      exact hg56.mem x hx
    refine ⟨.cell s5.gc.allocptr, sfin, by rw [hsfin]; congr 1, ?_, ?_, ?_⟩
    · refine ⟨by rw [hfg]; exact hgrown, by rw [hsfin]; rfl, by rw [hsfin]; rfl, hfw,
        fun x hx => hfi x (r5.state.items x (hit4 x (r2.state.items x hx))),
        ?_, by rw [hsfin]; show s7.output = _; rw [hs7]
               exact r5.state.output.trans (by rw [hs4]; exact r2.state.output),
        by rw [hsfin]; show s7.errors = _; rw [hs7]
           exact r5.state.errors.trans (by rw [hs4]; exact r2.state.errors)⟩
      obtain ⟨a1, a2, a3, a4, a5, a6⟩ := r2.state.keys
      obtain ⟨b1, b2, b3, b4, b5, b6⟩ := r5.state.keys
      rw [hsfin]
      show s7.TQUOTE = _ ∧ s7.TLAMBDA = _ ∧ s7.TCOND = _ ∧ s7.TDEFINE = _ ∧ s7.TBEGIN = _ ∧
        s7.TOR = _
      rw [hs7]
      rw [hs4] at b1 b2 b3 b4 b5 b6
      exact ⟨b1.trans a1, b2.trans a2, b3.trans a3, b4.trans a4, b5.trans a5, b6.trans a6⟩
    · refine lisp.holds.pair (a := obj) (d := tmp) (by rw [hfa]; omega)
        (by rw [hfm]; exact m6) ?_ ?_
      · have h4 : s4.holds obj a :=
          @lisp.holds_mono s2 s4 (fun _ _ => by rw [hg4]; rfl) (by rw [hg4]; exact le_refl _)
            hwf4 hit4 _ _ r2.holds
        have h5 := lisp.holds_of_read_to r5.state h4
        exact @lisp.holds_mono s5 sfin hmf (by rw [hfa]; omega) hfw hfi _ _ h5
      · exact @lisp.holds_mono s5 sfin hmf (by rw [hfa]; omega) hfw hfi _ _ r5.holds
    · rw [hfa, ha5]
      show _ = s.gc.allocptr + (a.cells + 1 + 1)
      omega

/-- The reader reads every value whose atoms are tokens, given the fuel, the
frames and the cells it takes. -/
theorem reads_all (v : sx) : v.valid → ∀ fuel, v.size ≤ fuel →
    reads_obj v fuel ∧ ((∀ t, v ≠ .atom t) → reads_list v fuel) := by
  induction v with
  | absent =>
    intro hv fuel hf
    obtain ⟨f, rfl⟩ : ∃ f, fuel = f + 1 := ⟨fuel - 1, by simp only [sx.size] at hf; omega⟩
    exact ⟨reads_obj_of_list _ _ hv (fun t e => by cases e) (reads_list_absent f),
      fun _ => reads_list_absent f⟩
  | atom t =>
    intro hv fuel _
    exact ⟨reads_obj_atom t hv fuel, fun h => absurd rfl (h t)⟩
  | pair a d iha ihd =>
    intro hv fuel hf
    simp only [sx.size] at hf
    obtain ⟨f, rfl⟩ : ∃ f, fuel = f + 1 := ⟨fuel - 1, by omega⟩
    have h := reads_list_pair a d f hv (iha hv.1 f (by omega)).1
      (fun hna => (ihd hv.2 f (by omega)).2 hna)
    exact ⟨reads_obj_of_list _ _ hv (fun t e => by cases e) h, fun _ => h⟩

/-- `lisp_read` on the text of a value, after white space, returns a pointer
that holds the value. -/
theorem lisp_read_value (v : sx) (hv : v.valid) (fuel : Nat) (hf : v.size ≤ fuel)
    (s : lisp) (ws : List Char) (dl : Char) (rest : List Char)
    (hw : ∀ c ∈ ws, isspace c = true) (hd : ATOMCHAR dl = false)
    (hc : s.can_read v.frames v.cells)
    (hp : s.token_peek = (ws ++ (v.text ++ dl :: rest)).head?)
    (hi : s.input = (ws ++ (v.text ++ dl :: rest)).tail) :
    ∃ p s1, lisp_read fuel s = .ret p s1 ∧ s.read_ok s1 p v (dl :: rest) := by
  have hs := feed_of_stream s _ hp hi
  have ht := read_token_value s v ws dl rest hv hw hd
  rw [hs] at ht
  unfold lisp_read
  rw [ht, Res.bind_ret, if_pos (sx.first_tok_ne_close hv)]
  obtain ⟨p, s1, e1, r1⟩ := (reads_all v hv fuel hf).1
    (s.after_token v.first_tok (v.after_first ++ dl :: rest)) dl rest hd
    ⟨intern_string_wf _ _ hc.wf, hc.room, hc.block, hc.frames, hc.slots, hc.stack, hc.below⟩
    rfl rfl
  exact ⟨p, s1, e1, (lisp.read_to.of_token s _ _ hc.wf).read_trans r1.state, r1.holds, r1.alloc⟩

/-! ## The printer -/

theorem lisp.holds_null {s : lisp} {v : sx} (h : s.holds .null v) : v = .absent := by
  cases h; rfl

theorem lift_fatal {α : Type} {f : gc → Res gc α} {s : lisp} {m : String}
    (h : f s.gc = .fatal m) : lift f s = .fatal m := by
  simp [lift, h]

theorem Res.bind_fatal {σ α β : Type} (m : String) (f : α → σ → Res σ β) :
    (Res.fatal m : Res σ α).bind f = .fatal m := rfl

/-- The body of `lisp_read_list` after its entry and the read of the first
element. -/
theorem read_list_unfold (f : Nat) (tok : String) (s : lisp) (g1 : gc) (obj : ptr) (s2 : lisp)
    (h0 : tok0 tok ≠ ')')
    (ee : enter [.null, .null, .null] s.gc = .ret s.gc.sp (entered [.null, .null, .null] s.gc))
    (ep : gc_protect [s.gc.sp, s.gc.sp + 1, s.gc.sp + 2] (entered [.null, .null, .null] s.gc)
      = .ret () g1)
    (e2 : lisp_read_obj_with (lisp_read_list f) tok { s with gc := g1 } = .ret obj s2) :
    lisp_read_list (f + 1) tok s =
      (read_token (s2.lset s.gc.sp obj)).bind fun tok1 s3 =>
        if tok1 = "." then
          (read_token s3).bind fun tok2 s4 =>
          (lisp_read_obj_with (lisp_read_list f) tok2 s4).bind fun tmp s5 =>
          (lift (new_cons ((s5.lset (s.gc.sp + 1) tmp).lget s.gc.sp)
            ((s5.lset (s.gc.sp + 1) tmp).lget (s.gc.sp + 1))) (s5.lset (s.gc.sp + 1) tmp)).bind
            fun obj2 s7 =>
          (read_token (s7.lset (s.gc.sp + 2) obj2)).bind fun tok3 s8 =>
          (lift gc_pop s8).bind fun _ s9 =>
          if tok0 tok3 = ')' then .ret (s9.lget (s.gc.sp + 2)) (s9.leave s.gc.sp)
          else .ret .null ((s9.err "Error: Malformed dotted cons\n").leave s.gc.sp)
        else
          (lisp_read_list f tok1 s3).bind fun tmp s4 =>
          (lift (new_cons ((s4.lset (s.gc.sp + 1) tmp).lget s.gc.sp)
            ((s4.lset (s.gc.sp + 1) tmp).lget (s.gc.sp + 1))) (s4.lset (s.gc.sp + 1) tmp)).bind
            fun obj2 s6 =>
          (lift gc_pop (s6.lset (s.gc.sp + 2) obj2)).bind fun _ s7 =>
          .ret (s7.lget (s.gc.sp + 2)) (s7.leave s.gc.sp) := by
  conv_lhs => unfold lisp_read_list
  rw [if_neg h0, lift_ret ee, Res.bind_ret]
  have ep' : gc_protect [s.gc.sp, s.gc.sp + 1, s.gc.sp + 2]
      ({ s with gc := entered [.null, .null, .null] s.gc } : lisp).gc = .ret () g1 := ep
  rw [lift_ret ep', Res.bind_ret]
  rw [e2, Res.bind_ret]

theorem flat_list_valid (n : Nat) : (flat_list n).valid := by
  induction n with
  | zero => trivial
  | succ n ih =>
    refine ⟨⟨by simp, ?_, by decide, by decide⟩, ih⟩
    intro c hc
    simp at hc
    subst hc
    decide

theorem flat_list_not_atom (n : Nat) : ∀ t, flat_list n ≠ .atom t := by
  intro t e
  cases n <;> cases e

theorem flat_list_size (n : Nat) : (flat_list n).size = 2 * n + 1 := by
  induction n with
  | zero => rfl
  | succ n ih => simp only [flat_list, sx.size, ih]; omega

theorem flat_list_cells (n : Nat) : (flat_list n).cells = 2 * n := by
  induction n with
  | zero => rfl
  | succ n ih => simp only [flat_list, sx.cells, ih]; omega

theorem flat_list_frames (n : Nat) : (flat_list (n + 1)).frames = n + 2 := by
  induction n with
  | zero => rfl
  | succ n ih =>
    show 1 + max 0 (max (flat_list (n + 1)).frames 1) = _
    rw [ih]
    omega

/-- `new_cons` with the registry full: the assertion of `gc_protect`. -/
theorem new_cons_no_frame (a d : ptr) (g : gc) (hsp : g.sp + 2 ≤ STACKCAP)
    (ht : MAXFRAMES ≤ g.roottop) :
    new_cons a d g = .fatal "Assertion failed: roottop < MAXFRAMES" := by
  unfold new_cons
  rw [enter_spec [a, d] g hsp, Res.bind_ret]
  have hp : gc_protect [g.sp, g.sp + 1] (entered [a, d] g)
      = .fatal "Assertion failed: roottop < MAXFRAMES" := by
    unfold gc_protect
    rw [if_neg (by show ¬ g.roottop < MAXFRAMES; omega)]
  rw [hp]
  rfl

/-- `lisp_read_list` with the registry full: the assertion of `gc_protect` at
its entry. -/
theorem read_list_no_frame (f : Nat) (tok : String) (s : lisp) (h0 : tok0 tok ≠ ')')
    (hsp : s.gc.sp + 3 ≤ STACKCAP) (ht : MAXFRAMES ≤ s.gc.roottop) :
    lisp_read_list (f + 1) tok s = .fatal "Assertion failed: roottop < MAXFRAMES" := by
  conv_lhs => unfold lisp_read_list
  rw [if_neg h0, lift_ret (enter_spec [.null, .null, .null] s.gc hsp), Res.bind_ret]
  have hp : gc_protect [s.gc.sp, s.gc.sp + 1, s.gc.sp + 2]
      ({ s with gc := entered [.null, .null, .null] s.gc } : lisp).gc
      = .fatal "Assertion failed: roottop < MAXFRAMES" := by
    unfold gc_protect
    rw [if_neg (by show ¬ s.gc.roottop < MAXFRAMES; omega)]
  rw [lift_fatal hp]
  rfl

/-- One call of `lisp_read_list` on a list of atoms, up to its nested call
for the rest of the list. -/
theorem flat_list_step (n f : Nat) (s : lisp) (dl : Char) (rest : List Char)
    (hd : ATOMCHAR dl = false) (hwf : s.tab.wf)
    (hroom : s.gc.allocptr + 1 ≤ s.gc.fromspace + HEAPSIZE)
    (hblock : s.gc.fromspace + HEAPSIZE ≤ 2 * HEAPSIZE)
    (hfr : s.gc.roottop < MAXFRAMES)
    (hsl : s.gc.numroots + 3 ≤ MAXROOTS)
    (hst : s.gc.sp + 3 + 4 ≤ STACKCAP)
    (hbelow : ∀ k, k < s.gc.numroots → s.gc.roots.get k < s.gc.sp)
    (hp : s.token_peek = ((flat_list (n + 1)).list_rem ++ dl :: rest).head?)
    (hi : s.input = ((flat_list (n + 1)).list_rem ++ dl :: rest).tail) :
    ∃ s3 : lisp, lisp_read_list (f + 1) (flat_list (n + 1)).list_tok s =
        ((lisp_read_list f (flat_list n).list_tok s3).bind fun tmp s4 =>
          (lift (new_cons ((s4.lset (s.gc.sp + 1) tmp).lget s.gc.sp)
            ((s4.lset (s.gc.sp + 1) tmp).lget (s.gc.sp + 1))) (s4.lset (s.gc.sp + 1) tmp)).bind
            fun obj2 s6 =>
          (lift gc_pop (s6.lset (s.gc.sp + 2) obj2)).bind fun _ s7 =>
          .ret (s7.lget (s.gc.sp + 2)) (s7.leave s.gc.sp)) ∧
      s.gc.inside s3.gc ∧ s3.gc.allocptr = s.gc.allocptr + 1 ∧ s3.tab.wf ∧
      s3.token_peek = ((flat_list n).list_rem ++ dl :: rest).head? ∧
      s3.input = ((flat_list n).list_rem ++ dl :: rest).tail := by
  obtain ⟨c, r, ec, hcd⟩ := sx.tail_eq (flat_list n)
  have el3 : (flat_list (n + 1)).list_rem ++ dl :: rest
      = (sx.atom ['a']).after_first ++ c :: (r ++ dl :: rest) := by
    show ((sx.atom ['a']).after_first ++ (flat_list n).tail) ++ dl :: rest = _
    rw [ec]; simp
  have el4 : c :: (r ++ dl :: rest) = (flat_list n).tail ++ dl :: rest := by rw [ec]; simp
  rw [el3] at hp hi
  obtain ⟨g1, ee, ep, hin, ha1⟩ := read_list_enter s.gc (by omega) hfr hsl
  obtain ⟨obj, s2, e2, r2⟩ := reads_obj_atom ['a'] (flat_list_valid 1).1 f
    { s with gc := g1 } c (r ++ dl :: rest) hcd
    ⟨hwf, by show g1.allocptr + 1 ≤ g1.fromspace + _; rw [ha1, hin.fromspace]; omega,
      by show g1.fromspace + _ ≤ _; rw [hin.fromspace]; exact hblock,
      by show g1.roottop + 0 ≤ _; rw [hin.roottop]; omega,
      by show g1.numroots + 3 * 0 ≤ _; rw [hin.numroots]; omega,
      by show g1.sp + 3 * 0 + 4 ≤ _; rw [hin.sp]; omega,
      hin.roots_below hbelow⟩ hp hi
  have hin2 : s.gc.inside s2.gc := hin.grown r2.state.gc
  have ha2 : s2.gc.allocptr = s.gc.allocptr + 1 := by
    rw [r2.alloc]; show g1.allocptr + 1 = _; rw [ha1]
  have hin2' : s.gc.inside (s2.lset s.gc.sp obj).gc := hin2.setl _ _ (le_refl _)
  have hstream2 : (s2.lset s.gc.sp obj).feed ((flat_list n).tail ++ dl :: rest)
      = s2.lset s.gc.sp obj := by
    rw [← el4]
    exact feed_of_stream _ _ r2.state.peek r2.state.input
  have hunf := read_list_unfold f (flat_list (n + 1)).list_tok s g1 obj s2
    (show tok0 "a" ≠ ')' by decide) ee ep e2
  obtain ⟨ht, hdot⟩ := read_token_tail (s2.lset s.gc.sp obj) (flat_list n) dl rest
    (flat_list_valid n) (flat_list_not_atom n) hd
  rw [hstream2] at ht
  rw [ht, Res.bind_ret, if_neg hdot] at hunf
  exact ⟨_, hunf, hin2', ha2, intern_string_wf _ _ r2.state.wf, rfl, rfl⟩

/-- `lisp_read_list` on a list of `n + 1` atoms with fewer than `n + 2` free
frames in the registry: the assertion of `gc_protect` fails, at the entry of
a nested call or in `new_cons`. -/
theorem flat_list_fatal (n : Nat) : ∀ (f : Nat) (s : lisp) (dl : Char) (rest : List Char),
    n + 1 ≤ f → ATOMCHAR dl = false → s.tab.wf →
    s.gc.allocptr + (MAXFRAMES - s.gc.roottop) ≤ s.gc.fromspace + HEAPSIZE →
    s.gc.fromspace + HEAPSIZE ≤ 2 * HEAPSIZE →
    s.gc.numroots + 3 * (MAXFRAMES - s.gc.roottop) ≤ MAXROOTS →
    s.gc.sp + 3 * (MAXFRAMES - s.gc.roottop) + 4 ≤ STACKCAP →
    (∀ k, k < s.gc.numroots → s.gc.roots.get k < s.gc.sp) →
    MAXFRAMES < s.gc.roottop + (n + 2) →
    s.token_peek = ((flat_list (n + 1)).list_rem ++ dl :: rest).head? →
    s.input = ((flat_list (n + 1)).list_rem ++ dl :: rest).tail →
    lisp_read_list (f + 1) (flat_list (n + 1)).list_tok s
      = .fatal "Assertion failed: roottop < MAXFRAMES" := by
  induction n with
  | zero =>
    intro f s dl rest hf hd hwf hroom hblock hsl hst hbelow hfr hp hi
    by_cases hfull : MAXFRAMES ≤ s.gc.roottop
    · exact read_list_no_frame f _ s (show tok0 "a" ≠ ')' by decide) (by omega) hfull
    · obtain ⟨s3, e3, hin3, _, _, _, _⟩ := flat_list_step 0 f s dl rest hd hwf (by omega) hblock
        (by omega) (by omega) (by omega) hbelow hp hi
      rw [e3]
      obtain ⟨f1, rfl⟩ : ∃ f1, f = f1 + 1 := ⟨f - 1, by omega⟩
      have e4 : lisp_read_list (f1 + 1) (flat_list 0).list_tok s3 = .ret .null s3 := by
        unfold lisp_read_list
        rw [if_pos (by decide)]
      rw [e4, Res.bind_ret]
      have e5 := new_cons_no_frame ((s3.lset (s.gc.sp + 1) .null).lget s.gc.sp)
        ((s3.lset (s.gc.sp + 1) .null).lget (s.gc.sp + 1)) (s3.lset (s.gc.sp + 1) .null).gc
        (by show s3.gc.sp + 2 ≤ _; rw [hin3.sp]; omega)
        (by show _ ≤ s3.gc.roottop; rw [hin3.roottop]; omega)
      rw [lift_fatal e5]
      rfl
  | succ n ih =>
    intro f s dl rest hf hd hwf hroom hblock hsl hst hbelow hfr hp hi
    by_cases hfull : MAXFRAMES ≤ s.gc.roottop
    · exact read_list_no_frame f _ s (show tok0 "a" ≠ ')' by decide) (by omega) hfull
    · obtain ⟨s3, e3, hin3, ha3, hwf3, hp3, hi3⟩ := flat_list_step (n + 1) f s dl rest hd hwf
        (by omega) hblock (by omega) (by omega) (by omega) hbelow hp hi
      rw [e3]
      obtain ⟨f1, rfl⟩ : ∃ f1, f = f1 + 1 := ⟨f - 1, by omega⟩
      rw [ih f1 s3 dl rest (by omega) hd hwf3
        (by rw [ha3, hin3.roottop, hin3.fromspace]; omega)
        (by rw [hin3.fromspace]; exact hblock)
        (by rw [hin3.numroots, hin3.roottop]; omega)
        (by rw [hin3.sp, hin3.roottop]; omega)
        (hin3.roots_below hbelow)
        (by rw [hin3.roottop]; omega) hp3 hi3]
      rfl

/-! ## Reading what the printer prints -/

/-- `lisp_read` on the text of a list that is not empty reads two tokens and
calls `lisp_read_list`. -/
theorem lisp_read_pair (a d : sx) (hv : (sx.pair a d).valid) (fuel : Nat) (s : lisp)
    (ws : List Char) (dl : Char) (rest : List Char)
    (hw : ∀ c ∈ ws, isspace c = true) (hd : ATOMCHAR dl = false) (hwf : s.tab.wf)
    (hp : s.token_peek = (ws ++ ((sx.pair a d).text ++ dl :: rest)).head?)
    (hi : s.input = (ws ++ ((sx.pair a d).text ++ dl :: rest)).tail) :
    ∃ s2 : lisp, lisp_read fuel s = lisp_read_list fuel (sx.pair a d).list_tok s2 ∧
      s2.gc = s.gc ∧ s2.tab.wf ∧
      s2.token_peek = ((sx.pair a d).list_rem ++ dl :: rest).head? ∧
      s2.input = ((sx.pair a d).list_rem ++ dl :: rest).tail := by
  have hs := feed_of_stream s _ hp hi
  have ht := read_token_value s (.pair a d) ws dl rest hv hw hd
  rw [hs] at ht
  obtain ⟨c, r, ec, hcd⟩ := sx.tail_eq d
  have el : (sx.pair a d).after_first = a.text ++ c :: r := by
    show (sx.pair a d).text.tail = _
    rw [sx.text_pair, List.tail_cons, ec]
  have el2 : [] ++ (a.text ++ c :: (r ++ dl :: rest))
      = (sx.pair a d).after_first ++ dl :: rest := by
    rw [el]; simp
  have el3 : (sx.pair a d).list_rem ++ dl :: rest
      = a.after_first ++ c :: (r ++ dl :: rest) := by
    show (a.after_first ++ d.tail) ++ dl :: rest = _
    rw [ec]; simp
  have ht2 := read_token_value
    (s.after_token (sx.pair a d).first_tok ((sx.pair a d).after_first ++ dl :: rest)) a []
    c (r ++ dl :: rest) hv.1 (by simp) hcd
  rw [el2, feed_of_stream _ _ rfl rfl] at ht2
  refine ⟨(s.after_token (sx.pair a d).first_tok
    ((sx.pair a d).after_first ++ dl :: rest)).after_token a.first_tok
      (a.after_first ++ c :: (r ++ dl :: rest)), ?_, ?_, ?_, ?_, ?_⟩
  · unfold lisp_read
    have h1 : tok0 (sx.pair a d).first_tok ≠ ')' := show tok0 "(" ≠ ')' by decide
    have h2 : ¬ tok0 (sx.pair a d).first_tok ≠ '(' := show ¬ tok0 "(" ≠ '(' by decide
    rw [ht, Res.bind_ret, if_pos h1]
    unfold lisp_read_obj lisp_read_obj_with
    rw [if_neg h2, ht2, Res.bind_ret]
    rfl
  · rfl
  · exact intern_string_wf _ _ (intern_string_wf _ _ hwf)
  · rw [el3]; rfl
  · rw [el3]; rfl

/-- C20: `lisp_read_list` holds one frame of the registry for each element of
a list while it reads the rest, and `new_cons` opens one more. For a list of
`n` atoms read at the registry depth `roottop`, in a state with room in the
heap, in the registry's slots and on the C stack: when
`roottop + n + 1 ≤ MAXFRAMES` the read returns the list and the registry is
as before; when `n ≥ 1` and `roottop + n + 1 > MAXFRAMES` the assertion
`roottop < MAXFRAMES` of `gc_protect` fails. So at the depth `1` of the top
level the read returns for `n ≤ 48` and is fatal for every `n ≥ 49`. -/
theorem C20_reader_frames (n fuel : Nat) (s : lisp) (ws : List Char) (dl : Char)
    (rest : List Char) (hf : 2 * n + 1 ≤ fuel)
    (hw : ∀ c ∈ ws, isspace c = true) (hd : ATOMCHAR dl = false) (hwf : s.tab.wf)
    (hroom : s.gc.allocptr + 2 * MAXFRAMES ≤ s.gc.fromspace + HEAPSIZE)
    (hblock : s.gc.fromspace + HEAPSIZE ≤ 2 * HEAPSIZE)
    (hsl : s.gc.numroots + 3 * MAXFRAMES ≤ MAXROOTS)
    (hst : s.gc.sp + 3 * MAXFRAMES + 4 ≤ STACKCAP)
    (hbelow : ∀ k, k < s.gc.numroots → s.gc.roots.get k < s.gc.sp)
    (hp : s.token_peek = (ws ++ ((flat_list n).text ++ dl :: rest)).head?)
    (hi : s.input = (ws ++ ((flat_list n).text ++ dl :: rest)).tail) :
    (s.gc.roottop + n + 1 ≤ MAXFRAMES →
      ∃ p s1, lisp_read fuel s = .ret p s1 ∧ s1.holds p (flat_list n) ∧
        s1.gc.roottop = s.gc.roottop ∧ s1.gc.numroots = s.gc.numroots) ∧
    (0 < n → MAXFRAMES < s.gc.roottop + n + 1 →
      lisp_read fuel s = .fatal "Assertion failed: roottop < MAXFRAMES") ∧
    (s.gc.roottop = 1 →
      (n ≤ 48 → ∃ p s1, lisp_read fuel s = .ret p s1 ∧ s1.holds p (flat_list n)) ∧
      (49 ≤ n → lisp_read fuel s = .fatal "Assertion failed: roottop < MAXFRAMES")) := by
  have hok : s.gc.roottop + n + 1 ≤ MAXFRAMES →
      ∃ p s1, lisp_read fuel s = .ret p s1 ∧ s1.holds p (flat_list n) ∧
        s1.gc.roottop = s.gc.roottop ∧ s1.gc.numroots = s.gc.numroots := by
    intro h
    have hfr : (flat_list n).frames ≤ n + 1 := by
      cases n with
      | zero => show 0 ≤ _; omega
      | succ m => rw [flat_list_frames]
    have hM : MAXFRAMES = 50 := rfl
    obtain ⟨p, s1, e1, r1⟩ := lisp_read_value (flat_list n) (flat_list_valid n) fuel
      (by rw [flat_list_size]; exact hf) s ws dl rest hw hd
      ⟨hwf, by rw [flat_list_cells]; omega, hblock, by omega, by omega, by omega, hbelow⟩ hp hi
    exact ⟨p, s1, e1, r1.holds, r1.state.gc.roottop, r1.state.gc.numroots⟩
  have hbad : 0 < n → MAXFRAMES < s.gc.roottop + n + 1 →
      lisp_read fuel s = .fatal "Assertion failed: roottop < MAXFRAMES" := by
    intro h0 h
    obtain ⟨m, rfl⟩ : ∃ m, n = m + 1 := ⟨n - 1, by omega⟩
    obtain ⟨f, rfl⟩ : ∃ f, fuel = f + 1 := ⟨fuel - 1, by omega⟩
    obtain ⟨s2, e2, hg2, hwf2, hp2, hi2⟩ := lisp_read_pair (.atom ['a']) (flat_list m)
      (flat_list_valid (m + 1)) (f + 1) s ws dl rest hw hd hwf hp hi
    rw [e2]
    exact flat_list_fatal m f s2 dl rest (by omega) hd hwf2 (by rw [hg2]; omega)
      (by rw [hg2]; exact hblock) (by rw [hg2]; omega) (by rw [hg2]; omega)
      (by rw [hg2]; exact hbelow) (by rw [hg2]; omega) hp2 hi2
  refine ⟨hok, hbad, fun h1 => ⟨fun h => ?_, fun h => ?_⟩⟩
  · obtain ⟨p, s1, e1, r1, _, _⟩ := hok (by rw [h1]; show _ ≤ 50; omega)
    exact ⟨p, s1, e1, r1⟩
  · exact hbad (by omega) (by rw [h1]; show 50 < _; omega)

set_option maxRecDepth 1000000 in
/-- The state in which `main` reads a list of two atoms. -/
theorem top_state_two :
    (∀ x ∈ (top_state "(a a)\n".toList).tab.items,
        x.addr < (top_state "(a a)\n".toList).tab.brk) ∧
    ((top_state "(a a)\n".toList).tab.items.map intern.addr).Nodup ∧
    (top_state "(a a)\n".toList).gc.allocptr + 2 * MAXFRAMES
      ≤ (top_state "(a a)\n".toList).gc.fromspace + HEAPSIZE ∧
    (top_state "(a a)\n".toList).gc.fromspace + HEAPSIZE ≤ 2 * HEAPSIZE ∧
    (top_state "(a a)\n".toList).gc.numroots + 3 * MAXFRAMES ≤ MAXROOTS ∧
    (top_state "(a a)\n".toList).gc.sp + 3 * MAXFRAMES + 4 ≤ STACKCAP ∧
    (∀ k, k < (top_state "(a a)\n".toList).gc.numroots →
      (top_state "(a a)\n".toList).gc.roots.get k < (top_state "(a a)\n".toList).gc.sp) ∧
    (top_state "(a a)\n".toList).token_peek = some ' ' ∧
    (top_state "(a a)\n".toList).input = "(a a)\n".toList ∧
    (top_state "(a a)\n".toList).gc.roottop = 1 := by
  decide!

set_option maxRecDepth 1000000 in
/-- The state in which `main` reads a list of 49 atoms. -/
theorem top_state_49 :
    (∀ x ∈ (top_state ((flat_list 49).text ++ ['\n'])).tab.items,
        x.addr < (top_state ((flat_list 49).text ++ ['\n'])).tab.brk) ∧
    ((top_state ((flat_list 49).text ++ ['\n'])).tab.items.map intern.addr).Nodup ∧
    (top_state ((flat_list 49).text ++ ['\n'])).gc.allocptr + 2 * MAXFRAMES
      ≤ (top_state ((flat_list 49).text ++ ['\n'])).gc.fromspace + HEAPSIZE ∧
    (top_state ((flat_list 49).text ++ ['\n'])).gc.fromspace + HEAPSIZE ≤ 2 * HEAPSIZE ∧
    (top_state ((flat_list 49).text ++ ['\n'])).gc.numroots + 3 * MAXFRAMES ≤ MAXROOTS ∧
    (top_state ((flat_list 49).text ++ ['\n'])).gc.sp + 3 * MAXFRAMES + 4 ≤ STACKCAP ∧
    (∀ k, k < (top_state ((flat_list 49).text ++ ['\n'])).gc.numroots →
      (top_state ((flat_list 49).text ++ ['\n'])).gc.roots.get k
        < (top_state ((flat_list 49).text ++ ['\n'])).gc.sp) ∧
    (top_state ((flat_list 49).text ++ ['\n'])).token_peek = some ' ' ∧
    (top_state ((flat_list 49).text ++ ['\n'])).input = (flat_list 49).text ++ ['\n'] ∧
    (top_state ((flat_list 49).text ++ ['\n'])).gc.roottop = 1 := by
  decide!

/-- From the top level of `main`, whose frame is the one frame of the
registry, the list `(a a)` is read, and the read of the list of 49 atoms
fails the assertion. -/
theorem C20_reader_frames_witness :
    ((top_state "(a a)\n".toList).gc.roottop = 1 ∧
      ∃ p s1, lisp_read 5 (top_state "(a a)\n".toList) = .ret p s1 ∧
        s1.holds p (flat_list 2)) ∧
    ((top_state ((flat_list 49).text ++ ['\n'])).gc.roottop = 1 ∧
      lisp_read 99 (top_state ((flat_list 49).text ++ ['\n']))
        = .fatal "Assertion failed: roottop < MAXFRAMES") :=
  ⟨⟨top_state_two.2.2.2.2.2.2.2.2.2,
    ((C20_reader_frames 2 5 (top_state "(a a)\n".toList) [' '] '\n' [] (by decide)
      (by decide) (by decide) ⟨top_state_two.1, top_state_two.2.1⟩ top_state_two.2.2.1
      top_state_two.2.2.2.1 top_state_two.2.2.2.2.1 top_state_two.2.2.2.2.2.1
      top_state_two.2.2.2.2.2.2.1 top_state_two.2.2.2.2.2.2.2.1
      (by rw [top_state_two.2.2.2.2.2.2.2.2.1]; rfl)).2.2
        top_state_two.2.2.2.2.2.2.2.2.2).1 (by decide)⟩,
   ⟨top_state_49.2.2.2.2.2.2.2.2.2,
    ((C20_reader_frames 49 99 (top_state ((flat_list 49).text ++ ['\n'])) [' '] '\n' []
      (by decide) (by decide) (by decide) ⟨top_state_49.1, top_state_49.2.1⟩ top_state_49.2.2.1
      top_state_49.2.2.2.1 top_state_49.2.2.2.2.1 top_state_49.2.2.2.2.2.1
      top_state_49.2.2.2.2.2.2.1 top_state_49.2.2.2.2.2.2.2.1
      (by rw [top_state_49.2.2.2.2.2.2.2.2.1]; rfl)).2.2
        top_state_49.2.2.2.2.2.2.2.2.2).2 (by decide)⟩⟩

/-! ## Malformed input -/

theorem lisp.ready.can_read {s : lisp} {nf nc : Nat} (h : s.ready nf nc) : s.can_read nf nc :=
  ⟨h.1, h.2.1, h.2.2.1, h.2.2.2.1, h.2.2.2.2.1, h.2.2.2.2.2.1, h.2.2.2.2.2.2⟩

set_option maxRecDepth 10000000 in
/-- C5 (the code departs from the claim): an application whose operator is
neither a native function nor a closure returns through the last
`return NULL` of `lisp_eval`, after the `gc_protect` of the application and
without a `gc_pop`. From the top level of `main`, with one frame and four
slots in the registry, the turn of the loop that reads and evaluates `(1)`
returns with two frames and ten slots; and with `(1)` fifty times in the
input, the forty-nine frames that are left fill the registry and the read of
the fiftieth fails the assertion `roottop < MAXFRAMES`. -/
theorem C5_non_function_operator_leaves_frame :
    ((top_state "(1)\n".toList).gc.roottop = 1 ∧ (top_state "(1)\n".toList).gc.numroots = 4) ∧
    ((lisp_read 10 (top_state "(1)\n".toList)).bind fun p s =>
      lisp_eval 10 p (s.lget MAIN_ENV) s).value = some .null ∧
    (main_step 10 false (top_state "(1)\n".toList)).registry = some (2, 10) ∧
    run 10 50 false (repeat_text "(1) " 50)
      = .fatal "Assertion failed: roottop < MAXFRAMES" := by
  decide!

/-! ## The `cond` block -/

/-! ### Fields that a store to a local and the entry of a call keep -/

theorem entered_sp (vals : List ptr) (g : gc) : (entered vals g).sp = g.sp + vals.length := rfl

theorem lisp.returned_numroots (s : lisp) (vals : List ptr) :
    (s.returned vals).gc.numroots = s.gc.numroots := rfl

theorem lisp.with_stack_numroots (s : lisp) (st : Arr ptr) :
    (s.with_stack st).gc.numroots = s.gc.numroots := rfl

theorem lisp.returned_fromspace (s : lisp) (vals : List ptr) :
    (s.returned vals).gc.fromspace = s.gc.fromspace := rfl

theorem lisp.with_stack_fromspace (s : lisp) (st : Arr ptr) :
    (s.with_stack st).gc.fromspace = s.gc.fromspace := rfl

theorem lisp.leave_mem (s : lisp) (b : Nat) : (s.leave b).gc.mem = s.gc.mem := rfl

theorem lisp.leave_tab (s : lisp) (b : Nat) : (s.leave b).tab = s.tab := rfl

/-- The loop over the body of a closure whose body is empty. -/
theorem eval_body_none (ev : ptr → ptr → lisp → Res lisp ptr) (s : lisp) (n b : Nat)
    (h15 : s.lget (b + 15) = .null) :
    eval_body_loop ev (n + 1) b s = .ret false s := by
  unfold eval_body_loop
  rw [if_pos h15]

/-! ## From `restart` to the loops of a closure application -/

end Komplott
